import Mathlib

/-!
Formal model of `src/graph_algorithms.cpp` (package `graph_c`): a union-find
(disjoint-set) engine with path compression and union-by-rank, connected
component labeling, batched connectivity queries, bounded breadth-first
shortest-path queries, degree/density statistics, multi-pattern fixed-string
matching, and multi-column record grouping.

Modelling conventions:
* machine `int` values are modelled as `Int` (no arithmetic in the source
  approaches 32-bit overflow for the properties under consideration);
* C++ `std::string` byte strings are modelled as `List Nat` (byte lists);
* `double` aggregates (mean degree, density) are modelled as `Rat`;
* fallible behaviour (a throwing `std::vector` constructor on a negative
  size, undefined behaviour of `std::min_element` on an empty range) is
  modelled with `Except`.
-/

namespace GraphC

/-- State of the C++ `UnionFind` class (graph_algorithms.cpp lines 10-49):
the `parent` and `rank` arrays. -/
structure UnionFind where
  parent : List Nat
  rank : List Nat
deriving Repr, DecidableEq

/-- Constructor `UnionFind(int n)` (lines 16-20): every node its own parent,
all ranks zero.  (The negative-size failure of the underlying
`std::vector` constructor is modelled at the entry-point wrappers.) -/
def UnionFind.init (n : Nat) : UnionFind :=
  { parent := List.range n, rank := List.replicate n 0 }

/-- Method `UnionFind::find` (lines 22-27), recursive with path compression:
`if (parent[x] != x) parent[x] = find(parent[x]); return parent[x];`.
The C++ recursion is modelled with a fuel argument; fuel `parent.length`
always suffices on well-formed states (theorem `find_spec`). -/
def UnionFind.findAux : Nat → UnionFind → Nat → Nat × UnionFind
  | 0, s, x => (x, s)
  | fuel+1, s, x =>
    let px := s.parent.getD x x
    if px = x then (x, s)
    else
      let r := UnionFind.findAux fuel s px
      (r.1, { r.2 with parent := r.2.parent.set x r.1 })

/-- Entry to `UnionFind::find` with the always-sufficient fuel. -/
def UnionFind.find (s : UnionFind) (x : Nat) : Nat × UnionFind :=
  UnionFind.findAux s.parent.length s x

/-- Method `UnionFind::union_sets` (lines 29-44): find both roots; if equal
return `false`; otherwise attach by rank, breaking ties by attaching `py`
under `px` and incrementing `rank[px]`. -/
def UnionFind.union_sets (s : UnionFind) (x y : Nat) : Bool × UnionFind :=
  let fx := s.find x
  let px := fx.1
  let fy := fx.2.find y
  let py := fy.1
  let s2 := fy.2
  if px = py then (false, s2)
  else if s2.rank.getD px 0 < s2.rank.getD py 0 then
    (true, { s2 with parent := s2.parent.set px py })
  else if s2.rank.getD py 0 < s2.rank.getD px 0 then
    (true, { s2 with parent := s2.parent.set py px })
  else
    (true, { parent := s2.parent.set py px,
             rank := s2.rank.set px (s2.rank.getD px 0 + 1) })

/-- Method `UnionFind::connected` (lines 46-48): `find(x) == find(y)`,
including the mutation both `find` calls perform. -/
def UnionFind.connected (s : UnionFind) (x y : Nat) : Bool × UnionFind :=
  let fx := s.find x
  let fy := fx.2.find y
  (fx.1 == fy.1, fy.2)

/-! ### Parent-chain theory

Specification-side machinery: the parent chain of a node, its root, and the
well-formedness invariant maintained by the C++ class. -/

/-- One step of the parent chain.  Out-of-range indices are their own
parent (they are never touched by the code). -/
def pstep (p : List Nat) (x : Nat) : Nat := p.getD x x

/-- A root is a fixed point of the parent map. -/
def IsRoot (p : List Nat) (r : Nat) : Prop := p.getD r r = r

instance (p : List Nat) (r : Nat) : Decidable (IsRoot p r) := by
  unfold IsRoot; infer_instance

/-- Non-mutating root computation: iterate the parent chain to a fixed
point, with fuel. -/
def rootAux : Nat → List Nat → Nat → Nat
  | 0, _, x => x
  | fuel+1, p, x => if p.getD x x = x then x else rootAux fuel p (p.getD x x)

/-- Root of a node, computed with the always-sufficient fuel
`p.length`. -/
def rootOf (p : List Nat) (x : Nat) : Nat := rootAux p.length p x

/-- Well-formedness invariant of a union-find state: ranks and parents have
the same length, parents of in-range nodes are in range, and the rank
strictly increases along non-trivial parent edges (the classic
union-by-rank invariant; it makes the parent forest acyclic). -/
structure WF (s : UnionFind) : Prop where
  rank_len : s.rank.length = s.parent.length
  parent_lt : ∀ i, i < s.parent.length → s.parent.getD i i < s.parent.length
  rank_lt : ∀ i, s.parent.getD i i ≠ i →
    s.rank.getD i 0 < s.rank.getD (s.parent.getD i i) 0

theorem pstep_lt {s : UnionFind} (hwf : WF s) {x : Nat}
    (hx : x < s.parent.length) : pstep s.parent x < s.parent.length :=
  hwf.parent_lt x hx

theorem rootAux_succ (p : List Nat) (x fuel : Nat) :
    rootAux (fuel+1) p x =
      if p.getD x x = x then x else rootAux fuel p (p.getD x x) := rfl

theorem pstep_of_ge {p : List Nat} {x : Nat} (hx : p.length ≤ x) :
    pstep p x = x :=
  List.getD_eq_default _ _ hx

theorem iter_pstep_lt {s : UnionFind} (hwf : WF s) {x : Nat}
    (hx : x < s.parent.length) (k : Nat) :
    (pstep s.parent)^[k] x < s.parent.length := by
  induction k generalizing x with
  | zero => simpa using hx
  | succ k ih =>
    rw [Function.iterate_succ_apply]
    exact ih (pstep_lt hwf hx)

theorem iter_fixed {p : List Nat} {r : Nat} (hr : IsRoot p r) (k : Nat) :
    (pstep p)^[k] r = r := by
  induction k with
  | zero => rfl
  | succ k ih => rw [Function.iterate_succ_apply, pstep, hr]; exact ih

/-- The root reached from a node is unique. -/
theorem root_unique {p : List Nat} {x r r2 : Nat} {k m : Nat}
    (hk : (pstep p)^[k] x = r) (hr : IsRoot p r)
    (hm : (pstep p)^[m] x = r2) (hr2 : IsRoot p r2) : r = r2 := by
  rcases Nat.le_total k m with h | h
  · obtain ⟨d, rfl⟩ := Nat.exists_eq_add_of_le h
    rw [Nat.add_comm, Function.iterate_add_apply, hk, iter_fixed hr] at hm
    exact hm
  · obtain ⟨d, rfl⟩ := Nat.exists_eq_add_of_le h
    rw [Nat.add_comm, Function.iterate_add_apply, hm, iter_fixed hr2] at hk
    exact hk.symm

/-- On the way to a root, ranks strictly increase, hence the chain visits
pairwise distinct nodes; with at most `n` nodes a root is reached within
`n` steps. -/
theorem rank_iter_strict {s : UnionFind} (hwf : WF s) {x : Nat} {m : Nat}
    (hnr : ∀ j, j < m → ¬ IsRoot s.parent ((pstep s.parent)^[j] x)) :
    ∀ k l, k < l → l ≤ m →
      s.rank.getD ((pstep s.parent)^[k] x) 0 <
        s.rank.getD ((pstep s.parent)^[l] x) 0 := by
  intro k l hkl hlm
  induction l with
  | zero => omega
  | succ l ih =>
    have hstep : s.rank.getD ((pstep s.parent)^[l] x) 0 <
        s.rank.getD ((pstep s.parent)^[l+1] x) 0 := by
      have hnroot := hnr l (by omega)
      rw [Function.iterate_succ_apply']
      exact hwf.rank_lt _ hnroot
    rcases Nat.lt_or_ge k l with h | h
    · exact lt_trans (ih h (by omega)) hstep
    · have : k = l := by omega
      subst this; exact hstep

/-- Under the invariant, every in-range node reaches a root within
`n` steps (pigeonhole on the strictly-increasing ranks). -/
theorem exists_root {s : UnionFind} (hwf : WF s) {x : Nat}
    (hx : x < s.parent.length) :
    ∃ k, k ≤ s.parent.length ∧ IsRoot s.parent ((pstep s.parent)^[k] x) := by
  by_contra hcon
  push_neg at hcon
  set n := s.parent.length with hn
  have hnr : ∀ j, j < n + 1 → ¬ IsRoot s.parent ((pstep s.parent)^[j] x) := by
    intro j hj
    exact hcon j (by omega)
  have hpos : 0 < n := by
    rcases Nat.eq_zero_or_pos n with h | h
    · omega
    · exact h
  have hf : ∀ k : Fin (n + 1), (pstep s.parent)^[k.1] x < n :=
    fun k => iter_pstep_lt hwf hx k.1
  obtain ⟨a, b, hab, heq⟩ :=
    Fintype.exists_ne_map_eq_of_card_lt
      (fun k : Fin (n + 1) => (⟨(pstep s.parent)^[k.1] x, hf k⟩ : Fin n))
      (by simp)
  have hne : a.1 ≠ b.1 := fun h => hab (Fin.ext h)
  have heq2 : (pstep s.parent)^[a.1] x = (pstep s.parent)^[b.1] x :=
    congrArg Fin.val heq
  rcases Nat.lt_or_ge a.1 b.1 with h | h
  · have hlt := rank_iter_strict hwf hnr a.1 b.1 h (by omega)
    rw [heq2] at hlt
    exact absurd hlt (lt_irrefl _)
  · have hba : b.1 < a.1 := by omega
    have hlt := rank_iter_strict hwf hnr b.1 a.1 hba (by omega)
    rw [heq2] at hlt
    exact absurd hlt (lt_irrefl _)

theorem rootAux_spec {p : List Nat} {x : Nat} {fuel : Nat}
    (h : ∃ k, k ≤ fuel ∧ IsRoot p ((pstep p)^[k] x)) :
    IsRoot p (rootAux fuel p x) ∧ ∃ k, rootAux fuel p x = (pstep p)^[k] x := by
  induction fuel generalizing x with
  | zero =>
    obtain ⟨k, hk, hr⟩ := h
    interval_cases k
    exact ⟨hr, 0, rfl⟩
  | succ fuel ih =>
    obtain ⟨k, hk, hr⟩ := h
    by_cases hx : p.getD x x = x
    · rw [rootAux_succ, if_pos hx]
      exact ⟨hx, 0, rfl⟩
    · have hk0 : k ≠ 0 := by
        rintro rfl
        exact hx hr
      have h2 : ∃ k2, k2 ≤ fuel ∧ IsRoot p ((pstep p)^[k2] (pstep p x)) := by
        refine ⟨k - 1, by omega, ?_⟩
        rw [← Function.iterate_succ_apply, Nat.succ_eq_add_one]
        have hksucc : k - 1 + 1 = k := by omega
        rw [hksucc]
        exact hr
      obtain ⟨hroot, k2, hiter⟩ := ih h2
      rw [rootAux_succ, if_neg hx]
      refine ⟨hroot, k2 + 1, ?_⟩
      rw [Function.iterate_succ_apply]
      exact hiter

/-- The root function really computes a root of the chain. -/
theorem rootOf_spec {s : UnionFind} (hwf : WF s) {x : Nat}
    (hx : x < s.parent.length) :
    IsRoot s.parent (rootOf s.parent x) ∧
      ∃ k, rootOf s.parent x = (pstep s.parent)^[k] x := by
  have h := exists_root hwf hx
  exact rootAux_spec h

theorem rootOf_isRoot {s : UnionFind} (hwf : WF s) {x : Nat}
    (hx : x < s.parent.length) : IsRoot s.parent (rootOf s.parent x) :=
  (rootOf_spec hwf hx).1

theorem rootOf_lt {s : UnionFind} (hwf : WF s) {x : Nat}
    (hx : x < s.parent.length) : rootOf s.parent x < s.parent.length := by
  obtain ⟨-, k, hk⟩ := rootOf_spec hwf hx
  rw [hk]
  exact iter_pstep_lt hwf hx k

theorem rootOf_eq_of_isRoot {p : List Nat} {x : Nat} (hx : IsRoot p x) :
    rootOf p x = x := by
  unfold rootOf
  cases hfuel : p.length with
  | zero => rfl
  | succ m =>
    unfold IsRoot at hx
    rw [rootAux_succ, if_pos hx]

/-- Characterization: the root is the unique reachable fixed point. -/
theorem rootOf_eq_of_reach {s : UnionFind} (hwf : WF s) {x r : Nat}
    (hx : x < s.parent.length) {k : Nat}
    (hk : (pstep s.parent)^[k] x = r) (hr : IsRoot s.parent r) :
    rootOf s.parent x = r := by
  obtain ⟨hroot, m, hm⟩ := rootOf_spec hwf hx
  exact root_unique hm.symm hroot hk hr

theorem rootOf_pstep {s : UnionFind} (hwf : WF s) {x : Nat}
    (hx : x < s.parent.length) :
    rootOf s.parent (pstep s.parent x) = rootOf s.parent x := by
  by_cases hfix : pstep s.parent x = x
  · rw [hfix]
  · obtain ⟨hroot, k, hk⟩ := rootOf_spec hwf hx
    have hk0 : k ≠ 0 := by
      rintro rfl
      rw [hk] at hroot
      exact hfix hroot
    refine @rootOf_eq_of_reach _ hwf _ _ (pstep_lt hwf hx) (k - 1) ?_ hroot
    rw [← Function.iterate_succ_apply, Nat.succ_eq_add_one]
    have hsucc : k - 1 + 1 = k := by omega
    rw [hsucc, hk]

theorem rank_le_root {s : UnionFind} (hwf : WF s) :
    ∀ (k y : Nat), y < s.parent.length → IsRoot s.parent ((pstep s.parent)^[k] y) →
      s.rank.getD y 0 ≤ s.rank.getD (rootOf s.parent y) 0 := by
  intro k
  induction k with
  | zero =>
    intro y hy hr
    simp only [Function.iterate_zero, id_eq] at hr
    rw [rootOf_eq_of_isRoot hr]
  | succ k ih =>
    intro y hy hr
    by_cases hfix : pstep s.parent y = y
    · have hroot : IsRoot s.parent y := hfix
      rw [rootOf_eq_of_isRoot hroot]
    · have h1 : s.rank.getD y 0 < s.rank.getD (pstep s.parent y) 0 :=
        hwf.rank_lt y hfix
      have h2 : IsRoot s.parent ((pstep s.parent)^[k] (pstep s.parent y)) := by
        rw [← Function.iterate_succ_apply]
        exact hr
      have h3 := ih (pstep s.parent y) (pstep_lt hwf hy) h2
      rw [rootOf_pstep hwf hy] at h3
      omega

theorem rank_lt_root {s : UnionFind} (hwf : WF s) {y : Nat}
    (hy : y < s.parent.length) (hfix : pstep s.parent y ≠ y) :
    s.rank.getD y 0 < s.rank.getD (rootOf s.parent y) 0 := by
  obtain ⟨k, _, hk⟩ := exists_root hwf (pstep_lt hwf hy)
  have h1 : s.rank.getD y 0 < s.rank.getD (pstep s.parent y) 0 :=
    hwf.rank_lt y hfix
  have h2 := rank_le_root hwf k (pstep s.parent y) (pstep_lt hwf hy) hk
  rw [rootOf_pstep hwf hy] at h2
  omega

theorem getD_set {l : List Nat} {i j v d : Nat} (h : i < l.length) :
    (l.set i v).getD j d = if i = j then v else l.getD j d := by
  simp [List.getD, List.getElem?_set, h]
  split
  · rename_i heq
    subst heq
    simp [h]
  · rfl

theorem pstep_set {p : List Nat} {a b : Nat} (ha : a < p.length) (i : Nat) :
    pstep (p.set a b) i = if a = i then b else pstep p i :=
  getD_set ha

theorem isRoot_of_rootOf_eq {s : UnionFind} (hwf : WF s) {z : Nat}
    (hz : z < s.parent.length) (h : rootOf s.parent z = z) :
    IsRoot s.parent z := by
  have := rootOf_isRoot hwf hz
  rwa [h] at this

/-- Setting the parent of `a` to a higher-ranked node `b` preserves the
invariant (covers the compression write and both strict-rank union
branches). -/
theorem wf_set_parent {s : UnionFind} (hwf : WF s) {a b : Nat}
    (ha : a < s.parent.length) (hb : b < s.parent.length)
    (hrank : s.rank.getD a 0 < s.rank.getD b 0) :
    WF ⟨s.parent.set a b, s.rank⟩ := by
  refine ⟨?_, ?_, ?_⟩
  · simpa using hwf.rank_len
  · intro i hi
    rw [List.length_set] at hi ⊢
    have := @pstep_set s.parent a b ha i
    unfold pstep at this
    rw [this]
    split
    · exact hb
    · exact hwf.parent_lt i hi
  · intro i hne
    have hps := @pstep_set s.parent a b ha i
    unfold pstep at hps
    rw [hps] at hne ⊢
    split at hne
    · rename_i heq
      subst heq
      rw [if_pos rfl]
      exact hrank
    · rename_i hneq
      rw [if_neg hneq]
      exact hwf.rank_lt i hne

/-- The tie-breaking union branch: attach root `a` under root `b` and bump
the rank of `b`; preserves the invariant. -/
theorem wf_set_tie {s : UnionFind} (hwf : WF s) {a b : Nat}
    (ha : a < s.parent.length) (hb : b < s.parent.length)
    (haroot : IsRoot s.parent a) (hbroot : IsRoot s.parent b) (hab : a ≠ b)
    (htie : s.rank.getD a 0 = s.rank.getD b 0) :
    WF ⟨s.parent.set a b, s.rank.set b (s.rank.getD b 0 + 1)⟩ := by
  have hblen : b < s.rank.length := by rw [hwf.rank_len]; exact hb
  have hrank_set : ∀ j, (s.rank.set b (s.rank.getD b 0 + 1)).getD j 0 =
      if b = j then s.rank.getD b 0 + 1 else s.rank.getD j 0 :=
    fun j => getD_set hblen
  refine ⟨?_, ?_, ?_⟩
  · simp [hwf.rank_len]
  · intro i hi
    rw [List.length_set] at hi ⊢
    have := @pstep_set s.parent a b ha i
    unfold pstep at this
    rw [this]
    split
    · exact hb
    · exact hwf.parent_lt i hi
  · intro i hne
    have hps := @pstep_set s.parent a b ha i
    unfold pstep at hps
    rw [hps] at hne ⊢
    by_cases hia : a = i
    · subst hia
      rw [if_pos rfl] at hne ⊢
      rw [hrank_set, hrank_set, if_neg (Ne.symm hab), if_pos rfl]
      omega
    · rw [if_neg hia] at hne ⊢
      have hlt := hwf.rank_lt i hne
      rw [hrank_set, hrank_set]
      by_cases hbi : b = i
      · subst hbi
        unfold IsRoot at hbroot
        exact absurd hbroot hne
      · rw [if_neg hbi]
        by_cases hbp : b = s.parent.getD i i
        · rw [if_pos hbp]
          rw [← hbp] at hlt
          omega
        · rw [if_neg hbp]
          exact hlt

/-- Transfer, root case: a node that is already a root of `p` reaches the
root predicted by the join formula in `p.set a b`. -/
theorem reach_set_root {s : UnionFind} (hwf : WF s) {a b : Nat}
    (ha : a < s.parent.length) (hbroot : IsRoot s.parent b) (hab : a ≠ b)
    (hcase : IsRoot s.parent a ∨ rootOf s.parent a = b)
    {z : Nat} (hr : IsRoot s.parent z) :
    ∃ m, (pstep (s.parent.set a b))^[m] z =
      (if rootOf s.parent z = rootOf s.parent a then b else rootOf s.parent z) := by
  have hrz : rootOf s.parent z = z := rootOf_eq_of_isRoot hr
  rw [hrz]
  by_cases hza : z = a
  · subst hza
    rw [hrz, if_pos rfl]
    refine ⟨1, ?_⟩
    simp only [Function.iterate_one]
    rw [pstep_set ha, if_pos rfl]
  · split
    · rename_i hcond
      rcases hcase with hrootA | hrootB
      · rw [rootOf_eq_of_isRoot hrootA] at hcond
        exact absurd hcond hza
      · rw [hrootB] at hcond
        subst hcond
        exact ⟨0, rfl⟩
    · exact ⟨0, rfl⟩

/-- Chain-transfer core: after `p.set a b` (with `b` a root, and either `a`
a root or `b` the root of `a`), every node reaches the root predicted by
the join formula. -/
theorem reach_set {s : UnionFind} (hwf : WF s) {a b : Nat}
    (ha : a < s.parent.length) (hbroot : IsRoot s.parent b) (hab : a ≠ b)
    (hcase : IsRoot s.parent a ∨ rootOf s.parent a = b) :
    ∀ (k z : Nat), z < s.parent.length →
      IsRoot s.parent ((pstep s.parent)^[k] z) →
      ∃ m, (pstep (s.parent.set a b))^[m] z =
        (if rootOf s.parent z = rootOf s.parent a then b else rootOf s.parent z) := by
  intro k
  induction k with
  | zero =>
    intro z _ hr
    exact reach_set_root hwf ha hbroot hab hcase hr
  | succ k ih =>
    intro z hz hr
    by_cases hfix : pstep s.parent z = z
    · exact reach_set_root hwf ha hbroot hab hcase hfix
    · by_cases hza : z = a
      · subst hza
        rcases hcase with hrootA | hrootB
        · exact absurd hrootA hfix
        · rw [if_pos rfl]
          refine ⟨1, ?_⟩
          simp only [Function.iterate_one]
          rw [pstep_set ha, if_pos rfl]
      · have hstep : pstep (s.parent.set a b) z = pstep s.parent z := by
          rw [pstep_set ha, if_neg (fun h => hza h.symm)]
        have hr2 : IsRoot s.parent ((pstep s.parent)^[k] (pstep s.parent z)) := by
          rw [← Function.iterate_succ_apply]
          exact hr
        obtain ⟨m, hm⟩ := ih (pstep s.parent z) (pstep_lt hwf hz) hr2
        rw [rootOf_pstep hwf hz] at hm
        refine ⟨m + 1, ?_⟩
        rw [Function.iterate_succ_apply, hstep]
        exact hm

/-- Root-transfer under a single parent write: for any rank array making the
new state well-formed, the roots of `p.set a b` are given by the join
formula.  With `b` the root of `a` (the path-compression write) the formula
collapses to "all roots unchanged"; with `a` itself a root (the union
write) it merges the class of `a` into the class of `b`. -/
theorem rootOf_set_eq {s : UnionFind} {r2 : List Nat} (hwf : WF s) {a b : Nat}
    (hwfq : WF ⟨s.parent.set a b, r2⟩)
    (ha : a < s.parent.length) (hbroot : IsRoot s.parent b) (hab : a ≠ b)
    (hcase : IsRoot s.parent a ∨ rootOf s.parent a = b)
    {z : Nat} (hz : z < s.parent.length) :
    rootOf (s.parent.set a b) z =
      if rootOf s.parent z = rootOf s.parent a then b else rootOf s.parent z := by
  obtain ⟨k, _, hkr⟩ := exists_root hwf hz
  obtain ⟨m, hm⟩ := reach_set hwf ha hbroot hab hcase k z hz hkr
  have hqb : IsRoot (s.parent.set a b) b := by
    unfold IsRoot
    rw [getD_set ha, if_neg hab]
    exact hbroot
  have htarget : IsRoot (s.parent.set a b)
      (if rootOf s.parent z = rootOf s.parent a then b else rootOf s.parent z) := by
    split
    · exact hqb
    · rename_i hcond
      have hrz : IsRoot s.parent (rootOf s.parent z) := rootOf_isRoot hwf hz
      have hne : a ≠ rootOf s.parent z := by
        intro heq
        have haroot : IsRoot s.parent a := heq ▸ hrz
        rcases hcase with hrootA | hrootB
        · apply hcond
          rw [← heq, rootOf_eq_of_isRoot haroot]
        · rw [rootOf_eq_of_isRoot haroot] at hrootB
          exact hab hrootB
      unfold IsRoot
      rw [getD_set ha, if_neg hne]
      exact hrz
  have hzq : z < (UnionFind.mk (s.parent.set a b) r2).parent.length := by
    simpa using hz
  obtain ⟨hqroot, k2, hk2⟩ := rootOf_spec hwfq hzq
  exact root_unique hk2.symm hqroot hm htarget

theorem findAux_succ (s : UnionFind) (x fuel : Nat) :
    UnionFind.findAux (fuel+1) s x =
      if s.parent.getD x x = x then (x, s)
      else
        ((UnionFind.findAux fuel s (s.parent.getD x x)).1,
         { (UnionFind.findAux fuel s (s.parent.getD x x)).2 with
           parent := (UnionFind.findAux fuel s (s.parent.getD x x)).2.parent.set x
             (UnionFind.findAux fuel s (s.parent.getD x x)).1 }) := rfl

/-- Full specification of the C++ `find`: it returns the root of its
argument, keeps the rank array and the node count, preserves the invariant
and changes no root (path compression only shortens chains). -/
theorem findAux_spec :
    ∀ (fuel : Nat) (s : UnionFind) (x : Nat), WF s → x < s.parent.length →
      (∃ k, k ≤ fuel ∧ IsRoot s.parent ((pstep s.parent)^[k] x)) →
      (s.findAux fuel x).1 = rootOf s.parent x ∧
      (s.findAux fuel x).2.parent.length = s.parent.length ∧
      (s.findAux fuel x).2.rank = s.rank ∧
      WF (s.findAux fuel x).2 ∧
      (∀ z, z < s.parent.length →
        rootOf (s.findAux fuel x).2.parent z = rootOf s.parent z) := by
  intro fuel
  induction fuel with
  | zero =>
    intro s x hwf hx h
    obtain ⟨k, hk, hr⟩ := h
    interval_cases k
    simp only [Function.iterate_zero, id_eq] at hr
    exact ⟨(rootOf_eq_of_isRoot hr).symm, rfl, rfl, hwf, fun z _ => rfl⟩
  | succ fuel ih =>
    intro s x hwf hx h
    rw [findAux_succ]
    by_cases hfix : s.parent.getD x x = x
    · rw [if_pos hfix]
      exact ⟨(rootOf_eq_of_isRoot hfix).symm, rfl, rfl, hwf, fun z _ => rfl⟩
    · rw [if_neg hfix]
      have hpx : s.parent.getD x x < s.parent.length := hwf.parent_lt x hx
      have h2 : ∃ k, k ≤ fuel ∧
          IsRoot s.parent ((pstep s.parent)^[k] (s.parent.getD x x)) := by
        obtain ⟨k, hk, hr⟩ := h
        have hk0 : k ≠ 0 := by
          rintro rfl
          exact hfix hr
        refine ⟨k - 1, by omega, ?_⟩
        show IsRoot s.parent ((pstep s.parent)^[k-1] (pstep s.parent x))
        rw [← Function.iterate_succ_apply, Nat.succ_eq_add_one]
        have hksucc : k - 1 + 1 = k := by omega
        rw [hksucc]
        exact hr
      obtain ⟨ih1, ihlen, ihrank, ihwf, ihroots⟩ := ih s (s.parent.getD x x) hwf hpx h2
      have hroot_px : rootOf s.parent (s.parent.getD x x) = rootOf s.parent x :=
        rootOf_pstep hwf hx
      have hres : (UnionFind.findAux fuel s (s.parent.getD x x)).1 = rootOf s.parent x := by
        rw [ih1, hroot_px]
      have hr_lt : rootOf s.parent x < s.parent.length := rootOf_lt hwf hx
      have hr_root : IsRoot s.parent (rootOf s.parent x) := rootOf_isRoot hwf hx
      have hxr : x ≠ rootOf s.parent x := by
        intro hxeq
        rw [← hxeq] at hr_root
        exact hfix hr_root
      have hwfq : WF ⟨(UnionFind.findAux fuel s (s.parent.getD x x)).2.parent.set x
          (UnionFind.findAux fuel s (s.parent.getD x x)).1,
          (UnionFind.findAux fuel s (s.parent.getD x x)).2.rank⟩ := by
        apply wf_set_parent ihwf
        · rw [ihlen]; exact hx
        · rw [ihlen, hres]; exact hr_lt
        · rw [ihrank, hres]
          exact rank_lt_root hwf hx hfix
      refine ⟨hres, ?_, ?_, ?_, ?_⟩
      · simp only [List.length_set]
        exact ihlen
      · exact ihrank
      · exact hwfq
      · intro z hz
        have hb_rootOf : rootOf (UnionFind.findAux fuel s (s.parent.getD x x)).2.parent
            (rootOf s.parent x) = rootOf s.parent x := by
          rw [ihroots _ hr_lt]
          exact rootOf_eq_of_isRoot hr_root
        have hbroot2 : IsRoot (UnionFind.findAux fuel s (s.parent.getD x x)).2.parent
            (rootOf s.parent x) := by
          apply isRoot_of_rootOf_eq ihwf _ hb_rootOf
          rw [ihlen]; exact hr_lt
        have hcase2 : rootOf (UnionFind.findAux fuel s (s.parent.getD x x)).2.parent x =
            rootOf s.parent x := ihroots x hx
        have hset := @rootOf_set_eq _ _ ihwf x (rootOf s.parent x)
          (by rw [← hres]; exact hwfq)
          (by rw [ihlen]; exact hx) hbroot2 hxr (Or.inr hcase2)
          z (by rw [ihlen]; exact hz)
        rw [← hres] at hset
        rw [hset]
        by_cases hzz : rootOf (UnionFind.findAux fuel s (s.parent.getD x x)).2.parent z =
            rootOf (UnionFind.findAux fuel s (s.parent.getD x x)).2.parent x
        · rw [if_pos hzz]
          rw [hcase2] at hzz
          rw [ihroots z hz] at hzz
          rw [hres, ← hzz]
        · rw [if_neg hzz]
          exact ihroots z hz

/-- Specification of `UnionFind::find` at the standard fuel. -/
theorem find_spec {s : UnionFind} {x : Nat} (hwf : WF s)
    (hx : x < s.parent.length) :
    (s.find x).1 = rootOf s.parent x ∧
    (s.find x).2.parent.length = s.parent.length ∧
    (s.find x).2.rank = s.rank ∧
    WF (s.find x).2 ∧
    (∀ z, z < s.parent.length →
      rootOf (s.find x).2.parent z = rootOf s.parent z) :=
  findAux_spec s.parent.length s x hwf hx (exists_root hwf hx)

theorem union_sets_def (s : UnionFind) (x y : Nat) :
    s.union_sets x y =
      (if (s.find x).1 = ((s.find x).2.find y).1 then
        (false, ((s.find x).2.find y).2)
      else if ((s.find x).2.find y).2.rank.getD (s.find x).1 0 <
              ((s.find x).2.find y).2.rank.getD ((s.find x).2.find y).1 0 then
        (true, { ((s.find x).2.find y).2 with
                 parent := ((s.find x).2.find y).2.parent.set (s.find x).1
                   ((s.find x).2.find y).1 })
      else if ((s.find x).2.find y).2.rank.getD ((s.find x).2.find y).1 0 <
              ((s.find x).2.find y).2.rank.getD (s.find x).1 0 then
        (true, { ((s.find x).2.find y).2 with
                 parent := ((s.find x).2.find y).2.parent.set ((s.find x).2.find y).1
                   (s.find x).1 })
      else
        (true, { parent := ((s.find x).2.find y).2.parent.set ((s.find x).2.find y).1
                   (s.find x).1,
                 rank := ((s.find x).2.find y).2.rank.set (s.find x).1
                   (((s.find x).2.find y).2.rank.getD (s.find x).1 0 + 1) })) := rfl

/-- Joining two classes by a single parent write between two distinct
roots: the class of `a` is absorbed into the class of `b`. -/
theorem union_link_roots {s2 : UnionFind} (hwf2 : WF s2) {a b : Nat}
    {r2 : List Nat} (hwfq : WF ⟨s2.parent.set a b, r2⟩)
    (ha : a < s2.parent.length) (haroot : IsRoot s2.parent a)
    (hbroot : IsRoot s2.parent b) (hab : a ≠ b) :
    ∀ z, z < s2.parent.length →
      rootOf (s2.parent.set a b) z =
        if rootOf s2.parent z = a ∨ rootOf s2.parent z = b then b
        else rootOf s2.parent z := by
  intro z hz
  rw [rootOf_set_eq hwf2 hwfq ha hbroot hab (Or.inl haroot) hz,
    rootOf_eq_of_isRoot haroot]
  by_cases h1 : rootOf s2.parent z = a
  · rw [if_pos h1, if_pos (Or.inl h1)]
  · rw [if_neg h1]
    by_cases h2 : rootOf s2.parent z = b
    · rw [if_pos (Or.inr h2), h2]
    · rw [if_neg (by tauto)]

/-- Full specification of `UnionFind::union_sets`: node count and invariant
are preserved, the returned flag reports whether two distinct classes were
merged, and afterwards the classes of `x` and `y` are joined at one of
their two old roots while every other class is untouched. -/
theorem union_sets_spec {s : UnionFind} {x y : Nat} (hwf : WF s)
    (hx : x < s.parent.length) (hy : y < s.parent.length) :
    (s.union_sets x y).2.parent.length = s.parent.length ∧
    WF (s.union_sets x y).2 ∧
    ((s.union_sets x y).1 = true ↔ rootOf s.parent x ≠ rootOf s.parent y) ∧
    ∃ rt, (rt = rootOf s.parent x ∨ rt = rootOf s.parent y) ∧
      ∀ z, z < s.parent.length →
        rootOf (s.union_sets x y).2.parent z =
          if rootOf s.parent z = rootOf s.parent x ∨
              rootOf s.parent z = rootOf s.parent y
          then rt else rootOf s.parent z := by
  obtain ⟨hpx, hlen1, hrank1, hwf1, hroots1⟩ := find_spec hwf hx
  have hy1 : y < (s.find x).2.parent.length := by rw [hlen1]; exact hy
  obtain ⟨hpy, hlen2, hrank2, hwf2, hroots2⟩ := find_spec hwf1 hy1
  have hpy2 : ((s.find x).2.find y).1 = rootOf s.parent y := by
    rw [hpy, hroots1 y hy]
  have hlen2s : ((s.find x).2.find y).2.parent.length = s.parent.length := by
    rw [hlen2, hlen1]
  have hrank2s : ((s.find x).2.find y).2.rank = s.rank := by
    rw [hrank2, hrank1]
  have hroots2s : ∀ z, z < s.parent.length →
      rootOf ((s.find x).2.find y).2.parent z = rootOf s.parent z := by
    intro z hz
    rw [hroots2 z (by rw [hlen1]; exact hz), hroots1 z hz]
  have hrx_lt : rootOf s.parent x < s.parent.length := rootOf_lt hwf hx
  have hry_lt : rootOf s.parent y < s.parent.length := rootOf_lt hwf hy
  have hrx_root : IsRoot s.parent (rootOf s.parent x) := rootOf_isRoot hwf hx
  have hry_root : IsRoot s.parent (rootOf s.parent y) := rootOf_isRoot hwf hy
  have hrx_root2 : IsRoot ((s.find x).2.find y).2.parent (rootOf s.parent x) := by
    apply isRoot_of_rootOf_eq hwf2 (by rw [hlen2s]; exact hrx_lt)
    rw [hroots2s _ hrx_lt]
    exact rootOf_eq_of_isRoot hrx_root
  have hry_root2 : IsRoot ((s.find x).2.find y).2.parent (rootOf s.parent y) := by
    apply isRoot_of_rootOf_eq hwf2 (by rw [hlen2s]; exact hry_lt)
    rw [hroots2s _ hry_lt]
    exact rootOf_eq_of_isRoot hry_root
  rw [union_sets_def]
  by_cases hc1 : (s.find x).1 = ((s.find x).2.find y).1
  · rw [if_pos hc1]
    have hrxy : rootOf s.parent x = rootOf s.parent y := by
      rw [← hpx, ← hpy2, hc1]
    refine ⟨hlen2s, hwf2, by simp [hrxy], rootOf s.parent x, Or.inl rfl, ?_⟩
    intro z hz
    rw [hroots2s z hz]
    by_cases h1 : rootOf s.parent z = rootOf s.parent x
    · rw [if_pos (Or.inl h1), h1]
    · by_cases h2 : rootOf s.parent z = rootOf s.parent y
      · rw [if_pos (Or.inr h2), h2, hrxy]
      · rw [if_neg (by tauto)]
  · rw [if_neg hc1]
    have hrxy : rootOf s.parent x ≠ rootOf s.parent y := by
      rw [← hpx, ← hpy2]; exact hc1
    have hax : (s.find x).1 < ((s.find x).2.find y).2.parent.length := by
      rw [hpx, hlen2s]; exact hrx_lt
    have hay : ((s.find x).2.find y).1 < ((s.find x).2.find y).2.parent.length := by
      rw [hpy2, hlen2s]; exact hry_lt
    have haxroot : IsRoot ((s.find x).2.find y).2.parent (s.find x).1 := by
      rw [hpx]; exact hrx_root2
    have hayroot : IsRoot ((s.find x).2.find y).2.parent ((s.find x).2.find y).1 := by
      rw [hpy2]; exact hry_root2
    by_cases hc2 : ((s.find x).2.find y).2.rank.getD (s.find x).1 0 <
        ((s.find x).2.find y).2.rank.getD ((s.find x).2.find y).1 0
    · rw [if_pos hc2]
      have hwfq := wf_set_parent hwf2 hax hay hc2
      refine ⟨by simpa [List.length_set] using hlen2s, hwfq, by simp [hrxy],
        rootOf s.parent y, Or.inr rfl, ?_⟩
      intro z hz
      have hlink := union_link_roots hwf2 hwfq hax haxroot hayroot hc1 z
        (by rw [hlen2s]; exact hz)
      rw [hlink, hroots2s z hz, hpx, hpy2]
    · rw [if_neg hc2]
      have hba : ((s.find x).2.find y).1 ≠ (s.find x).1 := fun h => hc1 h.symm
      by_cases hc3 : ((s.find x).2.find y).2.rank.getD ((s.find x).2.find y).1 0 <
          ((s.find x).2.find y).2.rank.getD (s.find x).1 0
      · rw [if_pos hc3]
        have hwfq := wf_set_parent hwf2 hay hax hc3
        refine ⟨by simpa [List.length_set] using hlen2s, hwfq, by simp [hrxy],
          rootOf s.parent x, Or.inl rfl, ?_⟩
        intro z hz
        have hlink := union_link_roots hwf2 hwfq hay hayroot haxroot hba z
          (by rw [hlen2s]; exact hz)
        rw [hlink, hroots2s z hz, hpx, hpy2]
        by_cases h1 : rootOf s.parent z = rootOf s.parent x
        · rw [if_pos (Or.inr h1), if_pos (Or.inl h1)]
        · by_cases h2 : rootOf s.parent z = rootOf s.parent y
          · rw [if_pos (Or.inl h2), if_pos (Or.inr h2)]
          · rw [if_neg (by tauto), if_neg (by tauto)]
      · rw [if_neg hc3]
        have htie : ((s.find x).2.find y).2.rank.getD ((s.find x).2.find y).1 0 =
            ((s.find x).2.find y).2.rank.getD (s.find x).1 0 := by omega
        have hwfq := wf_set_tie hwf2 hay hax hayroot haxroot hba htie
        refine ⟨by simpa [List.length_set] using hlen2s, hwfq, by simp [hrxy],
          rootOf s.parent x, Or.inl rfl, ?_⟩
        intro z hz
        have hlink := union_link_roots hwf2 hwfq hay hayroot haxroot hba z
          (by rw [hlen2s]; exact hz)
        rw [hlink, hroots2s z hz, hpx, hpy2]
        by_cases h1 : rootOf s.parent z = rootOf s.parent x
        · rw [if_pos (Or.inr h1), if_pos (Or.inl h1)]
        · by_cases h2 : rootOf s.parent z = rootOf s.parent y
          · rw [if_pos (Or.inl h2), if_pos (Or.inr h2)]
          · rw [if_neg (by tauto), if_neg (by tauto)]

theorem connected_def (s : UnionFind) (x y : Nat) :
    s.connected x y =
      ((s.find x).1 == ((s.find x).2.find y).1, ((s.find x).2.find y).2) := rfl

/-- Specification of `UnionFind::connected`: the boolean compares the roots
of `x` and `y`, and the two mutating `find` calls change no root. -/
theorem connected_spec {s : UnionFind} {x y : Nat} (hwf : WF s)
    (hx : x < s.parent.length) (hy : y < s.parent.length) :
    ((s.connected x y).1 = true ↔ rootOf s.parent x = rootOf s.parent y) ∧
    (s.connected x y).2.parent.length = s.parent.length ∧
    (s.connected x y).2.rank = s.rank ∧
    WF (s.connected x y).2 ∧
    ∀ z, z < s.parent.length →
      rootOf (s.connected x y).2.parent z = rootOf s.parent z := by
  obtain ⟨hpx, hlen1, hrank1, hwf1, hroots1⟩ := find_spec hwf hx
  have hy1 : y < (s.find x).2.parent.length := by rw [hlen1]; exact hy
  obtain ⟨hpy, hlen2, hrank2, hwf2, hroots2⟩ := find_spec hwf1 hy1
  have hpy2 : ((s.find x).2.find y).1 = rootOf s.parent y := by
    rw [hpy, hroots1 y hy]
  rw [connected_def]
  refine ⟨?_, by rw [hlen2, hlen1], by rw [hrank2, hrank1], hwf2, ?_⟩
  · simp only [beq_iff_eq, hpx, hpy2]
  · intro z hz
    rw [hroots2 z (by rw [hlen1]; exact hz), hroots1 z hz]

/-! ### Edge ingestion and reachability -/

/-- External edges and query pairs are 1-based `int` pairs; the code
subtracts 1 from each endpoint on ingestion (lines 56-58, 102-104,
112-114). -/
abbrev Edge := Int × Int

/-- Bounds check of lines 60, 106, 116: both 0-based endpoints lie in
`[0, n_nodes)`. -/
def validEdge (n : Nat) (e : Edge) : Prop :=
  0 ≤ e.1 - 1 ∧ e.1 - 1 < (n : Int) ∧ 0 ≤ e.2 - 1 ∧ e.2 - 1 < (n : Int)

instance (n : Nat) (e : Edge) : Decidable (validEdge n e) := by
  unfold validEdge; infer_instance

/-- First endpoint, translated to 0-based. -/
def esrc (e : Edge) : Nat := (e.1 - 1).toNat

/-- Second endpoint, translated to 0-based. -/
def edst (e : Edge) : Nat := (e.2 - 1).toNat

theorem esrc_lt {n : Nat} {e : Edge} (h : validEdge n e) : esrc e < n := by
  obtain ⟨h1, h2, -, -⟩ := h
  unfold esrc
  omega

theorem edst_lt {n : Nat} {e : Edge} (h : validEdge n e) : edst e < n := by
  obtain ⟨-, -, h3, h4⟩ := h
  unfold edst
  omega

/-- The edge-union loop of `find_components_cpp` (lines 56-63), identical in
`are_connected_cpp` (lines 102-109): union every valid edge, silently skip
the rest. -/
def processEdges (n : Nat) : UnionFind → List Edge → UnionFind
  | s, [] => s
  | s, e :: es =>
    if validEdge n e then processEdges n (s.union_sets (esrc e) (edst e)).2 es
    else processEdges n s es

/-- One undirected step along a valid edge of the list. -/
def EdgeStep (n : Nat) (edges : List Edge) (a b : Nat) : Prop :=
  ∃ e ∈ edges, validEdge n e ∧
    ((a = esrc e ∧ b = edst e) ∨ (a = edst e ∧ b = esrc e))

/-- Reachability via a path of valid edges. -/
def Reachable (n : Nat) (edges : List Edge) : Nat → Nat → Prop :=
  Relation.ReflTransGen (EdgeStep n edges)

theorem edgeStep_symm {n : Nat} {edges : List Edge} {a b : Nat}
    (h : EdgeStep n edges a b) : EdgeStep n edges b a := by
  obtain ⟨e, he, hv, hd⟩ := h
  refine ⟨e, he, hv, ?_⟩
  rcases hd with ⟨h1, h2⟩ | ⟨h1, h2⟩
  · exact Or.inr ⟨h2, h1⟩
  · exact Or.inl ⟨h2, h1⟩

theorem processEdges_cons (n : Nat) (s : UnionFind) (e : Edge) (es : List Edge) :
    processEdges n s (e :: es) =
      if validEdge n e then processEdges n (s.union_sets (esrc e) (edst e)).2 es
      else processEdges n s es := rfl

theorem reachable_symm {n : Nat} {edges : List Edge} {a b : Nat}
    (h : Reachable n edges a b) : Reachable n edges b a := by
  induction h with
  | refl => exact Relation.ReflTransGen.refl
  | tail h1 h2 ih =>
    exact Relation.ReflTransGen.head (edgeStep_symm h2) ih

/-- Closure monotonicity: a relation whose steps embed into another
closure has a smaller closure. -/
theorem rtg_mono_of {R1 R2 : Nat → Nat → Prop}
    (h : ∀ u v, R1 u v → Relation.ReflTransGen R2 u v) {a b : Nat}
    (hab : Relation.ReflTransGen R1 a b) : Relation.ReflTransGen R2 a b := by
  induction hab with
  | refl => exact Relation.ReflTransGen.refl
  | tail h1 h2 ih => exact Relation.ReflTransGen.trans ih (h _ _ h2)

/-- The closure of an equality kernel collapses to the equality. -/
theorem rtg_eq_kernel {f : Nat → Nat} {a b : Nat}
    (h : Relation.ReflTransGen (fun u v => f u = f v) a b) : f a = f b := by
  induction h with
  | refl => rfl
  | tail h1 h2 ih => exact ih.trans h2

theorem rootOf_of_ge {p : List Nat} {x : Nat} (hx : p.length ≤ x) :
    rootOf p x = x :=
  rootOf_eq_of_isRoot (pstep_of_ge hx)

/-- Join of an existing root-equality (restricted to in-range nodes) with
steps along the valid edges of a list. -/
def JoinRel (n : Nat) (p : List Nat) (es : List Edge) (u v : Nat) : Prop :=
  (u < n ∧ v < n ∧ rootOf p u = rootOf p v) ∨ EdgeStep n es u v

/-- Main loop theorem: after union-ing a list of edges, two nodes have
equal roots exactly when they are related by the closure of the original
root equality joined with steps along the valid edges of the list. -/
theorem processEdges_spec (n : Nat) (es : List Edge) :
    ∀ s : UnionFind, WF s → s.parent.length = n →
      WF (processEdges n s es) ∧ (processEdges n s es).parent.length = n ∧
      ∀ a b, a < n → b < n →
        (rootOf (processEdges n s es).parent a =
            rootOf (processEdges n s es).parent b ↔
          Relation.ReflTransGen (JoinRel n s.parent es) a b) := by
  induction es with
  | nil =>
    intro s hwf hlen
    refine ⟨hwf, hlen, ?_⟩
    intro a b ha hb
    constructor
    · intro h
      exact Relation.ReflTransGen.single (Or.inl ⟨ha, hb, h⟩)
    · intro h
      refine @rtg_eq_kernel (fun u => rootOf s.parent u) _ _ ?_
      refine rtg_mono_of ?_ h
      intro u v huv
      rcases huv with ⟨-, -, huv⟩ | huv
      · exact Relation.ReflTransGen.single huv
      · obtain ⟨e, he, -⟩ := huv
        exact absurd he (List.not_mem_nil e)
  | cons e rest ih =>
    intro s hwf hlen
    by_cases hval : validEdge n e
    · rw [processEdges_cons, if_pos hval]
      have hu : esrc e < s.parent.length := by rw [hlen]; exact esrc_lt hval
      have hw : edst e < s.parent.length := by rw [hlen]; exact edst_lt hval
      obtain ⟨hulen, huwf, -, rt, hrt, hroots⟩ := union_sets_spec hwf hu hw
      have hulen2 : (s.union_sets (esrc e) (edst e)).2.parent.length = n := by
        rw [hulen, hlen]
      obtain ⟨hwf2, hlen2, hiff⟩ := ih _ huwf hulen2
      have hroots2 : ∀ z, z < n →
          rootOf (s.union_sets (esrc e) (edst e)).2.parent z =
            if rootOf s.parent z = rootOf s.parent (esrc e) ∨
                rootOf s.parent z = rootOf s.parent (edst e)
            then rt else rootOf s.parent z := by
        intro z hz
        exact hroots z (by rw [hlen]; exact hz)
      refine ⟨hwf2, hlen2, ?_⟩
      intro a b ha hb
      rw [hiff a b ha hb]
      have hstep_e : ∀ u v : Nat, u < n → v < n →
          Relation.ReflTransGen (JoinRel n s.parent (e :: rest)) u v ∨ True →
          True := fun _ _ _ _ _ => trivial
      have he_uv : Relation.ReflTransGen (JoinRel n s.parent (e :: rest))
          (esrc e) (edst e) :=
        Relation.ReflTransGen.single
          (Or.inr ⟨e, List.mem_cons_self e rest, hval, Or.inl ⟨rfl, rfl⟩⟩)
      have he_vu : Relation.ReflTransGen (JoinRel n s.parent (e :: rest))
          (edst e) (esrc e) :=
        Relation.ReflTransGen.single
          (Or.inr ⟨e, List.mem_cons_self e rest, hval, Or.inr ⟨rfl, rfl⟩⟩)
      have hmk : ∀ u v : Nat, u < n → v < n → rootOf s.parent u = rootOf s.parent v →
          Relation.ReflTransGen (JoinRel n s.parent (e :: rest)) u v :=
        fun u v hun hvn h => Relation.ReflTransGen.single (Or.inl ⟨hun, hvn, h⟩)
      constructor
      · refine rtg_mono_of ?_
        intro u v huv
        rcases huv with ⟨hun, hvn, huv⟩ | huv
        · rw [hroots2 u hun, hroots2 v hvn] at huv
          by_cases hcu : rootOf s.parent u = rootOf s.parent (esrc e) ∨
              rootOf s.parent u = rootOf s.parent (edst e)
          · rw [if_pos hcu] at huv
            by_cases hcv : rootOf s.parent v = rootOf s.parent (esrc e) ∨
                rootOf s.parent v = rootOf s.parent (edst e)
            · rcases hcu with hcu | hcu <;> rcases hcv with hcv | hcv
              · exact hmk u v hun hvn (hcu.trans hcv.symm)
              · exact ((hmk u (esrc e) hun (esrc_lt hval) hcu).trans he_uv).trans
                  (hmk (edst e) v (edst_lt hval) hvn hcv.symm)
              · exact ((hmk u (edst e) hun (edst_lt hval) hcu).trans he_vu).trans
                  (hmk (esrc e) v (esrc_lt hval) hvn hcv.symm)
              · exact hmk u v hun hvn (hcu.trans hcv.symm)
            · rw [if_neg hcv] at huv
              rcases hrt with hrt | hrt
              · rw [hrt] at huv
                exact absurd (Or.inl huv.symm) hcv
              · rw [hrt] at huv
                exact absurd (Or.inr huv.symm) hcv
          · rw [if_neg hcu] at huv
            by_cases hcv : rootOf s.parent v = rootOf s.parent (esrc e) ∨
                rootOf s.parent v = rootOf s.parent (edst e)
            · rw [if_pos hcv] at huv
              rcases hrt with hrt | hrt
              · rw [hrt] at huv
                exact absurd (Or.inl huv) hcu
              · rw [hrt] at huv
                exact absurd (Or.inr huv) hcu
            · rw [if_neg hcv] at huv
              exact hmk u v hun hvn huv
        · obtain ⟨e2, he2, hv2, hd2⟩ := huv
          exact Relation.ReflTransGen.single
            (Or.inr ⟨e2, List.mem_cons_of_mem e he2, hv2, hd2⟩)
      · refine rtg_mono_of ?_
        intro u v huv
        rcases huv with ⟨hun, hvn, huv⟩ | huv
        · refine Relation.ReflTransGen.single (Or.inl ⟨hun, hvn, ?_⟩)
          rw [hroots2 u hun, hroots2 v hvn, huv]
        · obtain ⟨e2, he2, hv2, hd2⟩ := huv
          rcases List.mem_cons.1 he2 with heq | he2
          · subst heq
            have hcu : rootOf s.parent (esrc e2) = rootOf s.parent (esrc e2) ∨
                rootOf s.parent (esrc e2) = rootOf s.parent (edst e2) := Or.inl rfl
            have hcw : rootOf s.parent (edst e2) = rootOf s.parent (esrc e2) ∨
                rootOf s.parent (edst e2) = rootOf s.parent (edst e2) := Or.inr rfl
            have hvv : rootOf (s.union_sets (esrc e2) (edst e2)).2.parent (esrc e2) =
                rootOf (s.union_sets (esrc e2) (edst e2)).2.parent (edst e2) := by
              rw [hroots2 _ (esrc_lt hv2), hroots2 _ (edst_lt hv2),
                if_pos hcu, if_pos hcw]
            rcases hd2 with ⟨h1, h2⟩ | ⟨h1, h2⟩
            · subst h1; subst h2
              exact Relation.ReflTransGen.single
                (Or.inl ⟨esrc_lt hv2, edst_lt hv2, hvv⟩)
            · subst h1; subst h2
              exact Relation.ReflTransGen.single
                (Or.inl ⟨edst_lt hv2, esrc_lt hv2, hvv.symm⟩)
          · exact Relation.ReflTransGen.single (Or.inr ⟨e2, he2, hv2, hd2⟩)
    · rw [processEdges_cons, if_neg hval]
      obtain ⟨hwf2, hlen2, hiff⟩ := ih s hwf hlen
      refine ⟨hwf2, hlen2, ?_⟩
      intro a b ha hb
      rw [hiff a b ha hb]
      constructor
      · refine rtg_mono_of ?_
        intro u v huv
        rcases huv with huv | ⟨e2, he2, hv2, hd2⟩
        · exact Relation.ReflTransGen.single (Or.inl huv)
        · exact Relation.ReflTransGen.single
            (Or.inr ⟨e2, List.mem_cons_of_mem e he2, hv2, hd2⟩)
      · refine rtg_mono_of ?_
        intro u v huv
        rcases huv with huv | ⟨e2, he2, hv2, hd2⟩
        · exact Relation.ReflTransGen.single (Or.inl huv)
        · rcases List.mem_cons.1 he2 with heq | he2
          · subst heq
            exact absurd hv2 hval
          · exact Relation.ReflTransGen.single (Or.inr ⟨e2, he2, hv2, hd2⟩)

theorem getD_range (n i : Nat) : (List.range n).getD i i = i := by
  by_cases h : i < n
  · simp [List.getD, List.getElem?_range, h]
  · exact List.getD_eq_default _ _ (by simpa using Nat.le_of_not_lt h)

theorem wf_init (n : Nat) : WF (UnionFind.init n) := by
  refine ⟨?_, ?_, ?_⟩
  · simp [UnionFind.init]
  · intro i hi
    simp only [UnionFind.init, List.length_range] at hi ⊢
    rw [getD_range]
    simpa using hi
  · intro i hne
    exact absurd (getD_range n i) hne

theorem isRoot_init (n x : Nat) : IsRoot (UnionFind.init n).parent x :=
  getD_range n x

theorem rootOf_init (n x : Nat) : rootOf (UnionFind.init n).parent x = x :=
  rootOf_eq_of_isRoot (isRoot_init n x)

/-- Specialization to the fresh union-find: after the edge loop, root
equality is exactly reachability along valid edges. -/
theorem processEdges_init_spec (n : Nat) (es : List Edge) :
    WF (processEdges n (UnionFind.init n) es) ∧
    (processEdges n (UnionFind.init n) es).parent.length = n ∧
    ∀ a b, a < n → b < n →
      (rootOf (processEdges n (UnionFind.init n) es).parent a =
          rootOf (processEdges n (UnionFind.init n) es).parent b ↔
        Reachable n es a b) := by
  have hlen : (UnionFind.init n).parent.length = n := by simp [UnionFind.init]
  obtain ⟨hwf, hlen2, hiff⟩ := processEdges_spec n es (UnionFind.init n) (wf_init n) hlen
  refine ⟨hwf, hlen2, ?_⟩
  intro a b ha hb
  rw [hiff a b ha hb]
  constructor
  · refine rtg_mono_of ?_
    intro u v huv
    rcases huv with ⟨-, -, huv⟩ | huv
    · rw [rootOf_init, rootOf_init] at huv
      subst huv
      exact Relation.ReflTransGen.refl
    · exact Relation.ReflTransGen.single huv
  · refine rtg_mono_of ?_
    intro u v huv
    exact Relation.ReflTransGen.single (Or.inr huv)

/-! ### Association-list lookups (model of `std::map` / `std::unordered_map`) -/

theorem lookup_cons (k v a : Nat) (l : List (Nat × Nat)) :
    ((k, v) :: l).lookup a = if a = k then some v else l.lookup a := by
  cases hbeq : (a == k) with
  | true =>
    have h : a = k := by simpa using hbeq
    simp [List.lookup, hbeq, h]
  | false =>
    have h : ¬ a = k := by simpa using hbeq
    simp [List.lookup, hbeq, h]

theorem lookup_append (l1 l2 : List (Nat × Nat)) (a : Nat) :
    (l1 ++ l2).lookup a =
      match l1.lookup a with
      | some c => some c
      | none => l2.lookup a := by
  induction l1 with
  | nil => simp [List.lookup]
  | cons p t ih =>
    rw [List.cons_append, show p = (p.1, p.2) from rfl, lookup_cons, lookup_cons]
    split
    · rfl
    · exact ih

theorem mem_of_lookup {l : List (Nat × Nat)} {a c : Nat}
    (h : l.lookup a = some c) : (a, c) ∈ l := by
  induction l with
  | nil => simp [List.lookup] at h
  | cons p t ih =>
    rw [show p = (p.1, p.2) from rfl, lookup_cons] at h
    split at h
    · rename_i heq
      cases h
      subst heq
      exact List.mem_cons_self _ _
    · exact List.mem_cons_of_mem _ (ih h)

theorem lookup_eq_none_iff {l : List (Nat × Nat)} {a : Nat} :
    l.lookup a = none ↔ a ∉ l.map Prod.fst := by
  induction l with
  | nil => simp [List.lookup]
  | cons p t ih =>
    rw [show p = (p.1, p.2) from rfl, lookup_cons]
    by_cases h : a = p.1
    · subst h
      simp
    · rw [if_neg h]
      simp [ih, h]

theorem lookup_of_mem_nodup {l : List (Nat × Nat)} {a c : Nat}
    (hmem : (a, c) ∈ l) (hnd : (l.map Prod.fst).Nodup) :
    l.lookup a = some c := by
  induction l with
  | nil => simp at hmem
  | cons p t ih =>
    rw [show p = (p.1, p.2) from rfl, lookup_cons]
    rcases List.mem_cons.1 hmem with heq | hmem2
    · rw [← heq]
      simp
    · have hp1 : ¬ a = p.1 := by
        intro hcon
        have hmm : a ∈ t.map Prod.fst := List.mem_map_of_mem Prod.fst hmem2
        rw [List.map_cons, List.nodup_cons, ← hcon] at hnd
        exact hnd.1 hmm
      rw [if_neg hp1]
      exact ih hmem2 (by rw [List.map_cons, List.nodup_cons] at hnd; exact hnd.2)

/-! ### Component labeling (`find_components_cpp`, lines 53-95) -/

/-- State of the labeling loop of lines 65-75: the mutating union-find,
`component_map`, `next_component_id`, and the `components` array built so
far. -/
structure LabelState where
  uf : UnionFind
  cmap : List (Nat × Nat)
  next : Nat
  comps : List Nat

/-- Body of the loop of lines 69-75: find the root of node `i` (mutating),
insert a fresh id on first sighting (sequential when `compress`, the raw
root otherwise), and record the id of node `i`. -/
def labelStep (compress : Bool) (st : LabelState) (i : Nat) : LabelState :=
  match st.cmap.lookup (st.uf.find i).1 with
  | some cid => { uf := (st.uf.find i).2, cmap := st.cmap, next := st.next,
                  comps := st.comps ++ [cid] }
  | none =>
    { uf := (st.uf.find i).2,
      cmap := st.cmap ++
        [((st.uf.find i).1, if compress then st.next else (st.uf.find i).1)],
      next := if compress then st.next + 1 else st.next,
      comps := st.comps ++ [if compress then st.next else (st.uf.find i).1] }

/-- The labeling pass over nodes `0..n-1`. -/
def labelPass (uf : UnionFind) (n : Nat) (compress : Bool) : LabelState :=
  (List.range n).foldl (labelStep compress) ⟨uf, [], 0, []⟩

/-- The size-counting loop of lines 77-82: `component_sizes[comp]++` for
every per-node component id, but only when `compress`. -/
def sizesFold (compress : Bool) (sizes : List Nat) (comps : List Nat) : List Nat :=
  comps.foldl (fun acc c => if compress then acc.set c (acc.getD c 0 + 1) else acc) sizes

/-- Model of `find_components_cpp` (lines 53-95) on a non-negative node
count: union all valid edges, label nodes in order, count sizes, and shift
ids to 1-based when compressed.  Returns
`(components, component_sizes, n_components)`. -/
def find_components (edges : List Edge) (n : Nat) (compress : Bool) :
    List Nat × List Nat × Nat :=
  let uf := processEdges n (UnionFind.init n) edges
  let st := labelPass uf n compress
  let sizes := sizesFold compress (List.replicate st.next 0) st.comps
  ((if compress then st.comps.map (fun c => c + 1) else st.comps), sizes, st.next)

/-- Query loop of `are_connected_cpp` (lines 111-121): out-of-range pairs
give `false`, others `uf.connected` (with its mutation carried to the next
query). -/
def connLoop (n : Nat) : UnionFind → List Edge → List Bool
  | _, [] => []
  | uf, q :: qs =>
    if validEdge n q then
      (uf.connected (esrc q) (edst q)).1 ::
        connLoop n (uf.connected (esrc q) (edst q)).2 qs
    else false :: connLoop n uf qs

/-- Model of `are_connected_cpp` (lines 99-124) on a non-negative node
count. -/
def are_connected (edges : List Edge) (queries : List Edge) (n : Nat) : List Bool :=
  connLoop n (processEdges n (UnionFind.init n) edges) queries

theorem connLoop_cons (n : Nat) (uf : UnionFind) (q : Edge) (qs : List Edge) :
    connLoop n uf (q :: qs) =
      if validEdge n q then
        (uf.connected (esrc q) (edst q)).1 ::
          connLoop n (uf.connected (esrc q) (edst q)).2 qs
      else false :: connLoop n uf qs := rfl

/-- The connectivity query loop evaluates each valid query to root
equality of the union-find as built by the edge loop (path compression in
`connected` never changes a root). -/
theorem connLoop_spec (n : Nat) (qs : List Edge) :
    ∀ uf : UnionFind, WF uf → uf.parent.length = n →
      connLoop n uf qs = qs.map (fun q =>
        if validEdge n q then
          decide (rootOf uf.parent (esrc q) = rootOf uf.parent (edst q))
        else false) := by
  induction qs with
  | nil => intro uf _ _; rfl
  | cons q qs ih =>
    intro uf hwf hlen
    rw [connLoop_cons, List.map_cons]
    by_cases hv : validEdge n q
    · rw [if_pos hv, if_pos hv]
      have hu : esrc q < uf.parent.length := by rw [hlen]; exact esrc_lt hv
      have hw : edst q < uf.parent.length := by rw [hlen]; exact edst_lt hv
      obtain ⟨hbool, hclen, -, hcwf, hcroots⟩ := connected_spec hwf hu hw
      congr 1
      · rcases Decidable.em (rootOf uf.parent (esrc q) = rootOf uf.parent (edst q)) with
          h | h
        · rw [decide_eq_true h]
          exact hbool.2 h
        · rw [decide_eq_false h]
          cases hb : (uf.connected (esrc q) (edst q)).1 with
          | false => rfl
          | true => exact absurd (hbool.1 hb) h
      · rw [ih _ hcwf (by rw [hclen, hlen])]
        apply List.map_congr_left
        intro e he
        by_cases hve : validEdge n e
        · rw [if_pos hve, if_pos hve]
          rw [hcroots _ (by rw [hlen]; exact esrc_lt hve),
            hcroots _ (by rw [hlen]; exact edst_lt hve)]
        · rw [if_neg hve, if_neg hve]
    · rw [if_neg hv, if_neg hv]
      rw [ih uf hwf hlen]

/-- Invariant of the labeling loop, relative to a fixed reference root
function `rt` (the roots after the edge loop; the `find` calls in the loop
compress paths but never change a root). -/
structure LInv (n : Nat) (rt : Nat → Nat) (compress : Bool)
    (st : LabelState) : Prop where
  wf : WF st.uf
  len : st.uf.parent.length = n
  roots : ∀ i, i < n → rootOf st.uf.parent i = rt i
  keys_nodup : (st.cmap.map Prod.fst).Nodup
  vals_lt : compress = true → ∀ pr ∈ st.cmap, pr.2 < st.next
  vals_id : compress = false → ∀ pr ∈ st.cmap, pr.2 = pr.1
  vals_inj : ∀ pr1 ∈ st.cmap, ∀ pr2 ∈ st.cmap, pr1.2 = pr2.2 → pr1.1 = pr2.1
  vals_surj : compress = true → ∀ c, c < st.next → ∃ r, (r, c) ∈ st.cmap
  next_zero : compress = false → st.next = 0
  next_card : compress = true → st.next = st.cmap.length

/-- Main property of the labeling loop: processing a list of in-range
node indices keeps the invariant, only ever extends the component map, and
appends to `comps` exactly the looked-up final id of each node's root. -/
theorem labelLoop_spec (n : Nat) (rt : Nat → Nat) (compress : Bool)
    (idxs : List Nat) :
    ∀ st : LabelState, LInv n rt compress st → (∀ i ∈ idxs, i < n) →
      LInv n rt compress (idxs.foldl (labelStep compress) st) ∧
      (∀ a c, st.cmap.lookup a = some c →
        (idxs.foldl (labelStep compress) st).cmap.lookup a = some c) ∧
      (idxs.foldl (labelStep compress) st).comps =
        st.comps ++ idxs.map (fun i =>
          (((idxs.foldl (labelStep compress) st).cmap.lookup (rt i)).getD 0)) ∧
      (∀ i ∈ idxs,
        ∃ c, (idxs.foldl (labelStep compress) st).cmap.lookup (rt i) = some c) ∧
      (∀ pr ∈ (idxs.foldl (labelStep compress) st).cmap,
        pr ∈ st.cmap ∨ ∃ i ∈ idxs, pr.1 = rt i) := by
  induction idxs with
  | nil =>
    intro st hst _
    refine ⟨hst, fun a c h => h, by simp, by simp, fun pr hpr => Or.inl hpr⟩
  | cons i rest ih =>
    intro st hst hidx
    have hi : i < n := hidx i (List.mem_cons_self i rest)
    have hi2 : i < st.uf.parent.length := by rw [hst.len]; exact hi
    obtain ⟨hf1, hflen, hfrank, hfwf, hfroots⟩ := find_spec hst.wf hi2
    have hrti : (st.uf.find i).1 = rt i := by rw [hf1]; exact hst.roots i hi
    rw [List.foldl_cons]
    cases heq : st.cmap.lookup (st.uf.find i).1 with
    | some cid =>
      have hstep : labelStep compress st i =
          ⟨(st.uf.find i).2, st.cmap, st.next, st.comps ++ [cid]⟩ := by
        simp only [labelStep, heq]
      rw [hstep]
      have hst1 : LInv n rt compress
          ⟨(st.uf.find i).2, st.cmap, st.next, st.comps ++ [cid]⟩ := by
        refine ⟨hfwf, by rw [hflen]; exact hst.len, ?_, hst.keys_nodup,
          hst.vals_lt, hst.vals_id, hst.vals_inj, hst.vals_surj,
          hst.next_zero, hst.next_card⟩
        intro j hj
        rw [hfroots j (by rw [hst.len]; exact hj)]
        exact hst.roots j hj
      have hrest : ∀ j ∈ rest, j < n := fun j hj => hidx j (List.mem_cons_of_mem i hj)
      obtain ⟨hInv, hmono, hcomps, hsome, hprov⟩ := ih _ hst1 hrest
      have hlook_i : (rest.foldl (labelStep compress)
          ⟨(st.uf.find i).2, st.cmap, st.next, st.comps ++ [cid]⟩).cmap.lookup
            (rt i) = some cid := by
        apply hmono
        rw [← hrti]
        exact heq
      refine ⟨hInv, ?_, ?_, ?_, ?_⟩
      · intro a c h
        exact hmono a c h
      · rw [hcomps]
        simp only [List.map_cons, hlook_i, Option.getD_some]
        rw [List.append_assoc, List.singleton_append]
      · intro j hj
        rcases List.mem_cons.1 hj with hji | hjr
        · subst hji
          exact ⟨cid, hlook_i⟩
        · exact hsome j hjr
      · intro pr hpr
        rcases hprov pr hpr with h | ⟨j, hj, hjeq⟩
        · exact Or.inl h
        · exact Or.inr ⟨j, List.mem_cons_of_mem i hj, hjeq⟩
    | none =>
      have hstep : labelStep compress st i =
          ⟨(st.uf.find i).2,
           st.cmap ++
             [((st.uf.find i).1, if compress then st.next else (st.uf.find i).1)],
           if compress then st.next + 1 else st.next,
           st.comps ++ [if compress then st.next else (st.uf.find i).1]⟩ := by
        simp only [labelStep, heq]
      rw [hstep]
      have hnotkey : (st.uf.find i).1 ∉ st.cmap.map Prod.fst :=
        lookup_eq_none_iff.1 heq
      have hst1 : LInv n rt compress
          ⟨(st.uf.find i).2,
           st.cmap ++
             [((st.uf.find i).1, if compress then st.next else (st.uf.find i).1)],
           if compress then st.next + 1 else st.next,
           st.comps ++ [if compress then st.next else (st.uf.find i).1]⟩ := by
        refine ⟨hfwf, by rw [hflen]; exact hst.len, ?_, ?_, ?_, ?_, ?_, ?_, ?_, ?_⟩
        · intro j hj
          rw [hfroots j (by rw [hst.len]; exact hj)]
          exact hst.roots j hj
        · rw [List.map_append, List.map_singleton]
          rw [List.nodup_append]
          exact ⟨hst.keys_nodup, List.nodup_singleton _,
            fun a ha hb => by
              rw [List.mem_singleton] at hb
              subst hb
              exact hnotkey ha⟩
        · intro hc pr hpr
          subst hc
          rcases List.mem_append.1 hpr with h | h
          · have := hst.vals_lt rfl pr h
            simp only [reduceIte]
            omega
          · rw [List.mem_singleton] at h
            subst h
            simp
        · intro hc pr hpr
          subst hc
          rcases List.mem_append.1 hpr with h | h
          · exact hst.vals_id rfl pr h
          · rw [List.mem_singleton] at h
            subst h
            simp
        · intro pr1 hpr1 pr2 hpr2 hval
          rcases List.mem_append.1 hpr1 with h1 | h1 <;>
            rcases List.mem_append.1 hpr2 with h2 | h2
          · exact hst.vals_inj pr1 h1 pr2 h2 hval
          · rw [List.mem_singleton] at h2
            subst h2
            cases hcomp : compress with
            | true =>
              have hlt := hst.vals_lt hcomp pr1 h1
              rw [hval] at hlt
              simp only [hcomp, reduceIte] at hlt
              omega
            | false =>
              have hid1 := hst.vals_id hcomp pr1 h1
              simp only [hcomp, Bool.false_eq_true, reduceIte] at hval
              rw [← hid1, hval]
          · rw [List.mem_singleton] at h1
            subst h1
            cases hcomp : compress with
            | true =>
              have hlt := hst.vals_lt hcomp pr2 h2
              rw [← hval] at hlt
              simp only [hcomp, reduceIte] at hlt
              omega
            | false =>
              have hid2 := hst.vals_id hcomp pr2 h2
              simp only [hcomp, Bool.false_eq_true, reduceIte] at hval
              rw [← hid2, ← hval]
          · rw [List.mem_singleton] at h1 h2
            subst h1; subst h2
            rfl
        · intro hc c hlt
          subst hc
          simp only [reduceIte] at hlt
          rcases Nat.lt_or_ge c st.next with h | h
          · obtain ⟨r, hr⟩ := hst.vals_surj rfl c h
            exact ⟨r, List.mem_append_left _ hr⟩
          · have hc3 : c = st.next := by omega
            subst hc3
            exact ⟨(st.uf.find i).1, List.mem_append_right _ (by simp)⟩
        · intro hc
          subst hc
          simp only [Bool.false_eq_true, reduceIte]
          exact hst.next_zero rfl
        · intro hc
          subst hc
          simp only [reduceIte, List.length_append, List.length_singleton]
          rw [hst.next_card rfl]
      have hrest : ∀ j ∈ rest, j < n := fun j hj => hidx j (List.mem_cons_of_mem i hj)
      obtain ⟨hInv, hmono, hcomps, hsome, hprov⟩ := ih _ hst1 hrest
      have hmono1 : ∀ a c, st.cmap.lookup a = some c →
          (st.cmap ++
            [((st.uf.find i).1,
              if compress then st.next else (st.uf.find i).1)]).lookup a =
            some c := by
        intro a c h
        rw [lookup_append, h]
      have hlook1 : (st.cmap ++
          [((st.uf.find i).1,
            if compress then st.next else (st.uf.find i).1)]).lookup (rt i) =
          some (if compress then st.next else (st.uf.find i).1) := by
        rw [lookup_append]
        rw [← hrti, heq]
        rw [lookup_cons, if_pos rfl]
      have hlook_i : (rest.foldl (labelStep compress)
          ⟨(st.uf.find i).2,
           st.cmap ++
             [((st.uf.find i).1, if compress then st.next else (st.uf.find i).1)],
           if compress then st.next + 1 else st.next,
           st.comps ++ [if compress then st.next else (st.uf.find i).1]⟩).cmap.lookup
            (rt i) = some (if compress then st.next else (st.uf.find i).1) :=
        hmono _ _ hlook1
      refine ⟨hInv, ?_, ?_, ?_, ?_⟩
      · intro a c h
        exact hmono a c (hmono1 a c h)
      · rw [hcomps]
        simp only [List.map_cons, hlook_i, Option.getD_some]
        rw [List.append_assoc, List.singleton_append]
      · intro j hj
        rcases List.mem_cons.1 hj with hji | hjr
        · subst hji
          exact ⟨_, hlook_i⟩
        · exact hsome j hjr
      · intro pr hpr
        rcases hprov pr hpr with h | ⟨j, hj, hjeq⟩
        · rcases List.mem_append.1 h with h2 | h2
          · exact Or.inl h2
          · rw [List.mem_singleton] at h2
            refine Or.inr ⟨i, List.mem_cons_self i rest, ?_⟩
            rw [h2, ← hrti]
        · exact Or.inr ⟨j, List.mem_cons_of_mem i hj, hjeq⟩

theorem getD_map_range {f : Nat → Nat} {n i : Nat} (h : i < n) (d : Nat) :
    ((List.range n).map f).getD i d = f i := by
  simp [List.getD, List.getElem?_map, List.getElem?_range, h]

/-- Bundled facts about the labeling pass, stated against the roots of the
input union-find. -/
theorem labelPass_spec {uf : UnionFind} {n : Nat} (compress : Bool)
    (hwf : WF uf) (hlen : uf.parent.length = n) :
    LInv n (fun i => rootOf uf.parent i) compress (labelPass uf n compress) ∧
    (labelPass uf n compress).comps = (List.range n).map (fun i =>
      (((labelPass uf n compress).cmap.lookup (rootOf uf.parent i)).getD 0)) ∧
    (∀ i, i < n →
      ∃ c, (labelPass uf n compress).cmap.lookup (rootOf uf.parent i) = some c) ∧
    (∀ pr ∈ (labelPass uf n compress).cmap,
      ∃ i, i < n ∧ pr.1 = rootOf uf.parent i) := by
  have hbase : LInv n (fun i => rootOf uf.parent i) compress ⟨uf, [], 0, []⟩ := by
    refine ⟨hwf, hlen, fun i _ => rfl, by simp, ?_, ?_, ?_, ?_, fun _ => rfl, ?_⟩
    · intro _ pr hpr
      simp at hpr
    · intro _ pr hpr
      simp at hpr
    · intro pr hpr
      simp at hpr
    · intro _ c hc
      exact absurd hc (by simp)
    · intro _
      rfl
  have hidx : ∀ i ∈ List.range n, i < n := fun i hi => List.mem_range.1 hi
  obtain ⟨hInv, hmono, hcomps, hsome, hprov⟩ :=
    labelLoop_spec n (fun i => rootOf uf.parent i) compress (List.range n)
      ⟨uf, [], 0, []⟩ hbase hidx
  refine ⟨hInv, by simpa using hcomps, ?_, ?_⟩
  · intro i hi
    exact hsome i (List.mem_range.2 hi)
  · intro pr hpr
    rcases hprov pr hpr with h | ⟨i, hi, heq⟩
    · simp at h
    · exact ⟨i, List.mem_range.1 hi, heq⟩

/-- Per-node component ids from the labeling pass: equal ids exactly for
equal roots. -/
theorem labelPass_comps_iff {uf : UnionFind} {n : Nat} (compress : Bool)
    (hwf : WF uf) (hlen : uf.parent.length = n) {i j : Nat}
    (hi : i < n) (hj : j < n) :
    ((labelPass uf n compress).comps.getD i 0 =
        (labelPass uf n compress).comps.getD j 0 ↔
      rootOf uf.parent i = rootOf uf.parent j) := by
  obtain ⟨hInv, hcomps, hsome, -⟩ := labelPass_spec compress hwf hlen
  obtain ⟨ci, hci⟩ := hsome i hi
  obtain ⟨cj, hcj⟩ := hsome j hj
  rw [hcomps, getD_map_range hi, getD_map_range hj, hci, hcj]
  simp only [Option.getD_some]
  constructor
  · intro h
    subst h
    exact hInv.vals_inj _ (mem_of_lookup hci) _ (mem_of_lookup hcj) rfl
  · intro h
    rw [h] at hci
    rw [hci] at hcj
    cases hcj
    rfl

theorem labelPass_comps_length {uf : UnionFind} {n : Nat} (compress : Bool)
    (hwf : WF uf) (hlen : uf.parent.length = n) :
    (labelPass uf n compress).comps.length = n := by
  obtain ⟨-, hcomps, -, -⟩ := labelPass_spec compress hwf hlen
  rw [hcomps]
  simp

/-- In compressed mode the assigned ids are exactly `[0, next)`. -/
theorem labelPass_comps_range {uf : UnionFind} {n : Nat}
    (hwf : WF uf) (hlen : uf.parent.length = n) :
    (∀ i, i < n → (labelPass uf n true).comps.getD i 0 <
      (labelPass uf n true).next) ∧
    (∀ c, c < (labelPass uf n true).next →
      ∃ i, i < n ∧ (labelPass uf n true).comps.getD i 0 = c) := by
  obtain ⟨hInv, hcomps, hsome, hprov⟩ := labelPass_spec true hwf hlen
  constructor
  · intro i hi
    obtain ⟨ci, hci⟩ := hsome i hi
    rw [hcomps, getD_map_range hi, hci]
    simp only [Option.getD_some]
    exact hInv.vals_lt rfl _ (mem_of_lookup hci)
  · intro c hc
    obtain ⟨r, hr⟩ := hInv.vals_surj rfl c hc
    obtain ⟨i, hi, heq⟩ := hprov _ hr
    refine ⟨i, hi, ?_⟩
    rw [hcomps, getD_map_range hi]
    have : (labelPass uf n true).cmap.lookup (rootOf uf.parent i) = some c := by
      rw [← heq]
      exact lookup_of_mem_nodup hr hInv.keys_nodup
    rw [this]
    rfl

/-- In uncompressed mode ids are the raw roots and `next` stays zero. -/
theorem labelPass_uncompressed {uf : UnionFind} {n : Nat}
    (hwf : WF uf) (hlen : uf.parent.length = n) :
    (labelPass uf n false).next = 0 ∧
    (∀ i, i < n →
      (labelPass uf n false).comps.getD i 0 = rootOf uf.parent i) := by
  obtain ⟨hInv, hcomps, hsome, -⟩ := labelPass_spec false hwf hlen
  refine ⟨hInv.next_zero rfl, ?_⟩
  intro i hi
  obtain ⟨ci, hci⟩ := hsome i hi
  rw [hcomps, getD_map_range hi, hci]
  simp only [Option.getD_some]
  exact hInv.vals_id rfl _ (mem_of_lookup hci)

/-! ### Size counting -/

theorem sizesFold_false (sizes comps : List Nat) :
    sizesFold false sizes comps = sizes := by
  induction comps generalizing sizes with
  | nil => rfl
  | cons c cs ih =>
    show sizesFold false (if false = true then _ else sizes) cs = sizes
    simp only [Bool.false_eq_true, reduceIte]
    exact ih sizes

theorem sum_set_succ (l : List Nat) (i : Nat) (hi : i < l.length) :
    (l.set i (l.getD i 0 + 1)).sum = l.sum + 1 := by
  induction l generalizing i with
  | nil => simp at hi
  | cons a t ih =>
    cases i with
    | zero => simp [List.getD]; omega
    | succ i =>
      have hi2 : i < t.length := by simpa using hi
      simp only [List.set, List.sum_cons]
      have hgd : (a :: t).getD (i+1) 0 = t.getD i 0 := by
        simp [List.getD]
      rw [hgd, ih i hi2]
      omega

theorem sizesFold_true_sum (comps : List Nat) :
    ∀ sizes : List Nat, (∀ c ∈ comps, c < sizes.length) →
      (sizesFold true sizes comps).sum = sizes.sum + comps.length := by
  induction comps with
  | nil => intro sizes _; rfl
  | cons c cs ih =>
    intro sizes hc
    have hstep : sizesFold true sizes (c :: cs) =
        sizesFold true (sizes.set c (sizes.getD c 0 + 1)) cs := by
      show sizesFold true (if true = true then _ else _) cs = _
      simp only [reduceIte]
    rw [hstep]
    have hclen : c < sizes.length := hc c (List.mem_cons_self c cs)
    have hlen2 : (sizes.set c (sizes.getD c 0 + 1)).length = sizes.length := by
      simp
    rw [ih _ (fun d hd => by rw [hlen2]; exact hc d (List.mem_cons_of_mem c hd))]
    rw [sum_set_succ sizes c hclen]
    simp only [List.length_cons]
    omega

theorem sizesFold_true_length (comps : List Nat) :
    ∀ sizes : List Nat, (sizesFold true sizes comps).length = sizes.length := by
  induction comps with
  | nil => intro sizes; rfl
  | cons c cs ih =>
    intro sizes
    have hstep : sizesFold true sizes (c :: cs) =
        sizesFold true (sizes.set c (sizes.getD c 0 + 1)) cs := by
      show sizesFold true (if true = true then _ else _) cs = _
      simp only [reduceIte]
    rw [hstep, ih]
    simp

theorem sizesFold_true_getD (comps : List Nat) :
    ∀ (sizes : List Nat) (k : Nat), (∀ c ∈ comps, c < sizes.length) →
      (sizesFold true sizes comps).getD k 0 = sizes.getD k 0 + comps.count k := by
  induction comps with
  | nil => intro sizes k _; simp [sizesFold]
  | cons c cs ih =>
    intro sizes k hc
    have hstep : sizesFold true sizes (c :: cs) =
        sizesFold true (sizes.set c (sizes.getD c 0 + 1)) cs := by
      show sizesFold true (if true = true then _ else _) cs = _
      simp only [reduceIte]
    rw [hstep]
    have hclen : c < sizes.length := hc c (List.mem_cons_self c cs)
    have hlen2 : (sizes.set c (sizes.getD c 0 + 1)).length = sizes.length := by
      simp
    rw [ih _ k (fun d hd => by rw [hlen2]; exact hc d (List.mem_cons_of_mem c hd))]
    rw [getD_set hclen]
    rw [List.count_cons]
    by_cases hck : c = k
    · rw [if_pos hck]
      subst hck
      simp
      omega
    · rw [if_neg hck]
      have hbeq : (k == c) = false := by
        simp [Ne.symm hck]
      simp [hbeq]
      exact hck

theorem getD_map_add_one {l : List Nat} {i : Nat} (h : i < l.length) :
    (l.map (fun c => c + 1)).getD i 0 = l.getD i 0 + 1 := by
  simp [List.getD, List.getElem?_map, List.getElem?_eq_getElem h]

theorem getD_map_general {α β : Type} [Inhabited β] {f : α → β} {l : List α}
    {i : Nat} (h : i < l.length) (d : β) :
    (l.map f).getD i d = f (l.get ⟨i, h⟩) := by
  simp [List.getD, List.getElem?_map, List.getElem?_eq_getElem h]

/-- Claim C1: for every edge list, node count and query list, at every
query position whose (1-based) endpoints are both in range, the two nodes
receive the same component id from `find_components` iff one is reachable
from the other along valid edges, iff `are_connected` answers `true` at
that position.  (Both compression modes.) -/
theorem claim_C1 (edges : List Edge) (n : Nat) (compress : Bool)
    (qs : List Edge) (i : Nat) (hq : i < qs.length)
    (hvalid : validEdge n (qs.get ⟨i, hq⟩)) :
    ((find_components edges n compress).1.getD (esrc (qs.get ⟨i, hq⟩)) 0 =
        (find_components edges n compress).1.getD (edst (qs.get ⟨i, hq⟩)) 0 ↔
      Reachable n edges (esrc (qs.get ⟨i, hq⟩)) (edst (qs.get ⟨i, hq⟩))) ∧
    ((are_connected edges qs n).getD i false = true ↔
      Reachable n edges (esrc (qs.get ⟨i, hq⟩)) (edst (qs.get ⟨i, hq⟩))) := by
  obtain ⟨hwf0, hlen0, hreach⟩ := processEdges_init_spec n edges
  have hu : esrc (qs.get ⟨i, hq⟩) < n := esrc_lt hvalid
  have hw : edst (qs.get ⟨i, hq⟩) < n := edst_lt hvalid
  have hcomps_iff :
      ((labelPass (processEdges n (UnionFind.init n) edges) n compress).comps.getD
          (esrc (qs.get ⟨i, hq⟩)) 0 =
        (labelPass (processEdges n (UnionFind.init n) edges) n compress).comps.getD
          (edst (qs.get ⟨i, hq⟩)) 0 ↔
        Reachable n edges (esrc (qs.get ⟨i, hq⟩)) (edst (qs.get ⟨i, hq⟩))) := by
    rw [labelPass_comps_iff compress hwf0 hlen0 hu hw]
    exact hreach _ _ hu hw
  have hclen : (labelPass (processEdges n (UnionFind.init n) edges) n
      compress).comps.length = n := labelPass_comps_length compress hwf0 hlen0
  have hfc : (find_components edges n compress).1 =
      (if compress then
        (labelPass (processEdges n (UnionFind.init n) edges) n compress).comps.map
          (fun c => c + 1)
      else (labelPass (processEdges n (UnionFind.init n) edges) n compress).comps) :=
    rfl
  constructor
  · rw [hfc]
    cases compress with
    | true =>
      simp only [reduceIte]
      rw [getD_map_add_one (by rw [hclen]; exact hu),
        getD_map_add_one (by rw [hclen]; exact hw)]
      rw [← hcomps_iff]
      omega
    | false =>
      simp only [Bool.false_eq_true, reduceIte]
      exact hcomps_iff
  · show (connLoop n (processEdges n (UnionFind.init n) edges) qs).getD i false =
      true ↔ _
    rw [connLoop_spec n qs _ hwf0 hlen0]
    rw [getD_map_general hq]
    rw [if_pos hvalid]
    rw [decide_eq_true_eq]
    rw [hreach _ _ hu hw]

/-- Witness for C1 at the concrete instance of the specification:
edges `[(1,2),(2,3)]`, four nodes, query `(1,3)`. -/
theorem claim_C1_witness :
    ((find_components [((1:Int),(2:Int)), ((2:Int),(3:Int))] 4 true).1.getD
        (esrc ((1:Int),(3:Int))) 0 =
      (find_components [((1:Int),(2:Int)), ((2:Int),(3:Int))] 4 true).1.getD
        (edst ((1:Int),(3:Int))) 0 ↔
      Reachable 4 [((1:Int),(2:Int)), ((2:Int),(3:Int))]
        (esrc ((1:Int),(3:Int))) (edst ((1:Int),(3:Int)))) ∧
    ((are_connected [((1:Int),(2:Int)), ((2:Int),(3:Int))]
        [((1:Int),(3:Int))] 4).getD 0 false = true ↔
      Reachable 4 [((1:Int),(2:Int)), ((2:Int),(3:Int))]
        (esrc ((1:Int),(3:Int))) (edst ((1:Int),(3:Int)))) :=
  claim_C1 [((1:Int),(2:Int)), ((2:Int),(3:Int))] 4 true [((1:Int),(3:Int))] 0
    (by decide) (by decide)

theorem getD_replicate_zero (m k : Nat) : (List.replicate m 0).getD k 0 = 0 := by
  by_cases h : k < m
  · simp [List.getD, List.getElem?_replicate, h]
  · exact List.getD_eq_default _ _ (by simpa using Nat.le_of_not_lt h)

theorem count_map_succ (l : List Nat) (k : Nat) :
    (l.map (fun c => c + 1)).count (k + 1) = l.count k := by
  induction l with
  | nil => rfl
  | cons c cs ih =>
    rw [List.map_cons, List.count_cons, List.count_cons, ih]
    have hbeq : ((c + 1 == k + 1) : Bool) = ((c == k) : Bool) := by
      by_cases h : c = k
      · simp [h]
      · simp [h, fun hcon => h (Nat.succ_injective hcon)]
    rw [hbeq]

theorem getD_eq_getElem {l : List Nat} {i : Nat} (h : i < l.length) (d : Nat) :
    l.getD i d = l.get ⟨i, h⟩ := by
  simp [List.getD, List.getElem?_eq_getElem h]

theorem mem_iff_getD {l : List Nat} {c : Nat} :
    c ∈ l ↔ ∃ i, i < l.length ∧ l.getD i 0 = c := by
  constructor
  · intro h
    obtain ⟨i, hi, heq⟩ := List.mem_iff_getElem.1 h
    exact ⟨i, hi, by rw [getD_eq_getElem hi]; exact heq⟩
  · rintro ⟨i, hi, heq⟩
    rw [getD_eq_getElem hi] at heq
    rw [← heq]
    exact List.get_mem l i hi

/-- Counterexample to claim C6 as stated: in uncompressed mode
`next_component_id` is never incremented, so `find_components` with one
isolated node reports `n_components = 0` while the per-node ids contain one
distinct value. -/
theorem claim_C6_counterexample :
    find_components [] 1 false = ([0], [], 0) ∧
    (find_components [] 1 false).1.dedup.length = 1 ∧
    (find_components [] 1 false).2.2 = 0 := by decide

/-- Claim C6 (amended): the per-node id array always has one id per node of
`[0, n)`; in compressed mode the number of distinct ids equals the reported
`n_components`, the size array has `n_components` entries summing to
`n_nodes`, and `sizes[k]` counts the nodes whose pre-shift id was `k`
(output id `k+1`); in uncompressed mode, however, the reported
`n_components` is 0 and the size array is empty regardless of the true
component count (this is where the original claim fails). -/
theorem claim_C6_amended (edges : List Edge) (n : Nat) :
    (∀ compress, (find_components edges n compress).1.length = n) ∧
    ((find_components edges n true).1.toFinset.card =
      (find_components edges n true).2.2) ∧
    ((find_components edges n true).2.1.sum = n) ∧
    ((find_components edges n true).2.1.length =
      (find_components edges n true).2.2) ∧
    (∀ k, k < (find_components edges n true).2.2 →
      (find_components edges n true).2.1.getD k 0 =
        (find_components edges n true).1.count (k + 1)) ∧
    ((find_components edges n false).2.2 = 0 ∧
      (find_components edges n false).2.1 = []) := by
  obtain ⟨hwf0, hlen0, -⟩ := processEdges_init_spec n edges
  have hfc1 : ∀ compress, (find_components edges n compress).1 =
      (if compress then
        (labelPass (processEdges n (UnionFind.init n) edges) n compress).comps.map
          (fun c => c + 1)
      else (labelPass (processEdges n (UnionFind.init n) edges) n compress).comps) :=
    fun _ => rfl
  have hfc2 : ∀ compress, (find_components edges n compress).2.1 =
      sizesFold compress
        (List.replicate
          (labelPass (processEdges n (UnionFind.init n) edges) n compress).next 0)
        (labelPass (processEdges n (UnionFind.init n) edges) n compress).comps :=
    fun _ => rfl
  have hfc3 : ∀ compress, (find_components edges n compress).2.2 =
      (labelPass (processEdges n (UnionFind.init n) edges) n compress).next :=
    fun _ => rfl
  have hclen : ∀ compress, (labelPass (processEdges n (UnionFind.init n) edges) n
      compress).comps.length = n := fun compress =>
    labelPass_comps_length compress hwf0 hlen0
  obtain ⟨hlt, hsurj⟩ := labelPass_comps_range hwf0 hlen0
  have hmem_lt : ∀ c ∈ (labelPass (processEdges n (UnionFind.init n) edges) n
      true).comps, c < (labelPass (processEdges n (UnionFind.init n) edges) n
        true).next := by
    intro c hc
    obtain ⟨i, hi, heq⟩ := mem_iff_getD.1 hc
    rw [hclen true] at hi
    rw [← heq]
    exact hlt i hi
  refine ⟨?_, ?_, ?_, ?_, ?_, ?_, ?_⟩
  · intro compress
    rw [hfc1]
    cases compress with
    | true =>
      simp only [reduceIte, List.length_map]
      exact hclen true
    | false =>
      simp only [Bool.false_eq_true, reduceIte]
      exact hclen false
  · rw [hfc1, hfc3]
    simp only [reduceIte]
    have himg : ((labelPass (processEdges n (UnionFind.init n) edges) n
        true).comps.map (fun c => c + 1)).toFinset =
        (Finset.range ((labelPass (processEdges n (UnionFind.init n) edges) n
          true).next)).image (fun c => c + 1) := by
      ext x
      rw [List.mem_toFinset, List.mem_map, Finset.mem_image]
      constructor
      · rintro ⟨c, hc, rfl⟩
        exact ⟨c, Finset.mem_range.2 (hmem_lt c hc), rfl⟩
      · rintro ⟨c, hc, rfl⟩
        obtain ⟨i, hi, heq⟩ := hsurj c (Finset.mem_range.1 hc)
        refine ⟨c, ?_, rfl⟩
        rw [mem_iff_getD]
        exact ⟨i, by rw [hclen true]; exact hi, heq⟩
    rw [himg, Finset.card_image_of_injective _
      (fun a b h => Nat.succ_injective h), Finset.card_range]
  · rw [hfc2]
    rw [sizesFold_true_sum _ _ (by
      intro c hc
      rw [List.length_replicate]
      exact hmem_lt c hc)]
    rw [List.sum_replicate]
    simp [hclen true]
  · rw [hfc2, hfc3, sizesFold_true_length, List.length_replicate]
  · intro k hk
    rw [hfc2, hfc1]
    simp only [reduceIte]
    rw [sizesFold_true_getD _ _ _ (by
      intro c hc
      rw [List.length_replicate]
      exact hmem_lt c hc)]
    rw [getD_replicate_zero, count_map_succ]
    omega
  · rw [hfc3]
    exact (labelPass_uncompressed hwf0 hlen0).1
  · rw [hfc2, sizesFold_false, (labelPass_uncompressed hwf0 hlen0).1]
    rfl

/-- Witness for the amended C6 at edges `[(1,2),(2,3)]`, `n = 4`,
instantiating the bounded size conjunct at `k = 0`. -/
theorem claim_C6_amended_witness :
    (find_components [((1:Int),(2:Int)), ((2:Int),(3:Int))] 4 true).2.1.getD 0 0 =
      (find_components [((1:Int),(2:Int)), ((2:Int),(3:Int))] 4 true).1.count 1 :=
  (claim_C6_amended [((1:Int),(2:Int)), ((2:Int),(3:Int))] 4).2.2.2.2.1 0
    (by decide)

/-! ### Shortest paths (`shortest_paths_cpp`, lines 128-195) -/

theorem getD_set_poly {α : Type} {l : List α} {i j : Nat} {v d : α}
    (h : i < l.length) :
    (l.set i v).getD j d = if i = j then v else l.getD j d := by
  simp [List.getD, List.getElem?_set, h]
  split
  · rename_i heq
    subst heq
    simp [h]
  · rfl

/-- Adjacency-list construction of lines 131-141: every valid non-self-loop
edge is inserted in both directions (`adj[u].push_back(v)` then
`adj[v].push_back(u)`), in input order. -/
def buildAdj (n : Nat) (edges : List Edge) : List (List Nat) :=
  edges.foldl (fun adj e =>
    if validEdge n e ∧ esrc e ≠ edst e then
      (adj.set (esrc e) (adj.getD (esrc e) [] ++ [edst e])).set (edst e)
        ((adj.set (esrc e) (adj.getD (esrc e) [] ++ [edst e])).getD (edst e) []
          ++ [esrc e])
    else adj) (List.replicate n [])

/-- Undirected adjacency along a valid non-self-loop edge of the list. -/
def AdjRel (n : Nat) (edges : List Edge) (a b : Nat) : Prop :=
  ∃ e ∈ edges, validEdge n e ∧ esrc e ≠ edst e ∧
    ((a = esrc e ∧ b = edst e) ∨ (a = edst e ∧ b = esrc e))

/-- Walks of a given length over a step relation. -/
inductive Walk (A : Nat → Nat → Prop) : Nat → Nat → Nat → Prop where
  | refl (x : Nat) : Walk A x x 0
  | cons {x y z : Nat} {k : Nat} : A x y → Walk A y z k → Walk A x z (k+1)

theorem buildAdj_foldl (n : Nat) (es : List Edge) :
    ∀ adj : List (List Nat), adj.length = n →
      (es.foldl (fun adj e =>
        if validEdge n e ∧ esrc e ≠ edst e then
          (adj.set (esrc e) (adj.getD (esrc e) [] ++ [edst e])).set (edst e)
            ((adj.set (esrc e) (adj.getD (esrc e) [] ++ [edst e])).getD (edst e) []
              ++ [esrc e])
        else adj) adj).length = n ∧
      (∀ a b : Nat,
        b ∈ (es.foldl (fun adj e =>
          if validEdge n e ∧ esrc e ≠ edst e then
            (adj.set (esrc e) (adj.getD (esrc e) [] ++ [edst e])).set (edst e)
              ((adj.set (esrc e) (adj.getD (esrc e) [] ++ [edst e])).getD (edst e) []
                ++ [esrc e])
          else adj) adj).getD a [] ↔
        b ∈ adj.getD a [] ∨ AdjRel n es a b) := by
  induction es with
  | nil =>
    intro adj hlen
    refine ⟨hlen, ?_⟩
    intro a b
    simp only [List.foldl_nil]
    constructor
    · exact Or.inl
    · intro h
      rcases h with h | ⟨e, he, -⟩
      · exact h
      · exact absurd he (List.not_mem_nil e)
  | cons e rest ih =>
    intro adj hlen
    rw [List.foldl_cons]
    by_cases hv : validEdge n e ∧ esrc e ≠ edst e
    · rw [if_pos hv]
      have hu : esrc e < adj.length := by rw [hlen]; exact esrc_lt hv.1
      have hw : edst e < adj.length := by rw [hlen]; exact edst_lt hv.1
      have hlen1 : ((adj.set (esrc e) (adj.getD (esrc e) [] ++ [edst e])).set (edst e)
          ((adj.set (esrc e) (adj.getD (esrc e) [] ++ [edst e])).getD (edst e) []
            ++ [esrc e])).length = n := by
        simp [hlen]
      obtain ⟨hrlen, hriff⟩ := ih _ hlen1
      refine ⟨hrlen, ?_⟩
      intro a b
      rw [hriff a b]
      have hget : ∀ c : Nat,
          ((adj.set (esrc e) (adj.getD (esrc e) [] ++ [edst e])).set (edst e)
            ((adj.set (esrc e) (adj.getD (esrc e) [] ++ [edst e])).getD (edst e) []
              ++ [esrc e])).getD c [] =
          if edst e = c then adj.getD (edst e) [] ++ [esrc e]
          else if esrc e = c then adj.getD (esrc e) [] ++ [edst e]
          else adj.getD c [] := by
        intro c
        rw [getD_set_poly (by simpa using hw)]
        rw [getD_set_poly hu]
        rw [getD_set_poly hu]
        rw [if_neg hv.2]
      have hadj_cons : ∀ x y : Nat, AdjRel n (e :: rest) x y ↔
          ((x = esrc e ∧ y = edst e) ∨ (x = edst e ∧ y = esrc e)) ∨
            AdjRel n rest x y := by
        intro x y
        constructor
        · rintro ⟨e2, he2, hv2, hne2, hd⟩
          rcases List.mem_cons.1 he2 with heq | he2
          · subst heq
            exact Or.inl hd
          · exact Or.inr ⟨e2, he2, hv2, hne2, hd⟩
        · rintro (hd | ⟨e2, he2, hv2, hne2, hd⟩)
          · exact ⟨e, List.mem_cons_self e rest, hv.1, hv.2, hd⟩
          · exact ⟨e2, List.mem_cons_of_mem e he2, hv2, hne2, hd⟩
      rw [hget a, hadj_cons]
      have hne1 : esrc e ≠ edst e := hv.2
      have hne2 : edst e ≠ esrc e := fun hcon => hv.2 hcon.symm
      by_cases hav : edst e = a
      · rw [if_pos hav]
        subst hav
        simp only [List.mem_append, List.mem_singleton]
        constructor
        · rintro ((h | h) | h)
          · exact Or.inl h
          · exact Or.inr (Or.inl (Or.inr ⟨trivial, h⟩))
          · exact Or.inr (Or.inr h)
        · rintro (h | (⟨h1, h2⟩ | ⟨h1, h2⟩) | h)
          · exact Or.inl (Or.inl h)
          · exact absurd h1 hne2
          · exact Or.inl (Or.inr h2)
          · exact Or.inr h
      · rw [if_neg hav]
        by_cases hau : esrc e = a
        · rw [if_pos hau]
          subst hau
          simp only [List.mem_append, List.mem_singleton]
          constructor
          · rintro ((h | h) | h)
            · exact Or.inl h
            · exact Or.inr (Or.inl (Or.inl ⟨trivial, h⟩))
            · exact Or.inr (Or.inr h)
          · rintro (h | (⟨h1, h2⟩ | ⟨h1, h2⟩) | h)
            · exact Or.inl (Or.inl h)
            · exact Or.inl (Or.inr h2)
            · exact absurd h1 hne1
            · exact Or.inr h
        · rw [if_neg hau]
          constructor
          · rintro (h | h)
            · exact Or.inl h
            · exact Or.inr (Or.inr h)
          · rintro (h | (⟨h1, h2⟩ | ⟨h1, h2⟩) | h)
            · exact Or.inl h
            · exact absurd h1.symm hau
            · exact absurd h1.symm hav
            · exact Or.inr h
    · rw [if_neg hv]
      obtain ⟨hrlen, hriff⟩ := ih adj hlen
      refine ⟨hrlen, ?_⟩
      intro a b
      rw [hriff a b]
      constructor
      · rintro (h | h)
        · exact Or.inl h
        · obtain ⟨e2, he2, hv2, hne2, hd⟩ := h
          exact Or.inr ⟨e2, List.mem_cons_of_mem e he2, hv2, hne2, hd⟩
      · rintro (h | ⟨e2, he2, hv2, hne2, hd⟩)
        · exact Or.inl h
        · rcases List.mem_cons.1 he2 with heq | he2
          · subst heq
            exact absurd ⟨hv2, hne2⟩ hv
          · exact Or.inr ⟨e2, he2, hv2, hne2, hd⟩

theorem buildAdj_spec (n : Nat) (edges : List Edge) :
    (buildAdj n edges).length = n ∧
    ∀ a b : Nat, b ∈ (buildAdj n edges).getD a [] ↔ AdjRel n edges a b := by
  obtain ⟨hlen, hiff⟩ := buildAdj_foldl n edges (List.replicate n [])
    (List.length_replicate _ _)
  refine ⟨hlen, ?_⟩
  intro a b
  rw [show (buildAdj n edges) = (edges.foldl (fun adj e =>
    if validEdge n e ∧ esrc e ≠ edst e then
      (adj.set (esrc e) (adj.getD (esrc e) [] ++ [edst e])).set (edst e)
        ((adj.set (esrc e) (adj.getD (esrc e) [] ++ [edst e])).getD (edst e) []
          ++ [esrc e])
    else adj) (List.replicate n ([] : List Nat))) from rfl]
  rw [hiff a b]
  have hrep : (List.replicate n ([] : List Nat)).getD a [] = [] := by
    by_cases h : a < n
    · simp [List.getD, List.getElem?_replicate, h]
    · exact List.getD_eq_default _ _ (by simpa using Nat.le_of_not_lt h)
  rw [hrep]
  simp

/-- Neighbor-expansion loop of lines 174-186.  The first component is
`some d` when the target was just discovered at distance `d` (the C++ sets
`result`, `found = true` and breaks); otherwise the updated distance array
and queue are returned. -/
def expand (target : Nat) (dcur : Int) :
    List Int → List Nat → List Nat → Option Int × List Int × List Nat
  | dist, queue, [] => (none, dist, queue)
  | dist, queue, nb :: rest =>
    if dist.getD nb 0 = -1 then
      if nb = target then (some (dcur + 1), dist.set nb (dcur + 1), queue)
      else expand target dcur (dist.set nb (dcur + 1)) (queue ++ [nb]) rest
    else expand target dcur dist queue rest

/-- Number of unvisited entries; with the queue length this bounds the
remaining iterations of the BFS while-loop. -/
def negCount (dist : List Int) : Nat := dist.countP (fun d => d == -1)

/-- BFS while-loop of lines 166-187, with the post-loop `-1` of lines
189-191.  The loop terminates because every iteration either pops without
pushing or turns unvisited nodes into visited ones; the fuel argument is
only a termination device, and fuel `negCount dist + queue.length + 1` is
always sufficient (maintained in `bfsLoop_spec`). -/
def bfsLoop (adj : List (List Nat)) (md : Int) (target : Nat) :
    Nat → List Int → List Nat → Int
  | 0, _, _ => -1
  | _+1, dist, [] => -1
  | fuel+1, dist, current :: rest =>
    if md > 0 ∧ dist.getD current 0 ≥ md then -1
    else
      match expand target (dist.getD current 0) dist rest (adj.getD current []) with
      | (some res, _, _) => res
      | (none, dist2, queue2) => bfsLoop adj md target fuel dist2 queue2

/-- Model of `shortest_paths_cpp` (lines 128-195) on a non-negative node
count: per query, bounds check (lines 149-152), the `source == target`
shortcut (lines 154-157), then a fresh BFS. -/
def shortest_paths (edges queries : List Edge) (n : Nat) (md : Int) : List Int :=
  queries.map (fun q =>
    if ¬ validEdge n q then -1
    else if esrc q = edst q then 0
    else bfsLoop (buildAdj n edges) md (edst q) (n + 1)
      ((List.replicate n (-1)).set (esrc q) 0) [esrc q])

theorem lt_of_getD_neg {dist : List Int} {v : Nat} (h : dist.getD v 0 = -1) :
    v < dist.length := by
  by_contra hcon
  rw [List.getD_eq_default _ _ (Nat.le_of_not_lt hcon)] at h
  exact absurd h (by decide)

theorem negCount_set {dist : List Int} {i : Nat} {v : Int}
    (hold : dist.getD i 0 = -1) (hv : v ≠ -1) :
    negCount (dist.set i v) + 1 = negCount dist := by
  have hi : i < dist.length := lt_of_getD_neg hold
  induction dist generalizing i with
  | nil => simp at hi
  | cons a t ih =>
    cases i with
    | zero =>
      have ha : a = -1 := by simpa [List.getD] using hold
      subst ha
      show negCount (v :: t) + 1 = negCount (-1 :: t)
      unfold negCount
      rw [List.countP_cons, List.countP_cons]
      have hvb : ((v == -1) : Bool) = false := by simpa using hv
      simp [hvb]
    | succ i =>
      have hold2 : t.getD i 0 = -1 := by simpa [List.getD] using hold
      have hi2 : i < t.length := by simpa using hi
      show negCount (a :: t.set i v) + 1 = negCount (a :: t)
      unfold negCount
      rw [List.countP_cons, List.countP_cons]
      have := ih hold2 hi2
      unfold negCount at this
      omega

theorem expand_some (target : Nat) (dcur : Int) :
    ∀ (nbrs : List Nat) (dist : List Int) (queue : List Nat)
      (res : Int) (dist2 : List Int) (q2 : List Nat),
      expand target dcur dist queue nbrs = (some res, dist2, q2) →
      res = dcur + 1 ∧ target ∈ nbrs := by
  intro nbrs
  induction nbrs with
  | nil =>
    intro dist queue res dist2 q2 h
    simp [expand] at h
  | cons nb rest ih =>
    intro dist queue res dist2 q2 h
    unfold expand at h
    split at h
    · split at h
      · rename_i hnb
        injection h with h1 h2
        injection h1 with h1
        exact ⟨h1.symm, by rw [← hnb]; exact List.mem_cons_self _ _⟩
      · obtain ⟨h1, h2⟩ := ih _ _ _ _ _ h
        exact ⟨h1, List.mem_cons_of_mem _ h2⟩
    · obtain ⟨h1, h2⟩ := ih _ _ _ _ _ h
      exact ⟨h1, List.mem_cons_of_mem _ h2⟩

theorem expand_none (target : Nat) (dcur : Int) (hdc : dcur + 1 ≠ -1) :
    ∀ (nbrs : List Nat) (dist : List Int) (queue : List Nat)
      (dist2 : List Int) (q2 : List Nat),
      expand target dcur dist queue nbrs = (none, dist2, q2) →
      dist2.length = dist.length ∧
      (∀ v, dist.getD v 0 ≠ -1 → dist2.getD v 0 = dist.getD v 0) ∧
      (∀ v, dist2.getD v 0 ≠ dist.getD v 0 →
        dist.getD v 0 = -1 ∧ dist2.getD v 0 = dcur + 1 ∧ v ∈ nbrs) ∧
      (∀ v, v ∈ q2 ↔ v ∈ queue ∨ dist2.getD v 0 ≠ dist.getD v 0) ∧
      (∀ nb ∈ nbrs, dist2.getD nb 0 ≠ -1) ∧
      dist2.getD target 0 = dist.getD target 0 ∧
      negCount dist2 + q2.length ≤ negCount dist + queue.length := by
  intro nbrs
  induction nbrs with
  | nil =>
    intro dist queue dist2 q2 h
    unfold expand at h
    injection h with h1 h2
    injection h2 with h2 h3
    subst h2; subst h3
    refine ⟨rfl, fun v _ => rfl, fun v hv => absurd rfl hv, ?_, ?_, rfl, le_refl _⟩
    · intro v
      simp
    · intro nb hnb
      simp at hnb
  | cons nb rest ih =>
    intro dist queue dist2 q2 h
    unfold expand at h
    by_cases h1 : dist.getD nb 0 = -1
    · rw [if_pos h1] at h
      have hnb_lt : nb < dist.length := lt_of_getD_neg h1
      by_cases h2 : nb = target
      · rw [if_pos h2] at h
        exact absurd h (by simp)
      · rw [if_neg h2] at h
        obtain ⟨e1, e2, e3, e4, e5, e6, e7⟩ := ih _ _ _ _ h
        have hset : ∀ v, (dist.set nb (dcur + 1)).getD v 0 =
            if nb = v then dcur + 1 else dist.getD v 0 :=
          fun v => getD_set_poly hnb_lt
        have hnb_new : (dist.set nb (dcur + 1)).getD nb 0 = dcur + 1 := by
          rw [hset, if_pos rfl]
        have hdist2_nb : dist2.getD nb 0 = dcur + 1 := by
          rw [e2 nb (by rw [hnb_new]; exact hdc), hnb_new]
        refine ⟨?_, ?_, ?_, ?_, ?_, ?_, ?_⟩
        · rw [e1]; simp
        · intro v hv
          have hvnb : ¬ nb = v := by
            intro hcon
            subst hcon
            exact hv h1
          rw [e2 v (by rw [hset, if_neg hvnb]; exact hv), hset, if_neg hvnb]
        · intro v hv
          by_cases hvnb : nb = v
          · subst hvnb
            exact ⟨h1, hdist2_nb, List.mem_cons_self _ _⟩
          · have hsetv : (dist.set nb (dcur + 1)).getD v 0 = dist.getD v 0 := by
              rw [hset, if_neg hvnb]
            have hnew : dist2.getD v 0 ≠ (dist.set nb (dcur + 1)).getD v 0 := by
              rw [hsetv]; exact hv
            obtain ⟨g1, g2, g3⟩ := e3 v hnew
            rw [hsetv] at g1
            exact ⟨g1, g2, List.mem_cons_of_mem _ g3⟩
        · intro v
          rw [e4 v]
          simp only [List.mem_append, List.mem_singleton]
          constructor
          · rintro ((h | h) | h)
            · exact Or.inl h
            · subst h
              refine Or.inr ?_
              rw [hdist2_nb, h1]
              exact hdc
            · refine Or.inr ?_
              intro hcon
              apply h
              by_cases hvnb : nb = v
              · subst hvnb
                rw [hdist2_nb, hnb_new]
              · rw [hcon, hset, if_neg hvnb]
          · rintro (h | h)
            · exact Or.inl (Or.inl h)
            · by_cases hvnb : nb = v
              · exact Or.inl (Or.inr hvnb.symm)
              · refine Or.inr ?_
                rw [hset, if_neg hvnb]
                exact h
        · intro w hw
          rcases List.mem_cons.1 hw with hw | hw
          · subst hw
            rw [hdist2_nb]
            exact hdc
          · exact e5 w hw
        · rw [e6, hset, if_neg h2]
        · have hmeas := negCount_set h1 hdc
          have hlen : (queue ++ [nb]).length = queue.length + 1 := by simp
          rw [hlen] at e7
          omega
    · rw [if_neg h1] at h
      obtain ⟨e1, e2, e3, e4, e5, e6, e7⟩ := ih _ _ _ _ h
      refine ⟨e1, e2, ?_, e4, ?_, e6, e7⟩
      · intro v hv
        obtain ⟨g1, g2, g3⟩ := e3 v hv
        exact ⟨g1, g2, List.mem_cons_of_mem _ g3⟩
      · intro w hw
        rcases List.mem_cons.1 hw with hw | hw
        · subst hw
          rw [e2 w h1]
          exact h1
        · exact e5 w hw

theorem walk_snoc {A : Nat → Nat → Prop} {s c t : Nat} {k : Nat}
    (hw : Walk A s c k) (hstep : A c t) : Walk A s t (k + 1) := by
  induction hw with
  | refl x => exact Walk.cons hstep (Walk.refl t)
  | cons h1 h2 ih => exact Walk.cons h1 (ih hstep)

/-- If the visited set is closed under adjacency and contains the source
but not the target, no walk reaches the target. -/
theorem bfs_closed_no_walk {adj : List (List Nat)} {dist : List Int}
    {source target : Nat}
    (hsrc_vis : dist.getD source 0 ≠ -1) (hsrc_lt : source < dist.length)
    (htar : dist.getD target 0 = -1)
    (hadjlt : ∀ a, ∀ b ∈ adj.getD a [], b < dist.length)
    (hclosed : ∀ v, v < dist.length → dist.getD v 0 ≠ -1 →
      ∀ w ∈ adj.getD v [], dist.getD w 0 ≠ -1) :
    ∀ k, ¬ Walk (fun a b => b ∈ adj.getD a []) source target k := by
  have hkey : ∀ (k x v : Nat), dist.getD x 0 ≠ -1 → x < dist.length →
      Walk (fun a b => b ∈ adj.getD a []) x v k →
      dist.getD v 0 ≠ -1 := by
    intro k x v hx hxlt hw
    induction hw with
    | refl y => exact hx
    | cons h1 h2 ih =>
      rename_i a b c m
      exact ih (hclosed a hxlt hx b h1) (hadjlt a b h1)
  intro k hw
  exact (hkey k source target hsrc_vis hsrc_lt hw) htar

/-- Main BFS loop theorem: a non-negative result is the length of an actual
walk from source to target (and respects a positive cutoff), and in
unbounded mode a `-1` result means the target is unreachable. -/
theorem bfsLoop_spec (adj : List (List Nat)) (md : Int) (source target : Nat) :
    ∀ (fuel : Nat) (dist : List Int) (queue : List Nat),
      (∀ v, v < dist.length → dist.getD v 0 = -1 ∨
        ∃ k : Nat, dist.getD v 0 = (k : Int) ∧
          Walk (fun a b => b ∈ adj.getD a []) source v k) →
      (∀ v ∈ queue, dist.getD v 0 ≠ -1 ∧ v < dist.length) →
      dist.getD target 0 = -1 →
      dist.getD source 0 ≠ -1 →
      source < dist.length →
      (∀ a, ∀ b ∈ adj.getD a [], b < dist.length) →
      (∀ v, v < dist.length → dist.getD v 0 ≠ -1 →
        v ∈ queue ∨ ∀ w ∈ adj.getD v [], dist.getD w 0 ≠ -1) →
      negCount dist + queue.length ≤ fuel →
      (bfsLoop adj md target fuel dist queue ≠ -1 →
        ∃ k : Nat, bfsLoop adj md target fuel dist queue = (k : Int) ∧
          Walk (fun a b => b ∈ adj.getD a []) source target k ∧
          (0 < md → (k : Int) ≤ md)) ∧
      (md = 0 → bfsLoop adj md target fuel dist queue = -1 →
        ∀ k, ¬ Walk (fun a b => b ∈ adj.getD a []) source target k) := by
  intro fuel
  induction fuel with
  | zero =>
    intro dist queue hInv1 hInv3 hInv4 hsrc hsrclt hadjlt hclosed hmeas
    constructor
    · intro hne
      exact absurd rfl hne
    · intro hmd _
      have hq : queue = [] := by
        have : queue.length = 0 := by omega
        exact List.length_eq_zero.1 this
      subst hq
      refine bfs_closed_no_walk hsrc hsrclt hInv4 hadjlt ?_
      intro v hvlt hvvis
      rcases hclosed v hvlt hvvis with h | h
      · simp at h
      · exact h
  | succ fuel ih =>
    intro dist queue hInv1 hInv3 hInv4 hsrc hsrclt hadjlt hclosed hmeas
    match queue with
    | [] =>
      constructor
      · intro hne
        exact absurd rfl hne
      · intro hmd _
        refine bfs_closed_no_walk hsrc hsrclt hInv4 hadjlt ?_
        intro v hvlt hvvis
        rcases hclosed v hvlt hvvis with h | h
        · simp at h
        · exact h
    | current :: rest =>
      show (bfsLoop adj md target (fuel+1) dist (current :: rest) ≠ -1 → _) ∧ _
      rw [show bfsLoop adj md target (fuel+1) dist (current :: rest) =
        (if md > 0 ∧ dist.getD current 0 ≥ md then -1
         else
           match expand target (dist.getD current 0) dist rest
               (adj.getD current []) with
           | (some res, _, _) => res
           | (none, dist2, queue2) => bfsLoop adj md target fuel dist2 queue2)
        from rfl]
      by_cases hcut : md > 0 ∧ dist.getD current 0 ≥ md
      · rw [if_pos hcut]
        constructor
        · intro hne
          exact absurd rfl hne
        · intro hmd _
          rw [hmd] at hcut
          exact absurd hcut.1 (by omega)
      · rw [if_neg hcut]
        obtain ⟨hcur_vis, hcur_lt⟩ := hInv3 current (List.mem_cons_self _ _)
        have hex : ∃ k : Nat, dist.getD current 0 = (k : Int) ∧
            Walk (fun a b => b ∈ adj.getD a []) source current k := by
          rcases hInv1 current hcur_lt with h | h
          · exact absurd h hcur_vis
          · exact h
        obtain ⟨kc, hkc, hwc⟩ := hex
        have hdc : dist.getD current 0 + 1 ≠ -1 := by
          rw [hkc]
          omega
        cases hexp : expand target (dist.getD current 0) dist rest
            (adj.getD current []) with
        | mk fst snd =>
          cases fst with
          | some res =>
            simp only
            obtain ⟨hres, htarget_mem⟩ :=
              expand_some target (dist.getD current 0) _ _ _ _ _ _ hexp
            constructor
            · intro _
              refine ⟨kc + 1, ?_, walk_snoc hwc htarget_mem, ?_⟩
              · rw [hres, hkc]
                push_cast
                ring
              · intro hmd
                have hlt : dist.getD current 0 < md := by
                  rcases Decidable.em (dist.getD current 0 ≥ md) with h | h
                  · exact absurd ⟨hmd, h⟩ hcut
                  · omega
                rw [hkc] at hlt
                push_cast
                omega
            · intro hmd habs
              rw [habs] at hres
              rw [hkc] at hres
              omega
          | none =>
            obtain ⟨dist2, q2⟩ := snd
            simp only
            obtain ⟨e1, e2, e3, e4, e5, e6, e7⟩ :=
              expand_none target (dist.getD current 0) hdc _ _ _ _ _ hexp
            apply ih dist2 q2
            · intro v hvlt
              rw [e1] at hvlt
              by_cases hnew : dist2.getD v 0 ≠ dist.getD v 0
              · obtain ⟨g1, g2, g3⟩ := e3 v hnew
                refine Or.inr ⟨kc + 1, ?_, walk_snoc hwc g3⟩
                rw [g2, hkc]
                push_cast
                ring
              · push_neg at hnew
                rw [hnew]
                rcases hInv1 v hvlt with h | ⟨k, hk, hwk⟩
                · exact Or.inl h
                · exact Or.inr ⟨k, hk, hwk⟩
            · intro v hv
              rcases (e4 v).1 hv with h | h
              · obtain ⟨h1, h2⟩ := hInv3 v (List.mem_cons_of_mem _ h)
                refine ⟨?_, by rw [e1]; exact h2⟩
                rw [e2 v h1]
                exact h1
              · obtain ⟨g1, g2, g3⟩ := e3 v h
                refine ⟨by rw [g2]; exact hdc, ?_⟩
                rw [e1]
                exact hadjlt current v g3
            · rw [e6]
              exact hInv4
            · rw [e2 source hsrc]
              exact hsrc
            · rw [e1]
              exact hsrclt
            · intro a b hb
              rw [e1]
              exact hadjlt a b hb
            · intro v hvlt hvvis
              rw [e1] at hvlt
              by_cases hnew : dist2.getD v 0 ≠ dist.getD v 0
              · exact Or.inl ((e4 v).2 (Or.inr hnew))
              · push_neg at hnew
                by_cases hvc : v = current
                · subst hvc
                  refine Or.inr ?_
                  intro w hw
                  exact e5 w hw
                · have hvis_old : dist.getD v 0 ≠ -1 := by
                    rw [← hnew]
                    exact hvvis
                  rcases hclosed v hvlt hvis_old with h | h
                  · rcases List.mem_cons.1 h with h | h
                    · exact absurd h hvc
                    · exact Or.inl ((e4 v).2 (Or.inl h))
                  · refine Or.inr ?_
                    intro w hw
                    by_cases hneww : dist2.getD w 0 ≠ dist.getD w 0
                    · obtain ⟨-, g2, -⟩ := e3 w hneww
                      rw [g2]
                      exact hdc
                    · push_neg at hneww
                      rw [hneww]
                      exact h w hw
            · have : (current :: rest).length = rest.length + 1 := rfl
              rw [this] at hmeas
              omega

theorem walk_congr {A B : Nat → Nat → Prop} (h : ∀ a b, A a b ↔ B a b)
    {x y : Nat} {k : Nat} (hw : Walk A x y k) : Walk B x y k := by
  induction hw with
  | refl z => exact Walk.refl z
  | cons h1 h2 ih => exact Walk.cons ((h _ _).1 h1) ih

theorem adjRel_lt {n : Nat} {edges : List Edge} {a b : Nat}
    (h : AdjRel n edges a b) : a < n ∧ b < n := by
  obtain ⟨e, -, hv, -, hd⟩ := h
  rcases hd with ⟨h1, h2⟩ | ⟨h1, h2⟩
  · exact ⟨h1 ▸ esrc_lt hv, h2 ▸ edst_lt hv⟩
  · exact ⟨h1 ▸ edst_lt hv, h2 ▸ esrc_lt hv⟩

/-- Claim C3: for every edge list and in-range query, a non-negative
result of `shortest_paths` is the length of an actual path and never
exceeds a positive `max_distance`; with a positive bound the result is `-1`
whenever every path is longer than the bound; with `max_distance = 0` the
search is unbounded (`-1` exactly for unreachable targets); and on the
concrete example edges `[(1,2),(2,3)]`, query `(1,3)` yields `-1` under
`max_distance = 1` and `2` under `max_distance = 0`. -/
theorem claim_C3 (edges qs : List Edge) (n : Nat) (md : Int) (i : Nat)
    (hq : i < qs.length) (hvalid : validEdge n (qs.get ⟨i, hq⟩)) :
    (((shortest_paths edges qs n md).getD i (-1) ≠ -1 →
      ∃ k : Nat, (shortest_paths edges qs n md).getD i (-1) = (k : Int) ∧
        Walk (AdjRel n edges) (esrc (qs.get ⟨i, hq⟩)) (edst (qs.get ⟨i, hq⟩)) k ∧
        (0 < md → (k : Int) ≤ md)) ∧
    (0 < md →
      (∀ k : Nat, Walk (AdjRel n edges) (esrc (qs.get ⟨i, hq⟩))
        (edst (qs.get ⟨i, hq⟩)) k → md < (k : Int)) →
      (shortest_paths edges qs n md).getD i (-1) = -1) ∧
    (md = 0 → ((shortest_paths edges qs n md).getD i (-1) = -1 ↔
      ∀ k : Nat, ¬ Walk (AdjRel n edges) (esrc (qs.get ⟨i, hq⟩))
        (edst (qs.get ⟨i, hq⟩)) k))) ∧
    (shortest_paths [((1:Int),(2:Int)), ((2:Int),(3:Int))]
        [((1:Int),(3:Int))] 3 1 = [-1] ∧
      shortest_paths [((1:Int),(2:Int)), ((2:Int),(3:Int))]
        [((1:Int),(3:Int))] 3 0 = [2]) := by
  refine ⟨?_, by decide, by decide⟩
  have hres : (shortest_paths edges qs n md).getD i (-1) =
      (if ¬ validEdge n (qs.get ⟨i, hq⟩) then -1
       else if esrc (qs.get ⟨i, hq⟩) = edst (qs.get ⟨i, hq⟩) then 0
       else bfsLoop (buildAdj n edges) md (edst (qs.get ⟨i, hq⟩)) (n + 1)
         ((List.replicate n (-1)).set (esrc (qs.get ⟨i, hq⟩)) 0)
         [esrc (qs.get ⟨i, hq⟩)]) := by
    unfold shortest_paths
    exact getD_map_general hq (-1)
  rw [hres, if_neg (not_not_intro hvalid)]
  obtain ⟨hadj_len, hadj_iff⟩ := buildAdj_spec n edges
  have hu : esrc (qs.get ⟨i, hq⟩) < n := esrc_lt hvalid
  have hw : edst (qs.get ⟨i, hq⟩) < n := edst_lt hvalid
  by_cases hst : esrc (qs.get ⟨i, hq⟩) = edst (qs.get ⟨i, hq⟩)
  · rw [if_pos hst]
    have hwalk0 : Walk (AdjRel n edges) (esrc (qs.get ⟨i, hq⟩))
        (edst (qs.get ⟨i, hq⟩)) 0 := hst ▸ Walk.refl _
    refine ⟨?_, ?_, ?_⟩
    · intro _
      exact ⟨0, by norm_num, hwalk0, fun hmd => by norm_num; omega⟩
    · intro hmd hlong
      have := hlong 0 hwalk0
      norm_num at this
      omega
    · intro hmd
      constructor
      · intro habs
        norm_num at habs
      · intro hnowalk
        exact absurd hwalk0 (hnowalk 0)
  · rw [if_neg hst]
    set dist0 := (List.replicate n (-1 : Int)).set (esrc (qs.get ⟨i, hq⟩)) 0
      with hdist0
    have hreplen : (List.replicate n (-1 : Int)).length = n :=
      List.length_replicate _ _
    have hulen : esrc (qs.get ⟨i, hq⟩) < (List.replicate n (-1 : Int)).length := by
      rw [hreplen]; exact hu
    have hlen0 : dist0.length = n := by
      rw [hdist0, List.length_set, hreplen]
    have hrepD : ∀ v : Nat, (List.replicate n (-1 : Int)).getD v 0 =
        if v < n then -1 else 0 := by
      intro v
      by_cases hv : v < n
      · simp [List.getD, List.getElem?_replicate, hv]
      · rw [if_neg hv]
        exact List.getD_eq_default _ _ (by simpa using Nat.le_of_not_lt hv)
    have hget0 : ∀ v : Nat, dist0.getD v 0 =
        if esrc (qs.get ⟨i, hq⟩) = v then 0
        else if v < n then -1 else 0 := by
      intro v
      rw [hdist0, getD_set_poly hulen]
      by_cases hv : esrc (qs.get ⟨i, hq⟩) = v
      · rw [if_pos hv, if_pos hv]
      · rw [if_neg hv, if_neg hv, hrepD]
    have hsrc0 : dist0.getD (esrc (qs.get ⟨i, hq⟩)) 0 = 0 := by
      rw [hget0, if_pos rfl]
    have hadjlt0 : ∀ a, ∀ b ∈ (buildAdj n edges).getD a [], b < dist0.length := by
      intro a b hb
      rw [hlen0]
      exact (adjRel_lt ((hadj_iff a b).1 hb)).2
    have hspec := bfsLoop_spec (buildAdj n edges) md (esrc (qs.get ⟨i, hq⟩))
      (edst (qs.get ⟨i, hq⟩)) (n + 1) dist0 [esrc (qs.get ⟨i, hq⟩)]
      (by
        intro v hvlt
        rw [hget0]
        by_cases hv : esrc (qs.get ⟨i, hq⟩) = v
        · refine Or.inr ⟨0, by rw [if_pos hv]; norm_num, ?_⟩
          rw [← hv]
          exact Walk.refl _
        · rw [if_neg hv, if_pos (by rw [hlen0] at hvlt; exact hvlt)]
          exact Or.inl rfl)
      (by
        intro v hv
        rw [List.mem_singleton] at hv
        subst hv
        rw [hsrc0]
        refine ⟨by norm_num, ?_⟩
        rw [hlen0]
        exact hu)
      (by
        rw [hget0, if_neg hst, if_pos hw])
      (by rw [hsrc0]; norm_num)
      (by rw [hlen0]; exact hu)
      hadjlt0
      (by
        intro v hvlt hvvis
        rw [hget0] at hvvis
        by_cases hv : esrc (qs.get ⟨i, hq⟩) = v
        · exact Or.inl (by rw [List.mem_singleton, ← hv])
        · rw [if_neg hv, if_pos (by rw [hlen0] at hvlt; exact hvlt)] at hvvis
          exact absurd rfl hvvis)
      (by
        have hcount : negCount dist0 ≤ dist0.length := List.countP_le_length _
        rw [hlen0] at hcount
        simp only [List.length_singleton]
        omega)
    obtain ⟨hsound, hcomplete⟩ := hspec
    have hwalkconv : ∀ k : Nat,
        Walk (fun a b => b ∈ (buildAdj n edges).getD a [])
          (esrc (qs.get ⟨i, hq⟩)) (edst (qs.get ⟨i, hq⟩)) k ↔
        Walk (AdjRel n edges) (esrc (qs.get ⟨i, hq⟩)) (edst (qs.get ⟨i, hq⟩)) k := by
      intro k
      constructor
      · exact walk_congr hadj_iff
      · exact walk_congr (fun a b => (hadj_iff a b).symm)
    refine ⟨?_, ?_, ?_⟩
    · intro hne
      obtain ⟨k, hk, hwk, hbound⟩ := hsound hne
      exact ⟨k, hk, (hwalkconv k).1 hwk, hbound⟩
    · intro hmd hlong
      by_contra hne
      obtain ⟨k, hk, hwk, hbound⟩ := hsound hne
      have h1 := hlong k ((hwalkconv k).1 hwk)
      have h2 := hbound hmd
      omega
    · intro hmd
      constructor
      · intro hz k hwk
        exact hcomplete hmd hz k ((hwalkconv k).2 hwk)
      · intro hnowalk
        by_contra hne
        obtain ⟨k, -, hwk, -⟩ := hsound hne
        exact hnowalk k ((hwalkconv k).1 hwk)

/-- Witness for C3 at the concrete query of the specification example. -/
theorem claim_C3_witness :
    ((shortest_paths [((1:Int),(2:Int)), ((2:Int),(3:Int))]
        [((1:Int),(3:Int))] 3 0).getD 0 (-1) = -1 ↔
      ∀ k : Nat, ¬ Walk (AdjRel 3 [((1:Int),(2:Int)), ((2:Int),(3:Int))])
        (esrc ([((1:Int),(3:Int))].get ⟨0, by decide⟩))
        (edst ([((1:Int),(3:Int))].get ⟨0, by decide⟩)) k) :=
  (claim_C3 [((1:Int),(2:Int)), ((2:Int),(3:Int))] [((1:Int),(3:Int))] 3 0 0
    (by decide) (by decide)).1.2.2 rfl

/-! ### Graph statistics (`graph_stats_cpp`, lines 199-236) and entry-point
error model -/

/-- Failure modes of an entry point: a throwing `std::vector` constructor
on a negative size (a `length_error`, in the `logic_error`/
`invalid_argument` family), or genuine undefined behaviour
(`std::min_element` dereferenced on an empty range). -/
inductive CallError where
  | invalidSize
  | undefinedBehavior
deriving Repr, DecidableEq

/-- Result record of `graph_stats_cpp`. -/
structure GraphStats where
  n_edges : Nat
  n_nodes : Int
  density : Rat
  min_degree : Nat
  max_degree : Nat
  mean_degree : Rat
deriving Repr, DecidableEq

/-- Degree-counting loop of lines 200-211: valid non-self-loop edges
increment both endpoint degrees. -/
def degreesOf (n : Nat) (edges : List Edge) : List Nat :=
  edges.foldl (fun deg e =>
    if validEdge n e ∧ esrc e ≠ edst e then
      (deg.set (esrc e) (deg.getD (esrc e) 0 + 1)).set (edst e)
        ((deg.set (esrc e) (deg.getD (esrc e) 0 + 1)).getD (edst e) 0 + 1)
    else deg) (List.replicate n 0)

/-- Model of `graph_stats_cpp` (lines 199-236).  `double` aggregates are
modelled as `Rat`.  A negative node count makes the `degree` vector
constructor throw; a zero node count makes `std::min_element` dereference
the end iterator (undefined behaviour), modelled as an error value.
Density uses the raw input edge count `edges.length`, not the filtered
count, and is `0` when `n*(n-1)/2` is not positive. -/
def graph_stats_cpp (edges : List Edge) (n_nodes : Int) :
    Except CallError GraphStats :=
  if n_nodes < 0 then .error .invalidSize
  else
    match degreesOf n_nodes.toNat edges with
    | [] => .error .undefinedBehavior
    | d :: ds =>
      .ok { n_edges := edges.length
            n_nodes := n_nodes
            density := if ((n_nodes : Rat) * ((n_nodes : Rat) - 1) / 2) > 0 then
                (edges.length : Rat) / ((n_nodes : Rat) * ((n_nodes : Rat) - 1) / 2)
              else 0
            min_degree := ds.foldl min d
            max_degree := ds.foldl max d
            mean_degree := (((d :: ds).sum : Rat)) / (n_nodes : Rat) }

/-- Model of `get_edge_components_cpp` (lines 248-304): the labeling pass of
`find_components_cpp`, then per-edge stamping of both endpoint component
ids; invalid edges receive `0` (compressed) or `-1` (uncompressed). -/
def get_edge_components (edges : List Edge) (n : Nat) (compress : Bool) :
    List Int × List Int × Nat :=
  let st := labelPass (processEdges n (UnionFind.init n) edges) n compress
  let node_components := if compress then st.comps.map (fun c => c + 1) else st.comps
  (edges.map (fun e => if validEdge n e then (node_components.getD (esrc e) 0 : Int)
      else if compress then 0 else -1),
   edges.map (fun e => if validEdge n e then (node_components.getD (edst e) 0 : Int)
      else if compress then 0 else -1),
   st.next)

/-- Model of the `UnionFind(int n)` constructor at the external boundary:
`std::vector<int> parent(n)` with `n < 0` converts `n` to a huge `size_t`
and throws `std::length_error` before any state is built. -/
def mkUnionFind (n : Int) : Except CallError UnionFind :=
  if n < 0 then .error .invalidSize else .ok (UnionFind.init n.toNat)

/-- Entry wrapper of `find_components_cpp` on an `int` node count. -/
def find_components_cpp (edges : List Edge) (n_nodes : Int) (compress : Bool) :
    Except CallError (List Nat × List Nat × Nat) :=
  if n_nodes < 0 then .error .invalidSize
  else .ok (find_components edges n_nodes.toNat compress)

/-- Entry wrapper of `are_connected_cpp` on an `int` node count. -/
def are_connected_cpp (edges queries : List Edge) (n_nodes : Int) :
    Except CallError (List Bool) :=
  if n_nodes < 0 then .error .invalidSize
  else .ok (are_connected edges queries n_nodes.toNat)

/-- Entry wrapper of `shortest_paths_cpp` on an `int` node count. -/
def shortest_paths_cpp (edges queries : List Edge) (n_nodes : Int) (md : Int) :
    Except CallError (List Int) :=
  if n_nodes < 0 then .error .invalidSize
  else .ok (shortest_paths edges queries n_nodes.toNat md)

/-- Entry wrapper of `get_edge_components_cpp` on an `int` node count. -/
def get_edge_components_cpp (edges : List Edge) (n_nodes : Int) (compress : Bool) :
    Except CallError (List Int × List Int × Nat) :=
  if n_nodes < 0 then .error .invalidSize
  else .ok (get_edge_components edges n_nodes.toNat compress)

theorem degreesOf_length (n : Nat) (edges : List Edge) :
    (degreesOf n edges).length = n := by
  unfold degreesOf
  suffices h : ∀ (es : List Edge) (deg : List Nat),
      (es.foldl (fun deg e =>
        if validEdge n e ∧ esrc e ≠ edst e then
          (deg.set (esrc e) (deg.getD (esrc e) 0 + 1)).set (edst e)
            ((deg.set (esrc e) (deg.getD (esrc e) 0 + 1)).getD (edst e) 0 + 1)
        else deg) deg).length = deg.length by
    rw [h]
    exact List.length_replicate _ _
  intro es
  induction es with
  | nil => intro deg; rfl
  | cons e rest ih =>
    intro deg
    rw [List.foldl_cons]
    split
    · rw [ih]
      simp
    · rw [ih]

/-- Claim C9: a negative node count makes the disjoint-set constructor, and
with it every entry point taking a node count, fail with the
`InvalidSize`/`InvalidArgument`-class error before producing any output. -/
theorem claim_C9 (n_nodes : Int) (hn : n_nodes < 0) :
    mkUnionFind n_nodes = .error .invalidSize ∧
    (∀ edges compress,
      find_components_cpp edges n_nodes compress = .error .invalidSize) ∧
    (∀ edges queries,
      are_connected_cpp edges queries n_nodes = .error .invalidSize) ∧
    (∀ edges queries md,
      shortest_paths_cpp edges queries n_nodes md = .error .invalidSize) ∧
    (∀ edges, graph_stats_cpp edges n_nodes = .error .invalidSize) ∧
    (∀ edges compress,
      get_edge_components_cpp edges n_nodes compress = .error .invalidSize) := by
  refine ⟨?_, ?_, ?_, ?_, ?_, ?_⟩
  · unfold mkUnionFind
    rw [if_pos hn]
  · intro edges compress
    unfold find_components_cpp
    rw [if_pos hn]
  · intro edges queries
    unfold are_connected_cpp
    rw [if_pos hn]
  · intro edges queries md
    unfold shortest_paths_cpp
    rw [if_pos hn]
  · intro edges
    unfold graph_stats_cpp
    rw [if_pos hn]
  · intro edges compress
    unfold get_edge_components_cpp
    rw [if_pos hn]

/-- Witness for C9 at `n_nodes = -1`. -/
theorem claim_C9_witness :
    mkUnionFind (-1) = .error .invalidSize ∧
    find_components_cpp [] (-1) true = .error .invalidSize ∧
    graph_stats_cpp [] (-1) = .error .invalidSize :=
  ⟨(claim_C9 (-1) (by decide)).1,
   (claim_C9 (-1) (by decide)).2.1 [] true,
   (claim_C9 (-1) (by decide)).2.2.2.2.1 []⟩

/-- Claim C10: `graph_stats_cpp` succeeds exactly on node counts `≥ 1`:
a negative count fails in the `degree` vector constructor, a zero count
reads `std::min_element` of an empty range (undefined behaviour, modelled
as the `undefinedBehavior` error) and would divide by zero in the mean;
for `n_nodes ≥ 1` the computation is total. -/
theorem claim_C10 (edges : List Edge) (n_nodes : Int) :
    (∃ st, graph_stats_cpp edges n_nodes = .ok st) ↔ 1 ≤ n_nodes := by
  constructor
  · rintro ⟨st, hst⟩
    unfold graph_stats_cpp at hst
    by_cases hn : n_nodes < 0
    · rw [if_pos hn] at hst
      cases hst
    · rw [if_neg hn] at hst
      by_cases h1 : 1 ≤ n_nodes
      · exact h1
      · have hz : n_nodes = 0 := by omega
        subst hz
        have : degreesOf (Int.toNat 0) edges = [] := by
          have := degreesOf_length (Int.toNat 0) edges
          simpa using List.length_eq_zero.1 (by simpa using this)
        rw [this] at hst
        cases hst
  · intro h1
    unfold graph_stats_cpp
    rw [if_neg (by omega)]
    have hlen : (degreesOf n_nodes.toNat edges).length = n_nodes.toNat :=
      degreesOf_length _ _
    match hdeg : degreesOf n_nodes.toNat edges with
    | [] =>
      rw [hdeg] at hlen
      simp at hlen
      omega
    | d :: ds =>
      exact ⟨_, rfl⟩

instance instDecEqExcept {ε α : Type} [DecidableEq ε] [DecidableEq α] :
    DecidableEq (Except ε α) := fun a b =>
  match a, b with
  | .error x, .error y =>
    if h : x = y then isTrue (by rw [h])
    else isFalse (fun hc => h (by injection hc))
  | .error _, .ok _ => isFalse (fun hc => Except.noConfusion hc)
  | .ok _, .error _ => isFalse (fun hc => Except.noConfusion hc)
  | .ok x, .ok y =>
    if h : x = y then isTrue (by rw [h])
    else isFalse (fun hc => h (by injection hc))

/-- Unfolding equation for a successful `graph_stats_cpp` call. -/
theorem graph_stats_ok (edges : List Edge) (n_nodes : Int) (d : Nat)
    (ds : List Nat) (hn : ¬ n_nodes < 0)
    (hdeg : degreesOf n_nodes.toNat edges = d :: ds) :
    graph_stats_cpp edges n_nodes =
      .ok { n_edges := edges.length
            n_nodes := n_nodes
            density := if ((n_nodes : Rat) * ((n_nodes : Rat) - 1) / 2) > 0 then
                (edges.length : Rat) / ((n_nodes : Rat) * ((n_nodes : Rat) - 1) / 2)
              else 0
            min_degree := ds.foldl min d
            max_degree := ds.foldl max d
            mean_degree := (((d :: ds).sum : Rat)) / (n_nodes : Rat) } := by
  unfold graph_stats_cpp
  rw [if_neg hn, hdeg]

/-- Claim C8: density is the raw input edge count (self-loops and invalid
edges included) divided by `n*(n-1)/2`, and `0` when `n_nodes < 2`; on
edges `[(1,2),(1,3)]` with `n = 3` the degrees are `[2,1,1]` with min 1,
max 2, mean `4/3`, and density `2/3`.  The second concrete instance has a
self-loop: it is excluded from the degrees but still counted in the
density numerator (raw count 2, density `2/(2*1/2) = 2`). -/
theorem claim_C8 (edges : List Edge) (n_nodes : Int) (hn : 1 ≤ n_nodes) :
    (∃ st : GraphStats, graph_stats_cpp edges n_nodes = .ok st ∧
      st.n_edges = edges.length ∧
      st.density = (if 2 ≤ n_nodes then
          (edges.length : Rat) / ((n_nodes : Rat) * ((n_nodes : Rat) - 1) / 2)
        else 0)) ∧
    graph_stats_cpp [((1:Int),(2:Int)), ((1:Int),(3:Int))] 3 =
      .ok ⟨2, 3, 2/3, 1, 2, 4/3⟩ ∧
    graph_stats_cpp [((1:Int),(2:Int)), ((1:Int),(1:Int))] 2 =
      .ok ⟨2, 2, 2, 1, 1, 1⟩ := by
  refine ⟨?_, ?_, ?_⟩
  · unfold graph_stats_cpp
    rw [if_neg (by omega)]
    have hlen : (degreesOf n_nodes.toNat edges).length = n_nodes.toNat :=
      degreesOf_length _ _
    match hdeg : degreesOf n_nodes.toNat edges with
    | [] =>
      rw [hdeg] at hlen
      simp at hlen
      omega
    | d :: ds =>
      refine ⟨_, rfl, rfl, ?_⟩
      show (if ((n_nodes : Rat) * ((n_nodes : Rat) - 1) / 2) > 0 then
          (edges.length : Rat) / ((n_nodes : Rat) * ((n_nodes : Rat) - 1) / 2)
        else 0) = _
      by_cases h2 : 2 ≤ n_nodes
      · rw [if_pos h2]
        have hc : (2 : Rat) ≤ (n_nodes : Rat) := by exact_mod_cast h2
        have hpos : ((n_nodes : Rat) * ((n_nodes : Rat) - 1) / 2) > 0 := by
          nlinarith
        rw [if_pos hpos]
      · rw [if_neg h2]
        have h1 : n_nodes = 1 := by omega
        subst h1
        norm_num
  · rw [graph_stats_ok [((1:Int),(2:Int)), ((1:Int),(3:Int))] 3 2 [1, 1]
      (by decide) (by decide)]
    simp only [Except.ok.injEq, GraphStats.mk.injEq, List.foldl_cons,
      List.foldl_nil, List.sum_cons, List.sum_nil]
    norm_num
  · rw [graph_stats_ok [((1:Int),(2:Int)), ((1:Int),(1:Int))] 2 1 [1]
      (by decide) (by decide)]
    simp only [Except.ok.injEq, GraphStats.mk.injEq, List.foldl_cons,
      List.foldl_nil, List.sum_cons, List.sum_nil]
    norm_num

/-- Witness for C8 at the specification example. -/
theorem claim_C8_witness :
    graph_stats_cpp [((1:Int),(2:Int)), ((1:Int),(3:Int))] 3 =
      .ok ⟨2, 3, 2/3, 1, 2, 4/3⟩ :=
  (claim_C8 [] 1 (by decide)).2.1

/-! ### Multi-pattern fixed-string matching (`multi_grepl*_cpp`) -/

/-- A C++ `std::string` as its list of `char` values (unsigned bytes). -/
abbrev Bytes := List Nat

/-- `tolower` in the C locale: the letters `A`–`Z` (bytes 65–90) map to
`a`–`z` by adding 32 and every other byte is unchanged.  This is also
literally the "fast case conversion" of `multi_grepl_any_fast_cpp`
(`if (c >= 'A' && c <= 'Z') c += 32`, lines 481–485). -/
def lowerByte (c : Nat) : Nat := if 65 ≤ c ∧ c ≤ 90 then c + 32 else c

/-- `std::transform(str.begin(), str.end(), str.begin(), tolower)`. -/
def lowerStr (s : Bytes) : Bytes := s.map lowerByte

/-- `str.find(pat) != std::string::npos`: some suffix of `str` starts
with `pat`. -/
def containsSub (s pat : Bytes) : Bool :=
  (List.range (s.length + 1)).any fun i => pat.isPrefixOf (s.drop i)

/-- `multi_grepl_any_cpp` (source lines 409–444): lower-case the patterns
once when `ignore_case` is set, then for each string scan the patterns in
input order with an early exit on the first match
(`for (p = 0; p < n_patterns && !found_match; p++)`). -/
def multi_grepl_any (strings patterns : List Bytes) (ignore_case : Bool) :
    List Bool :=
  strings.map fun s0 =>
    (patterns.map fun p => if ignore_case then lowerStr p else p).foldl
      (fun found p =>
        found || containsSub (if ignore_case then lowerStr s0 else s0) p)
      false

/-- `multi_grepl_cpp` (source lines 333–394), the matrix as its list of
rows.  With `match_any` each row is the single early-exit any-result
(the `n_strings × 1` matrix of lines 372–375); otherwise row `i` holds
one boolean per pattern (lines 380–391). -/
def multi_grepl (strings patterns : List Bytes)
    (match_any ignore_case : Bool) : List (List Bool) :=
  if match_any then
    strings.map fun s0 =>
      [(patterns.map fun p => if ignore_case then lowerStr p else p).foldl
        (fun found p =>
          found || containsSub (if ignore_case then lowerStr s0 else s0) p)
        false]
  else
    strings.map fun s0 =>
      (patterns.map fun p => if ignore_case then lowerStr p else p).map
        fun p => containsSub (if ignore_case then lowerStr s0 else s0) p

/-- One insertion step of the length sort. -/
def insertLen (x : Bytes × Nat) : List (Bytes × Nat) → List (Bytes × Nat)
  | [] => [x]
  | y :: ys => if x.2 ≤ y.2 then x :: y :: ys else y :: insertLen x ys

/-- `std::sort` with comparator `a.second < b.second` (source lines
491–494), modelled as an insertion sort.  `std::sort` is unstable, so any
length-sorted permutation of the pairs is a faithful model; the scan
result is shown below to depend only on the membership of the list, so
the choice of sorted permutation does not matter. -/
def sortByLen : List (Bytes × Nat) → List (Bytes × Nat)
  | [] => []
  | x :: xs => insertLen x (sortByLen xs)

/-- The per-string scan of `multi_grepl_any_fast_cpp` (source lines
513–531): walk the length-sorted `(pattern, length)` list, `break` as
soon as a pattern is longer than the string, and stop with `true` on the
first match. -/
def fastScan (str_len : Nat) (str : Bytes) : List (Bytes × Nat) → Bool
  | [] => false
  | pr :: rest =>
    if str_len < pr.2 then false
    else if containsSub str pr.1 then true
    else fastScan str_len str rest

/-- `multi_grepl_any_fast_cpp` (source lines 461–537): early exit on an
empty pattern set, patterns lowered before their stored length is taken
(line 487), the string lowered once per row, and the string length taken
with `strlen` on the original bytes (line 500). -/
def multi_grepl_any_fast (strings patterns : List Bytes)
    (ignore_case : Bool) : List Bool :=
  if patterns.length = 0 then List.replicate strings.length false
  else
    strings.map fun s0 =>
      fastScan s0.length (if ignore_case then lowerStr s0 else s0)
        (sortByLen (patterns.map fun p =>
          ((if ignore_case then lowerStr p else p),
           (if ignore_case then lowerStr p else p).length)))

theorem insertLen_cons (x y : Bytes × Nat) (ys : List (Bytes × Nat)) :
    insertLen x (y :: ys) =
      if x.2 ≤ y.2 then x :: y :: ys else y :: insertLen x ys := rfl

theorem sortByLen_cons (x : Bytes × Nat) (xs : List (Bytes × Nat)) :
    sortByLen (x :: xs) = insertLen x (sortByLen xs) := rfl

theorem fastScan_cons (str_len : Nat) (str : Bytes) (pr : Bytes × Nat)
    (rest : List (Bytes × Nat)) :
    fastScan str_len str (pr :: rest) =
      if str_len < pr.2 then false
      else if containsSub str pr.1 then true
      else fastScan str_len str rest := rfl

theorem lowerStr_length (s : Bytes) : (lowerStr s).length = s.length := by
  simp [lowerStr]

/-- A pattern strictly longer than the string never matches. -/
theorem containsSub_eq_false_of_lt {s pat : Bytes}
    (h : s.length < pat.length) : containsSub s pat = false := by
  rw [containsSub, List.any_eq_false]
  intro i _
  simp only [Bool.not_eq_true]
  cases hb : pat.isPrefixOf (s.drop i) with
  | false => rfl
  | true =>
    have hpre : pat <+: s.drop i := List.isPrefixOf_iff_prefix.1 hb
    have hle := hpre.length_le
    rw [List.length_drop] at hle
    omega

/-- `any` over a mapped list (general version, any function). -/
theorem any_map_general {α β : Type} (f : α → β) (l : List α) (p : β → Bool) :
    (l.map f).any p = l.any fun a => p (f a) := by
  induction l with
  | nil => rfl
  | cons x xs ih => simp [List.any_cons, ih]

/-- The early-exit or-scan is the list `any`. -/
theorem foldl_or_any (g : Bytes → Bool) (l : List Bytes) (b : Bool) :
    l.foldl (fun found p => found || g p) b = (b || l.any g) := by
  induction l generalizing b with
  | nil => simp
  | cons p l ih => simp [List.foldl_cons, ih, Bool.or_assoc]

theorem mem_insertLen {z x : Bytes × Nat} {l : List (Bytes × Nat)} :
    z ∈ insertLen x l ↔ z = x ∨ z ∈ l := by
  induction l with
  | nil => simp [insertLen]
  | cons y ys ih =>
    rw [insertLen_cons]
    by_cases h : x.2 ≤ y.2
    · rw [if_pos h]
      simp
    · rw [if_neg h]
      simp only [List.mem_cons, ih]
      tauto

theorem mem_sortByLen {z : Bytes × Nat} {l : List (Bytes × Nat)} :
    z ∈ sortByLen l ↔ z ∈ l := by
  induction l with
  | nil => simp [sortByLen]
  | cons x xs ih =>
    rw [sortByLen_cons]
    simp only [mem_insertLen, List.mem_cons, ih]

theorem pairwise_insertLen {x : Bytes × Nat} {l : List (Bytes × Nat)}
    (h : List.Pairwise (fun a b => a.2 ≤ b.2) l) :
    List.Pairwise (fun a b => a.2 ≤ b.2) (insertLen x l) := by
  induction l with
  | nil => simp [insertLen]
  | cons y ys ih =>
    rcases List.pairwise_cons.1 h with ⟨hy, hys⟩
    rw [insertLen_cons]
    by_cases hle : x.2 ≤ y.2
    · rw [if_pos hle]
      refine List.pairwise_cons.2 ⟨?_, h⟩
      intro z hz
      rcases List.mem_cons.1 hz with hz | hz
      · rw [hz]
        exact hle
      · exact le_trans hle (hy z hz)
    · rw [if_neg hle]
      refine List.pairwise_cons.2 ⟨?_, ih hys⟩
      intro z hz
      rcases mem_insertLen.1 hz with hz | hz
      · rw [hz]
        omega
      · exact hy z hz

theorem sortByLen_pairwise (l : List (Bytes × Nat)) :
    List.Pairwise (fun a b => a.2 ≤ b.2) (sortByLen l) := by
  induction l with
  | nil => simp [sortByLen]
  | cons x xs ih =>
    rw [sortByLen_cons]
    exact pairwise_insertLen ih

/-- On a length-sorted list of `(pattern, pattern.length)` pairs the
break loses nothing: the scan equals the plain `any`. -/
theorem fastScan_eq_any (str : Bytes) (l : List (Bytes × Nat))
    (hsort : List.Pairwise (fun a b => a.2 ≤ b.2) l)
    (hlen : ∀ pr ∈ l, pr.2 = pr.1.length) :
    fastScan str.length str l = l.any fun pr => containsSub str pr.1 := by
  induction l with
  | nil => rfl
  | cons pr rest ih =>
    rcases List.pairwise_cons.1 hsort with ⟨hhd, hrest⟩
    rw [fastScan_cons]
    by_cases hlt : str.length < pr.2
    · rw [if_pos hlt]
      have h1 : containsSub str pr.1 = false :=
        containsSub_eq_false_of_lt
          (by rw [← hlen pr (List.mem_cons_self pr rest)]; exact hlt)
      have h2 : rest.any (fun q => containsSub str q.1) = false := by
        rw [List.any_eq_false]
        intro z hz
        have hz1 : containsSub str z.1 = false :=
          containsSub_eq_false_of_lt (by
            rw [← hlen z (List.mem_cons_of_mem pr hz)]
            exact lt_of_lt_of_le hlt (hhd z hz))
        simp [hz1]
      simp [h1, h2]
    · rw [if_neg hlt]
      cases hc : containsSub str pr.1 with
      | true => simp [hc]
      | false =>
        simp only [hc, Bool.false_eq_true, reduceIte, List.any_cons,
          Bool.false_or]
        exact ih hrest fun z hz => hlen z (List.mem_cons_of_mem pr hz)

/-- The whole sorted scan computes `any contains` over the raw patterns. -/
theorem fastScan_sort_eq_any (str : Bytes) (qs : List Bytes) :
    fastScan str.length str (sortByLen (qs.map fun q => (q, q.length))) =
      qs.any fun q => containsSub str q := by
  have hlen : ∀ pr ∈ sortByLen (qs.map fun q => (q, q.length)),
      pr.2 = pr.1.length := by
    intro pr hpr
    rcases List.mem_map.1 (mem_sortByLen.1 hpr) with ⟨q, _, rfl⟩
    rfl
  rw [fastScan_eq_any str _ (sortByLen_pairwise _) hlen]
  refine Bool.eq_iff_iff.2 ?_
  simp only [List.any_eq_true]
  constructor
  · rintro ⟨z, hz, hfz⟩
    rcases List.mem_map.1 (mem_sortByLen.1 hz) with ⟨q, hq, rfl⟩
    exact ⟨q, hq, hfz⟩
  · rintro ⟨q, hq, hfq⟩
    exact ⟨(q, q.length), mem_sortByLen.2 (List.mem_map.2 ⟨q, hq, rfl⟩), hfq⟩

/-- Claim C2: `multi_grepl_any_fast_cpp` is a behaviour-preserving
optimisation of `multi_grepl_any_cpp`: the two return the same boolean
vector for every combination of strings, patterns and `ignore_case`;
with an empty pattern set the result is all-false; if every pattern is
longer than a given string, that string's entry is `false`; and the plain
scan agrees with both modes of the matrix function `multi_grepl_cpp`
(any-mode rows are the singleton any-results, and or-ing each full
matrix row reproduces the any-vector). -/
theorem claim_C2 (strings patterns : List Bytes) (ignore_case : Bool) :
    multi_grepl_any_fast strings patterns ignore_case =
      multi_grepl_any strings patterns ignore_case ∧
    (patterns = [] →
      multi_grepl_any strings patterns ignore_case =
        List.replicate strings.length false) ∧
    (∀ i, i < strings.length →
      (∀ p ∈ patterns, (strings.getD i []).length < p.length) →
      (multi_grepl_any strings patterns ignore_case).getD i false = false) ∧
    multi_grepl strings patterns true ignore_case =
      (multi_grepl_any strings patterns ignore_case).map (fun b => [b]) ∧
    (multi_grepl strings patterns false ignore_case).map
        (fun row => row.any id) =
      multi_grepl_any strings patterns ignore_case := by
  have hany : ∀ s0 : Bytes,
      (patterns.map fun p => if ignore_case then lowerStr p else p).foldl
        (fun found p =>
          found || containsSub (if ignore_case then lowerStr s0 else s0) p)
        false =
      patterns.any fun p =>
        containsSub (if ignore_case then lowerStr s0 else s0)
          (if ignore_case then lowerStr p else p) := by
    intro s0
    rw [foldl_or_any, Bool.false_or, any_map_general]
  refine ⟨?_, ?_, ?_, ?_, ?_⟩
  · by_cases hp : patterns.length = 0
    · have hpe : patterns = [] := List.length_eq_zero.1 hp
      subst hpe
      unfold multi_grepl_any_fast multi_grepl_any
      simp only [List.length_nil, reduceIte]
      exact (List.map_const' strings false).symm
    · unfold multi_grepl_any_fast multi_grepl_any
      rw [if_neg hp]
      refine List.map_congr_left ?_
      intro s0 _
      have hstrlen : (if ignore_case then lowerStr s0 else s0).length =
          s0.length := by
        cases ignore_case <;> simp [lowerStr_length]
      have hmm : (patterns.map fun p =>
          ((if ignore_case then lowerStr p else p),
           (if ignore_case then lowerStr p else p).length)) =
          ((patterns.map fun p => if ignore_case then lowerStr p else p).map
            fun q => (q, q.length)) := by
        rw [List.map_map]
        rfl
      rw [← hstrlen, hmm, fastScan_sort_eq_any, any_map_general, hany s0]
  · intro hpe
    subst hpe
    unfold multi_grepl_any
    exact List.map_const' strings false
  · intro i hi hlong
    unfold multi_grepl_any
    rw [getD_map_general hi false, hany (strings.get ⟨i, hi⟩)]
    rw [List.any_eq_false]
    intro p hp
    have hlp : (if ignore_case then lowerStr p else p).length = p.length := by
      cases ignore_case <;> simp [lowerStr_length]
    have hls : (if ignore_case then lowerStr (strings.get ⟨i, hi⟩)
        else strings.get ⟨i, hi⟩).length = (strings.get ⟨i, hi⟩).length := by
      cases ignore_case <;> simp [lowerStr_length]
    have hgd : strings.getD i [] = strings.get ⟨i, hi⟩ :=
      List.getD_eq_getElem strings [] hi
    have hfalse : containsSub
        (if ignore_case then lowerStr (strings.get ⟨i, hi⟩)
         else strings.get ⟨i, hi⟩)
        (if ignore_case then lowerStr p else p) = false := by
      refine containsSub_eq_false_of_lt ?_
      rw [hlp, hls]
      have := hlong p hp
      rw [hgd] at this
      exact this
    simpa using hfalse
  · unfold multi_grepl multi_grepl_any
    rw [if_pos rfl, List.map_map]
    rfl
  · unfold multi_grepl multi_grepl_any
    rw [if_neg (by simp), List.map_map]
    refine List.map_congr_left ?_
    intro s0 _
    show (((patterns.map fun p => if ignore_case then lowerStr p else p).map
        fun p => containsSub (if ignore_case then lowerStr s0 else s0) p).any
          id) = _
    rw [any_map_general, any_map_general, hany s0]
    rfl

/-! ### Multi-column grouping (`multi_column_group_cpp`, lines 566-726)

Modeling conventions for this function: an R column is a `Column` (string,
double, integer or `NULL`; other SEXP types contribute nothing and are not
modelled), a cell is `none` for `NA`, map keys are `Bytes`, and the two
`std::unordered_map`s and the `std::unordered_set` are association lists
in insertion order (their iteration order is unspecified in C++; the
grouping output is shown below not to depend on it, and the claims do not
concern the order of `value_map` entries).  `std::to_string` on a double
is modelled on the exact rational value with round-half-up at six decimal
places. -/

/-- An input column of `multi_column_group_cpp`: `STRSXP`, `REALSXP`,
`INTSXP` or `R_NilValue`. -/
inductive Column where
  | strCol (cells : List (Option Bytes))
  | realCol (cells : List (Option Rat))
  | intCol (cells : List (Option Int))
  | nullCol

/-- `n_rows` scan of lines 584-589: the length of the first non-null
column, where columns of length zero leave `n_rows == 0` and the scan
continues. -/
def firstNRows : List Column → Nat
  | [] => 0
  | c :: cs =>
    match c with
    | .nullCol => firstNRows cs
    | .strCol cells => if cells.length = 0 then firstNRows cs else cells.length
    | .realCol cells => if cells.length = 0 then firstNRows cs else cells.length
    | .intCol cells => if cells.length = 0 then firstNRows cs else cells.length

/-- Decimal digits of `n`, most significant first, with fuel. -/
def natDecimalAux : Nat → Nat → Bytes
  | 0, _ => []
  | fuel+1, n => if n = 0 then [] else natDecimalAux fuel (n / 10) ++ [48 + n % 10]

/-- Decimal rendering of a natural number (`"0"` for zero). -/
def natDecimal (n : Nat) : Bytes := if n = 0 then [48] else natDecimalAux (n + 1) n

/-- `std::to_string` on an `int`: optional minus sign and decimal digits. -/
def intKey (i : Int) : Bytes :=
  if i < 0 then 45 :: natDecimal (-i).toNat else natDecimal i.toNat

/-- Left-pad a decimal rendering with zeros to six digits. -/
def pad6 (n : Nat) : Bytes :=
  List.replicate (6 - (natDecimal n).length) 48 ++ natDecimal n

/-- `std::to_string` on a double (`"%f"`: six fixed decimal places),
modelled on the exact rational value.  `(2p + q) / (2q)` is
`⌊p/q + 1/2⌋` for a non-negative numerator `p`. -/
def realKey (x : Rat) : Bytes :=
  (if x < 0 then [45] else []) ++
    natDecimal ((2 * ((if x < 0 then -x else x).num.toNat * 1000000) +
        (if x < 0 then -x else x).den) / (2 * (if x < 0 then -x else x).den) /
      1000000) ++
    [46] ++
    pad6 ((2 * ((if x < 0 then -x else x).num.toNat * 1000000) +
        (if x < 0 then -x else x).den) / (2 * (if x < 0 then -x else x).den) %
      1000000)

/-- The `incomp_set` of lines 600-608: incomparable strings, lower-cased
when not case-sensitive. -/
def incompSet (incomparables : List Bytes) (case_sensitive : Bool) : List Bytes :=
  incomparables.map fun v => if case_sensitive then v else lowerStr v

/-- The per-column contribution scan of lines 614-659, as the `(row, key)`
pairs appended to `value_to_rows` in scan order.  String cells skip `NA`,
normalize case, and skip incomparable and empty keys (lines 624-637);
numeric cells skip only `NA` and render with `std::to_string`
(lines 638-658); null columns contribute nothing (line 617). -/
def columnContribs (case_sensitive : Bool) (incomp : List Bytes)
    (n_rows : Nat) : Column → List (Nat × Bytes)
  | .strCol cells =>
    (List.range (min n_rows cells.length)).filterMap fun row =>
      match cells.getD row none with
      | none => none
      | some s =>
        if (if case_sensitive then s else lowerStr s) ∈ incomp then none
        else if (if case_sensitive then s else lowerStr s) = [] then none
        else some (row, if case_sensitive then s else lowerStr s)
  | .realCol cells =>
    (List.range (min n_rows cells.length)).filterMap fun row =>
      match cells.getD row none with
      | none => none
      | some x => some (row, realKey x)
  | .intCol cells =>
    (List.range (min n_rows cells.length)).filterMap fun row =>
      match cells.getD row none with
      | none => none
      | some v => some (row, intKey v)
  | .nullCol => []

/-- All contributions of the column loop of lines 614-659, columns in
order. -/
def allContribs (data : List Column) (incomp : List Bytes)
    (case_sensitive : Bool) (n_rows : Nat) : List (Nat × Bytes) :=
  data.foldr (fun c acc => columnContribs case_sensitive incomp n_rows c ++ acc) []

/-- `value_to_rows[val].push_back(row)` (line 636/646/656) on the
association-list model: append to the existing entry or create a new one
at the end. -/
def vtrAdd : List (Bytes × List Nat) → Bytes → Nat → List (Bytes × List Nat)
  | [], key, row => [(key, [row])]
  | (k, rs) :: rest, key, row =>
    if k = key then (k, rs ++ [row]) :: rest
    else (k, rs) :: vtrAdd rest key row

/-- Fold a contribution list into the map. -/
def vtrFold (m : List (Bytes × List Nat)) (contribs : List (Nat × Bytes)) :
    List (Bytes × List Nat) :=
  contribs.foldl (fun m rc => vtrAdd m rc.2 rc.1) m

/-- The finished `value_to_rows` map of lines 610-659. -/
def buildVTR (data : List Column) (incomp : List Bytes)
    (case_sensitive : Bool) (n_rows : Nat) : List (Bytes × List Nat) :=
  vtrFold [] (allContribs data incomp case_sensitive n_rows)

/-- Specification-side view of one map entry: the rows contributing `key`,
in scan order (with multiplicity). -/
def rowsOfKey (contribs : List (Nat × Bytes)) (key : Bytes) : List Nat :=
  (contribs.filter fun rc => rc.2 = key).map Prod.fst

/-- Union a list of node pairs left to right. -/
def unionPairs : UnionFind → List (Nat × Nat) → UnionFind
  | s, [] => s
  | s, pr :: ps => unionPairs (s.union_sets pr.1 pr.2).2 ps

/-- The pairs unioned for one map entry (lines 667-672): nothing for
fewer than two rows, else `(rows[0], rows[i])` for `i = 1, ...`. -/
def entryPairs (rows : List Nat) : List (Nat × Nat) :=
  if rows.length < 2 then []
  else
    match rows with
    | [] => []
    | r0 :: rest => rest.map fun r => (r0, r)

/-- All pairs of the union loop of lines 665-673, entries in map order. -/
def allPairs (vtr : List (Bytes × List Nat)) : List (Nat × Nat) :=
  vtr.foldr (fun pr acc => entryPairs pr.2 ++ acc) []

/-- The union loop of lines 665-673. -/
def unionPass (uf : UnionFind) (vtr : List (Bytes × List Nat)) : UnionFind :=
  unionPairs uf (allPairs vtr)

/-- `root_counts[root]++` (line 685) on the association-list model. -/
def bump : List (Nat × Nat) → Nat → List (Nat × Nat)
  | [], k => [(k, 1)]
  | (a, c) :: rest, k =>
    if a = k then (a, c + 1) :: rest else (a, c) :: bump rest k

/-- The first counting pass of lines 682-686, threading the union-find
(each `find` compresses paths). -/
def countLoop : UnionFind → List Nat → List (Nat × Nat) → List (Nat × Nat) × UnionFind
  | uf, [], m => (m, uf)
  | uf, i :: is, m => countLoop (uf.find i).2 is (bump m (uf.find i).1)

/-- Mutable state of the assignment pass of lines 676-701. -/
structure GroupState where
  rtg : List (Nat × Nat)
  group_ids : List Nat
  sizes : List Nat
  next : Nat
deriving DecidableEq

/-- The second pass of lines 689-701: look the root's count up, assign `0`
below the minimum size, otherwise hand the root its existing group id or
the next fresh one (recording the group size once per root). -/
def assignLoop (counts : List (Nat × Nat)) (mgs : Int) :
    UnionFind → List Nat → GroupState → GroupState × UnionFind
  | uf, [], st => (st, uf)
  | uf, i :: is, st =>
    if mgs ≤ (((List.lookup (uf.find i).1 counts).getD 0 : Nat) : Int) then
      match List.lookup (uf.find i).1 st.rtg with
      | some g => assignLoop counts mgs (uf.find i).2 is
          { st with group_ids := st.group_ids.set i g }
      | none => assignLoop counts mgs (uf.find i).2 is
          { rtg := ((uf.find i).1, st.next) :: st.rtg,
            group_ids := st.group_ids.set i st.next,
            sizes := st.sizes ++ [(List.lookup (uf.find i).1 counts).getD 0],
            next := st.next + 1 }
    else assignLoop counts mgs (uf.find i).2 is
      { st with group_ids := st.group_ids.set i 0 }

/-- The `value_map` output of lines 704-718: entries whose row list has at
least two elements, rows shifted to 1-based. -/
def valueMapOf (vtr : List (Bytes × List Nat)) : List (Bytes × List Nat) :=
  vtr.filterMap fun pr =>
    if 2 ≤ pr.2.length then some (pr.1, pr.2.map (· + 1)) else none

/-- Return value of `multi_column_group_cpp` (lines 720-725). -/
structure MCGResult where
  group_ids : List Nat
  n_groups : Nat
  group_sizes : List Nat
  value_map : List (Bytes × List Nat)
deriving DecidableEq

/-- Both passes of lines 676-701 run after the union loop, starting from
an all-zero id vector and `next_group_id = 1`. -/
def mcgCore (data : List Column) (incomparables : List Bytes)
    (case_sensitive : Bool) (min_group_size : Int) (n_rows : Nat) :
    GroupState × UnionFind :=
  assignLoop
    (countLoop (unionPass (UnionFind.init n_rows)
      (buildVTR data (incompSet incomparables case_sensitive)
        case_sensitive n_rows)) (List.range n_rows) []).1
    min_group_size
    (countLoop (unionPass (UnionFind.init n_rows)
      (buildVTR data (incompSet incomparables case_sensitive)
        case_sensitive n_rows)) (List.range n_rows) []).2
    (List.range n_rows)
    ⟨[], List.replicate n_rows 0, [], 1⟩

/-- `multi_column_group_cpp` (lines 566-726): empty results for no
columns (lines 574-581) or no rows (lines 591-598), otherwise the
grouping pipeline; `n_groups = next_group_id - 1` (line 722). -/
def multi_column_group (data : List Column) (incomparables : List Bytes)
    (case_sensitive : Bool) (min_group_size : Int) : MCGResult :=
  if data.length = 0 then ⟨[], 0, [], []⟩
  else if firstNRows data = 0 then ⟨[], 0, [], []⟩
  else
    ⟨(mcgCore data incomparables case_sensitive min_group_size
        (firstNRows data)).1.group_ids,
     (mcgCore data incomparables case_sensitive min_group_size
        (firstNRows data)).1.next - 1,
     (mcgCore data incomparables case_sensitive min_group_size
        (firstNRows data)).1.sizes,
     valueMapOf (buildVTR data (incompSet incomparables case_sensitive)
        case_sensitive (firstNRows data))⟩

/-- A 0-based node pair as a 1-based `Edge`. -/
def pairEdge (pr : Nat × Nat) : Edge := ((pr.1 : Int) + 1, (pr.2 : Int) + 1)

/-- One undirected step along a unioned pair. -/
def PairStep (ps : List (Nat × Nat)) (a b : Nat) : Prop :=
  ∃ pr ∈ ps, (a = pr.1 ∧ b = pr.2) ∨ (a = pr.2 ∧ b = pr.1)

/-- Two rows listed in a common `value_to_rows` entry. -/
def ShareStep (vtr : List (Bytes × List Nat)) (a b : Nat) : Prop :=
  ∃ pr ∈ vtr, a ∈ pr.2 ∧ b ∈ pr.2

/-- Two rows contributing the same normalized key. -/
def ShareVal (contribs : List (Nat × Bytes)) (a b : Nat) : Prop :=
  ∃ key, (a, key) ∈ contribs ∧ (b, key) ∈ contribs

/-- Size of the component of root `r` over rows `[0, n)`. -/
def classCount (p : List Nat) (n : Nat) (r : Nat) : Nat :=
  (List.range n).countP fun i => rootOf p i == r

/-- Row `i` is the first scan position of its component. -/
def isFirst (p : List Nat) (i : Nat) : Prop :=
  ∀ j, j < i → rootOf p j ≠ rootOf p i

instance (p : List Nat) (i : Nat) : Decidable (isFirst p i) := by
  unfold isFirst; infer_instance

/-- Row `i`'s component meets the minimum group size. -/
def qualifies (p : List Nat) (n : Nat) (mgs : Int) (i : Nat) : Prop :=
  mgs ≤ (classCount p n (rootOf p i) : Int)

instance (p : List Nat) (n : Nat) (mgs : Int) (i : Nat) :
    Decidable (qualifies p n mgs i) := by
  unfold qualifies; infer_instance

/-- First row (of the first `c` rows) whose root is `r`. -/
def firstRowOf (p : List Nat) (c : Nat) (r : Nat) : Option Nat :=
  (List.range c).find? fun j => rootOf p j == r

/-- Number of rows before `upto` that open a new qualifying component. -/
def seqCount (p : List Nat) (n : Nat) (mgs : Int) (upto : Nat) : Nat :=
  (List.range upto).countP fun j =>
    decide (isFirst p j) && decide (qualifies p n mgs j)

/-- The specified group id of row `i`: `0` for a component below the
minimum size, else one plus the number of qualifying components opened
before `i`'s component was first encountered. -/
def specId (p : List Nat) (n : Nat) (mgs : Int) (i : Nat) : Nat :=
  if qualifies p n mgs i then
    1 + seqCount p n mgs ((firstRowOf p (i + 1) (rootOf p i)).getD i)
  else 0

theorem vtrAdd_cons (k : Bytes) (rs : List Nat) (rest : List (Bytes × List Nat))
    (key : Bytes) (row : Nat) :
    vtrAdd ((k, rs) :: rest) key row =
      if k = key then (k, rs ++ [row]) :: rest
      else (k, rs) :: vtrAdd rest key row := rfl

theorem lookupB_cons (k a : Bytes) (v : List Nat) (l : List (Bytes × List Nat)) :
    ((k, v) :: l).lookup a = if a = k then some v else l.lookup a := by
  cases hbeq : (a == k) with
  | true =>
    have h : a = k := by simpa using hbeq
    simp [List.lookup, hbeq, h]
  | false =>
    have h : ¬ a = k := by simpa using hbeq
    simp [List.lookup, hbeq, h]

theorem memB_of_lookup {l : List (Bytes × List Nat)} {a : Bytes} {c : List Nat}
    (h : l.lookup a = some c) : (a, c) ∈ l := by
  induction l with
  | nil => simp [List.lookup] at h
  | cons p t ih =>
    rw [show p = (p.1, p.2) from rfl, lookupB_cons] at h
    split at h
    · rename_i heq
      cases h
      subst heq
      exact List.mem_cons_self _ _
    · exact List.mem_cons_of_mem _ (ih h)

theorem lookupB_of_mem_nodup {l : List (Bytes × List Nat)} {a : Bytes}
    {c : List Nat} (hmem : (a, c) ∈ l) (hnd : (l.map Prod.fst).Nodup) :
    l.lookup a = some c := by
  induction l with
  | nil => simp at hmem
  | cons p t ih =>
    rw [show p = (p.1, p.2) from rfl, lookupB_cons]
    rcases List.mem_cons.1 hmem with heq | hmem2
    · rw [← heq]
      simp
    · have hp1 : ¬ a = p.1 := by
        intro hcon
        have hmm : a ∈ t.map Prod.fst := List.mem_map_of_mem Prod.fst hmem2
        rw [List.map_cons, List.nodup_cons, ← hcon] at hnd
        exact hnd.1 hmm
      rw [if_neg hp1]
      exact ih hmem2 (by rw [List.map_cons, List.nodup_cons] at hnd; exact hnd.2)

/-- Effect of one `push_back` on all lookups. -/
theorem lookup_vtrAdd (m : List (Bytes × List Nat)) (key : Bytes) (row : Nat)
    (k : Bytes) :
    List.lookup k (vtrAdd m key row) =
      if k = key then some ((List.lookup key m).getD [] ++ [row])
      else List.lookup k m := by
  induction m with
  | nil =>
    by_cases h : k = key
    · subst h
      rw [if_pos rfl]
      show List.lookup k [(k, [row])] = _
      rw [lookupB_cons k k [row] [], if_pos rfl]
      simp [List.lookup]
    · rw [if_neg h]
      show List.lookup k [(key, [row])] = List.lookup k []
      rw [lookupB_cons key k [row] [], if_neg h]
  | cons p rest ih =>
    obtain ⟨k0, rs⟩ := p
    rw [vtrAdd_cons]
    by_cases h0 : k0 = key <;> by_cases hk : k = k0
    · subst h0
      subst hk
      simp [lookupB_cons]
    · subst h0
      simp [lookupB_cons, hk]
    · subst hk
      simp [lookupB_cons, h0, Ne.symm h0, ih]
    · simp [lookupB_cons, h0, Ne.symm h0, hk, ih]

theorem vtrAdd_keys (m : List (Bytes × List Nat)) (key : Bytes) (row : Nat) :
    (vtrAdd m key row).map Prod.fst =
      if key ∈ m.map Prod.fst then m.map Prod.fst
      else m.map Prod.fst ++ [key] := by
  induction m with
  | nil => simp [vtrAdd]
  | cons p rest ih =>
    obtain ⟨k0, rs⟩ := p
    rw [vtrAdd_cons]
    by_cases h0 : k0 = key
    · subst h0
      rw [if_pos rfl]
      simp
    · rw [if_neg h0, List.map_cons, List.map_cons, ih]
      by_cases hmem : key ∈ rest.map Prod.fst
      · rw [if_pos hmem, if_pos (by simp [hmem])]
      · rw [if_neg hmem, if_neg (by
          simp only [List.map_cons, List.mem_cons]
          rintro (h | h)
          · exact h0 h.symm
          · exact hmem h)]
        simp

theorem vtrAdd_keys_nodup {m : List (Bytes × List Nat)} {key : Bytes}
    {row : Nat} (h : (m.map Prod.fst).Nodup) :
    ((vtrAdd m key row).map Prod.fst).Nodup := by
  rw [vtrAdd_keys]
  by_cases hmem : key ∈ m.map Prod.fst
  · rw [if_pos hmem]
    exact h
  · rw [if_neg hmem]
    rw [List.nodup_append]
    exact ⟨h, List.nodup_singleton key, by
      intro a ha hb
      rw [List.mem_singleton] at hb
      subst hb
      exact hmem ha⟩

theorem rowsOfKey_append (c1 c2 : List (Nat × Bytes)) (k : Bytes) :
    rowsOfKey (c1 ++ c2) k = rowsOfKey c1 k ++ rowsOfKey c2 k := by
  simp [rowsOfKey, List.filter_append]

theorem rowsOfKey_single (row : Nat) (key k : Bytes) :
    rowsOfKey [(row, key)] k = if key = k then [row] else [] := by
  by_cases h : key = k
  · simp [rowsOfKey, h]
  · simp [rowsOfKey, h]

theorem mem_rowsOfKey {contribs : List (Nat × Bytes)} {key : Bytes} {a : Nat} :
    a ∈ rowsOfKey contribs key ↔ (a, key) ∈ contribs := by
  constructor
  · intro h
    rw [rowsOfKey] at h
    rcases List.mem_map.1 h with ⟨rc, hrc, h1⟩
    rcases List.mem_filter.1 hrc with ⟨hmem, h2⟩
    have h2e : rc.2 = key := by simpa using h2
    have : rc = (a, key) := by
      cases rc
      simp_all
    rw [← this]
    exact hmem
  · intro h
    rw [rowsOfKey]
    refine List.mem_map.2 ⟨(a, key), List.mem_filter.2 ⟨h, by simp⟩, rfl⟩

/-- The accumulated map after folding contributions: lookups return the
contributing rows in scan order. -/
theorem vtrFold_lookup :
    ∀ (contribs : List (Nat × Bytes)) (m : List (Bytes × List Nat))
      (done : List (Nat × Bytes)),
      (∀ k, List.lookup k m =
        if rowsOfKey done k = [] then none else some (rowsOfKey done k)) →
      ∀ k, List.lookup k (vtrFold m contribs) =
        if rowsOfKey (done ++ contribs) k = [] then none
        else some (rowsOfKey (done ++ contribs) k) := by
  intro contribs
  induction contribs with
  | nil =>
    intro m done h k
    simpa [vtrFold] using h k
  | cons rc rest ih =>
    intro m done h k
    have hstep : ∀ k2, List.lookup k2 (vtrAdd m rc.2 rc.1) =
        if rowsOfKey (done ++ [rc]) k2 = [] then none
        else some (rowsOfKey (done ++ [rc]) k2) := by
      intro k2
      rw [lookup_vtrAdd]
      rw [rowsOfKey_append, show rc = (rc.1, rc.2) from rfl, rowsOfKey_single]
      by_cases hk : k2 = rc.2
      · subst hk
        rw [if_pos rfl, if_pos rfl, h rc.2]
        by_cases hemp : rowsOfKey done rc.2 = []
        · rw [if_pos hemp, hemp]
          simp
        · rw [if_neg hemp]
          simp
      · rw [if_neg hk, h k2]
        have hinner : (if rc.2 = k2 then [rc.1] else ([] : List Nat)) = [] :=
          if_neg (fun hc => hk hc.symm)
        rw [hinner, List.append_nil]
    have := ih (vtrAdd m rc.2 rc.1) (done ++ [rc]) hstep k
    rw [show vtrFold m (rc :: rest) = vtrFold (vtrAdd m rc.2 rc.1) rest from rfl]
    rw [this, List.append_assoc, List.singleton_append]

theorem vtrFold_keys_nodup :
    ∀ (contribs : List (Nat × Bytes)) (m : List (Bytes × List Nat)),
      (m.map Prod.fst).Nodup → ((vtrFold m contribs).map Prod.fst).Nodup := by
  intro contribs
  induction contribs with
  | nil => intro m h; simpa [vtrFold] using h
  | cons rc rest ih =>
    intro m h
    rw [show vtrFold m (rc :: rest) = vtrFold (vtrAdd m rc.2 rc.1) rest from rfl]
    exact ih _ (vtrAdd_keys_nodup h)

theorem buildVTR_lookup (data : List Column) (incomp : List Bytes)
    (cs : Bool) (n : Nat) (k : Bytes) :
    List.lookup k (buildVTR data incomp cs n) =
      if rowsOfKey (allContribs data incomp cs n) k = [] then none
      else some (rowsOfKey (allContribs data incomp cs n) k) := by
  have := vtrFold_lookup (allContribs data incomp cs n) [] []
    (fun k2 => by simp [List.lookup, rowsOfKey]) k
  simpa [buildVTR] using this

theorem buildVTR_keys_nodup (data : List Column) (incomp : List Bytes)
    (cs : Bool) (n : Nat) :
    ((buildVTR data incomp cs n).map Prod.fst).Nodup :=
  vtrFold_keys_nodup _ [] (by simp)

/-- Membership in the finished map: exactly the nonempty row lists of the
contribution scan. -/
theorem buildVTR_mem {data : List Column} {incomp : List Bytes}
    {cs : Bool} {n : Nat} {key : Bytes} {rows : List Nat} :
    (key, rows) ∈ buildVTR data incomp cs n ↔
      rows = rowsOfKey (allContribs data incomp cs n) key ∧ rows ≠ [] := by
  constructor
  · intro h
    have hl := lookupB_of_mem_nodup h (buildVTR_keys_nodup data incomp cs n)
    rw [buildVTR_lookup] at hl
    by_cases hemp : rowsOfKey (allContribs data incomp cs n) key = []
    · rw [if_pos hemp] at hl
      cases hl
    · rw [if_neg hemp] at hl
      cases hl
      exact ⟨rfl, hemp⟩
  · rintro ⟨rfl, hne⟩
    refine memB_of_lookup ?_
    rw [buildVTR_lookup, if_neg hne]

theorem unionPairs_cons (s : UnionFind) (pr : Nat × Nat) (ps : List (Nat × Nat)) :
    unionPairs s (pr :: ps) = unionPairs (s.union_sets pr.1 pr.2).2 ps := rfl

theorem allPairs_cons (p : Bytes × List Nat) (rest : List (Bytes × List Nat)) :
    allPairs (p :: rest) = entryPairs p.2 ++ allPairs rest := rfl

theorem esrc_pairEdge (pr : Nat × Nat) : esrc (pairEdge pr) = pr.1 := by
  simp [esrc, pairEdge]

theorem edst_pairEdge (pr : Nat × Nat) : edst (pairEdge pr) = pr.2 := by
  simp [edst, pairEdge]

theorem validEdge_pairEdge {n : Nat} {pr : Nat × Nat} (h1 : pr.1 < n)
    (h2 : pr.2 < n) : validEdge n (pairEdge pr) := by
  unfold validEdge pairEdge
  refine ⟨?_, ?_, ?_, ?_⟩ <;> simp <;> omega

/-- The nested union loop is the guarded edge loop on the 1-based images
of the pairs. -/
theorem unionPairs_eq_processEdges (n : Nat) :
    ∀ (ps : List (Nat × Nat)) (s : UnionFind),
      (∀ pr ∈ ps, pr.1 < n ∧ pr.2 < n) →
      unionPairs s ps = processEdges n s (ps.map pairEdge) := by
  intro ps
  induction ps with
  | nil => intro s _; rfl
  | cons pr rest ih =>
    intro s h
    rw [unionPairs_cons, List.map_cons, processEdges_cons,
      if_pos (validEdge_pairEdge (h pr (List.mem_cons_self pr rest)).1
        (h pr (List.mem_cons_self pr rest)).2),
      esrc_pairEdge, edst_pairEdge]
    exact ih _ (fun q hq => h q (List.mem_cons_of_mem pr hq))

theorem edgeStep_map_pairEdge {n : Nat} {ps : List (Nat × Nat)}
    (hps : ∀ pr ∈ ps, pr.1 < n ∧ pr.2 < n) (a b : Nat) :
    EdgeStep n (ps.map pairEdge) a b ↔ PairStep ps a b := by
  constructor
  · rintro ⟨e, he, hv, hd⟩
    rcases List.mem_map.1 he with ⟨pr, hpr, rfl⟩
    rw [esrc_pairEdge, edst_pairEdge] at hd
    exact ⟨pr, hpr, hd⟩
  · rintro ⟨pr, hpr, hd⟩
    refine ⟨pairEdge pr, List.mem_map.2 ⟨pr, hpr, rfl⟩,
      validEdge_pairEdge (hps pr hpr).1 (hps pr hpr).2, ?_⟩
    rw [esrc_pairEdge, edst_pairEdge]
    exact hd

/-- After union-ing a list of in-range pairs starting from singletons,
root equality is the reflexive-transitive closure of the pair steps. -/
theorem unionPairs_init_spec (n : Nat) (ps : List (Nat × Nat))
    (hps : ∀ pr ∈ ps, pr.1 < n ∧ pr.2 < n) :
    WF (unionPairs (UnionFind.init n) ps) ∧
    (unionPairs (UnionFind.init n) ps).parent.length = n ∧
    ∀ a b, a < n → b < n →
      (rootOf (unionPairs (UnionFind.init n) ps).parent a =
          rootOf (unionPairs (UnionFind.init n) ps).parent b ↔
        Relation.ReflTransGen (PairStep ps) a b) := by
  obtain ⟨hwf, hlen, hiff⟩ := processEdges_init_spec n (ps.map pairEdge)
  rw [← unionPairs_eq_processEdges n ps _ hps] at hwf hlen hiff
  refine ⟨hwf, hlen, ?_⟩
  intro a b ha hb
  rw [hiff a b ha hb]
  constructor
  · exact rtg_mono_of (fun u v huv => Relation.ReflTransGen.single
      ((edgeStep_map_pairEdge hps u v).1 huv))
  · exact rtg_mono_of (fun u v huv => Relation.ReflTransGen.single
      ((edgeStep_map_pairEdge hps u v).2 huv))

theorem entryPairs_cons {r0 : Nat} {rest : List Nat} (h : rest ≠ []) :
    entryPairs (r0 :: rest) = rest.map (fun r => (r0, r)) := by
  unfold entryPairs
  rw [if_neg (by
    have := List.length_pos.2 h
    simp only [List.length_cons]
    omega)]

theorem entryPairs_mem_rows {rows : List Nat} {x : Nat × Nat}
    (h : x ∈ entryPairs rows) : x.1 ∈ rows ∧ x.2 ∈ rows := by
  unfold entryPairs at h
  by_cases hlen : rows.length < 2
  · rw [if_pos hlen] at h
    cases h
  · rw [if_neg hlen] at h
    cases rows with
    | nil => cases h
    | cons r0 rest =>
      rcases List.mem_map.1 h with ⟨r, hr, rfl⟩
      exact ⟨List.mem_cons_self r0 rest, List.mem_cons_of_mem r0 hr⟩

theorem mem_allPairs {vtr : List (Bytes × List Nat)} {x : Nat × Nat} :
    x ∈ allPairs vtr ↔ ∃ pr ∈ vtr, x ∈ entryPairs pr.2 := by
  induction vtr with
  | nil => simp [allPairs]
  | cons p rest ih =>
    rw [allPairs_cons, List.mem_append, ih]
    constructor
    · rintro (h | ⟨q, hq, hx⟩)
      · exact ⟨p, List.mem_cons_self p rest, h⟩
      · exact ⟨q, List.mem_cons_of_mem p hq, hx⟩
    · rintro ⟨q, hq, hx⟩
      rcases List.mem_cons.1 hq with rfl | hq
      · exact Or.inl hx
      · exact Or.inr ⟨q, hq, hx⟩

theorem pairStep_symm {ps : List (Nat × Nat)} {a b : Nat}
    (h : PairStep ps a b) : PairStep ps b a := by
  obtain ⟨q, hq, hd⟩ := h
  rcases hd with ⟨h1, h2⟩ | ⟨h1, h2⟩
  · exact ⟨q, hq, Or.inr ⟨h2, h1⟩⟩
  · exact ⟨q, hq, Or.inl ⟨h2, h1⟩⟩

/-- Two rows of a common entry are joined by the entry's pairs. -/
theorem shareStep_to_pairs {vtr : List (Bytes × List Nat)} {a b : Nat}
    (h : ShareStep vtr a b) :
    Relation.ReflTransGen (PairStep (allPairs vtr)) a b := by
  obtain ⟨pr, hpr, ha, hb⟩ := h
  rcases hrows : pr.2 with _ | ⟨r0, rest⟩
  · rw [hrows] at ha
    cases ha
  · rw [hrows] at ha hb
    rcases hrest : rest with _ | ⟨r1, rest2⟩
    · rw [hrest] at ha hb
      have ha2 : a = r0 := by simpa using ha
      have hb2 : b = r0 := by simpa using hb
      rw [ha2, hb2]
    · have hne : rest ≠ [] := by rw [hrest]; simp
      have hmem : ∀ y ∈ rest, PairStep (allPairs vtr) r0 y := by
        intro y hy
        refine ⟨(r0, y), mem_allPairs.2 ⟨pr, hpr, ?_⟩, Or.inl ⟨rfl, rfl⟩⟩
        rw [hrows, entryPairs_cons hne]
        exact List.mem_map.2 ⟨y, hy, rfl⟩
      have hto : ∀ y, y ∈ r0 :: rest →
          Relation.ReflTransGen (PairStep (allPairs vtr)) r0 y := by
        intro y hy
        rcases List.mem_cons.1 hy with rfl | hy
        · exact Relation.ReflTransGen.refl
        · exact Relation.ReflTransGen.single (hmem y hy)
      have hfrom : Relation.ReflTransGen (PairStep (allPairs vtr)) a r0 := by
        rcases List.mem_cons.1 ha with rfl | ha
        · exact Relation.ReflTransGen.refl
        · exact Relation.ReflTransGen.single (pairStep_symm (hmem a ha))
      exact hfrom.trans (hto b hb)

/-- A unioned pair comes from a common entry. -/
theorem pairs_to_shareStep {vtr : List (Bytes × List Nat)} {u v : Nat}
    (h : PairStep (allPairs vtr) u v) : ShareStep vtr u v := by
  obtain ⟨q, hq, hd⟩ := h
  rcases mem_allPairs.1 hq with ⟨pr, hpr, hq2⟩
  obtain ⟨h1, h2⟩ := entryPairs_mem_rows hq2
  rcases hd with ⟨hu, hv⟩ | ⟨hu, hv⟩
  · exact ⟨pr, hpr, hu ▸ h1, hv ▸ h2⟩
  · exact ⟨pr, hpr, hu ▸ h2, hv ▸ h1⟩

/-- Entry sharing in the finished map is key sharing among the
contributions. -/
theorem shareStep_buildVTR_iff {data : List Column} {incomp : List Bytes}
    {cs : Bool} {n : Nat} (a b : Nat) :
    ShareStep (buildVTR data incomp cs n) a b ↔
      ShareVal (allContribs data incomp cs n) a b := by
  constructor
  · rintro ⟨pr, hpr, ha, hb⟩
    obtain ⟨hrows, -⟩ :=
      buildVTR_mem.1 (show (pr.1, pr.2) ∈ _ from by
        rw [show (pr.1, pr.2) = pr from rfl]; exact hpr)
    exact ⟨pr.1, mem_rowsOfKey.1 (hrows ▸ ha), mem_rowsOfKey.1 (hrows ▸ hb)⟩
  · rintro ⟨key, ha, hb⟩
    have hane : rowsOfKey (allContribs data incomp cs n) key ≠ [] := by
      intro hc
      have := mem_rowsOfKey.2 ha
      rw [hc] at this
      cases this
    exact ⟨(key, rowsOfKey (allContribs data incomp cs n) key),
      buildVTR_mem.2 ⟨rfl, hane⟩, mem_rowsOfKey.2 ha, mem_rowsOfKey.2 hb⟩

theorem columnContribs_row_lt {cs : Bool} {incomp : List Bytes} {n : Nat}
    {col : Column} : ∀ rc ∈ columnContribs cs incomp n col, rc.1 < n := by
  intro rc hrc
  cases col with
  | strCol cells =>
    rcases List.mem_filterMap.1 hrc with ⟨row, hrow, heq⟩
    have hlt : row < min n cells.length := List.mem_range.1 hrow
    cases hcell : cells.getD row none with
    | none => rw [hcell] at heq; simp at heq
    | some s =>
      rw [hcell] at heq
      have heq2 : (if (if cs then s else lowerStr s) ∈ incomp then none
          else if (if cs then s else lowerStr s) = [] then none
          else some (row, if cs then s else lowerStr s)) = some rc := heq
      by_cases h1 : (if cs then s else lowerStr s) ∈ incomp
      · rw [if_pos h1] at heq2
        cases heq2
      · rw [if_neg h1] at heq2
        by_cases h2 : (if cs then s else lowerStr s) = []
        · rw [if_pos h2] at heq2
          cases heq2
        · rw [if_neg h2] at heq2
          cases heq2
          show row < n
          have := Nat.min_le_left n cells.length
          omega
  | realCol cells =>
    rcases List.mem_filterMap.1 hrc with ⟨row, hrow, heq⟩
    have hlt : row < min n cells.length := List.mem_range.1 hrow
    cases hcell : cells.getD row none with
    | none => rw [hcell] at heq; simp at heq
    | some x =>
      rw [hcell] at heq
      have heq2 : some (row, realKey x) = some rc := heq
      cases heq2
      show row < n
      have := Nat.min_le_left n cells.length
      omega
  | intCol cells =>
    rcases List.mem_filterMap.1 hrc with ⟨row, hrow, heq⟩
    have hlt : row < min n cells.length := List.mem_range.1 hrow
    cases hcell : cells.getD row none with
    | none => rw [hcell] at heq; simp at heq
    | some v =>
      rw [hcell] at heq
      have heq2 : some (row, intKey v) = some rc := heq
      cases heq2
      show row < n
      have := Nat.min_le_left n cells.length
      omega
  | nullCol => cases hrc

theorem allContribs_cons (c : Column) (data : List Column)
    (incomp : List Bytes) (cs : Bool) (n : Nat) :
    allContribs (c :: data) incomp cs n =
      columnContribs cs incomp n c ++ allContribs data incomp cs n := rfl

theorem allContribs_row_lt {data : List Column} {incomp : List Bytes}
    {cs : Bool} {n : Nat} :
    ∀ rc ∈ allContribs data incomp cs n, rc.1 < n := by
  induction data with
  | nil => intro rc hrc; cases hrc
  | cons c rest ih =>
    intro rc hrc
    rw [allContribs_cons, List.mem_append] at hrc
    rcases hrc with h | h
    · exact columnContribs_row_lt rc h
    · exact ih rc h

theorem buildVTR_rows_lt {data : List Column} {incomp : List Bytes}
    {cs : Bool} {n : Nat} :
    ∀ pr ∈ buildVTR data incomp cs n, ∀ r ∈ pr.2, r < n := by
  intro pr hpr r hr
  obtain ⟨hrows, -⟩ :=
    buildVTR_mem.1 (show (pr.1, pr.2) ∈ _ from by
      rw [show (pr.1, pr.2) = pr from rfl]; exact hpr)
  exact allContribs_row_lt _ (mem_rowsOfKey.1 (hrows ▸ hr))

theorem allPairs_bounds {vtr : List (Bytes × List Nat)} {n : Nat}
    (h : ∀ pr ∈ vtr, ∀ r ∈ pr.2, r < n) :
    ∀ q ∈ allPairs vtr, q.1 < n ∧ q.2 < n := by
  intro q hq
  rcases mem_allPairs.1 hq with ⟨pr, hpr, hq2⟩
  obtain ⟨h1, h2⟩ := entryPairs_mem_rows hq2
  exact ⟨h pr hpr _ h1, h pr hpr _ h2⟩

/-- The complete union phase of `multi_column_group_cpp`: starting from
singletons, two rows end with equal roots exactly when they are linked by
a chain of shared normalized keys. -/
theorem unionPass_init_spec (data : List Column) (incomp : List Bytes)
    (cs : Bool) (n : Nat) :
    WF (unionPass (UnionFind.init n) (buildVTR data incomp cs n)) ∧
    (unionPass (UnionFind.init n) (buildVTR data incomp cs n)).parent.length
      = n ∧
    ∀ a b, a < n → b < n →
      (rootOf (unionPass (UnionFind.init n)
            (buildVTR data incomp cs n)).parent a =
          rootOf (unionPass (UnionFind.init n)
            (buildVTR data incomp cs n)).parent b ↔
        Relation.ReflTransGen
          (ShareVal (allContribs data incomp cs n)) a b) := by
  obtain ⟨hwf, hlen, hiff⟩ := unionPairs_init_spec n
    (allPairs (buildVTR data incomp cs n)) (allPairs_bounds buildVTR_rows_lt)
  refine ⟨by exact hwf, by exact hlen, ?_⟩
  intro a b ha hb
  unfold unionPass
  rw [hiff a b ha hb]
  constructor
  · refine rtg_mono_of ?_
    intro u v huv
    exact Relation.ReflTransGen.single
      ((shareStep_buildVTR_iff u v).1 (pairs_to_shareStep huv))
  · refine rtg_mono_of ?_
    intro u v huv
    exact shareStep_to_pairs ((shareStep_buildVTR_iff u v).2 huv)

theorem countLoop_cons (uf : UnionFind) (i : Nat) (is : List Nat)
    (m : List (Nat × Nat)) :
    countLoop uf (i :: is) m =
      countLoop (uf.find i).2 is (bump m (uf.find i).1) := rfl

theorem bump_cons (k0 : Nat) (c : Nat) (rest : List (Nat × Nat)) (key : Nat) :
    bump ((k0, c) :: rest) key =
      if k0 = key then (k0, c + 1) :: rest
      else (k0, c) :: bump rest key := rfl

/-- Effect of one `root_counts[root]++` on all lookups. -/
theorem lookup_bump (m : List (Nat × Nat)) (key : Nat) (k : Nat) :
    List.lookup k (bump m key) =
      if k = key then some ((List.lookup key m).getD 0 + 1)
      else List.lookup k m := by
  induction m with
  | nil =>
    rw [show bump [] key = [(key, 1)] from rfl, lookup_cons]
    by_cases h : k = key
    · subst h
      simp [List.lookup]
    · simp [h, List.lookup]
  | cons p rest ih =>
    obtain ⟨k0, c⟩ := p
    rw [bump_cons]
    by_cases h0 : k0 = key <;> by_cases hk : k = k0
    · subst h0
      subst hk
      simp [lookup_cons]
    · subst h0
      simp [lookup_cons, hk]
    · subst hk
      simp [lookup_cons, h0, Ne.symm h0, ih]
    · simp [lookup_cons, h0, Ne.symm h0, hk, ih]

/-- Invariant of the first pass of lines 682-686: the union-find keeps its
roots (each `find` only compresses), and the count map holds the exact
class counts of the rows processed so far. -/
theorem countLoop_spec (n : Nat) (p0 : List Nat) :
    ∀ (todo : List Nat) (uf : UnionFind) (m : List (Nat × Nat))
      (done : List Nat),
      WF uf → uf.parent.length = n →
      (∀ z, z < n → rootOf uf.parent z = rootOf p0 z) →
      (∀ i ∈ todo, i < n) →
      (∀ k, List.lookup k m =
        if done.countP (fun i => rootOf p0 i == k) = 0 then none
        else some (done.countP (fun i => rootOf p0 i == k))) →
      WF (countLoop uf todo m).2 ∧
      (countLoop uf todo m).2.parent.length = n ∧
      (∀ z, z < n → rootOf (countLoop uf todo m).2.parent z = rootOf p0 z) ∧
      (∀ k, List.lookup k (countLoop uf todo m).1 =
        if (done ++ todo).countP (fun i => rootOf p0 i == k) = 0 then none
        else some ((done ++ todo).countP (fun i => rootOf p0 i == k))) := by
  intro todo
  induction todo with
  | nil =>
    intro uf m done hwf hlen hroots _ hm
    refine ⟨hwf, hlen, hroots, ?_⟩
    intro k
    simpa using hm k
  | cons i todo ih =>
    intro uf m done hwf hlen hroots htodo hm
    have hi : i < n := htodo i (List.mem_cons_self i todo)
    obtain ⟨hf1, hf2, hf3, hf4, hf5⟩ := find_spec hwf (by rw [hlen]; exact hi)
    rw [countLoop_cons]
    have hroot_i : (uf.find i).1 = rootOf p0 i := by rw [hf1, hroots i hi]
    have hlen2 : (uf.find i).2.parent.length = n := by rw [hf2, hlen]
    have hroots2 : ∀ z, z < n →
        rootOf (uf.find i).2.parent z = rootOf p0 z := by
      intro z hz
      rw [hf5 z (by rw [hlen]; exact hz), hroots z hz]
    have hm2 : ∀ k, List.lookup k (bump m (uf.find i).1) =
        if (done ++ [i]).countP (fun j => rootOf p0 j == k) = 0 then none
        else some ((done ++ [i]).countP (fun j => rootOf p0 j == k)) := by
      intro k
      rw [lookup_bump, hroot_i, List.countP_append]
      by_cases hk : k = rootOf p0 i
      · subst hk
        rw [if_pos rfl, hm (rootOf p0 i)]
        have hfi : (rootOf p0 i == rootOf p0 i) = true := by simp
        simp only [List.countP_cons, List.countP_nil, hfi, if_true]
        by_cases hd : done.countP (fun j => rootOf p0 j == rootOf p0 i) = 0
        · rw [if_pos hd, hd, if_neg (by omega)]
          simp
        · rw [if_neg hd, if_neg (by omega)]
          simp
      · rw [if_neg hk, hm k]
        have hfi : (rootOf p0 i == k) = false := by
          simp only [beq_eq_false_iff_ne, ne_eq]
          exact fun hc => hk hc.symm
        simp only [List.countP_cons, List.countP_nil, hfi]
        simp
    have hres := ih (uf.find i).2 (bump m (uf.find i).1) (done ++ [i]) hf4
      hlen2 hroots2 (fun j hj => htodo j (List.mem_cons_of_mem i hj)) hm2
    rwa [List.append_assoc, List.singleton_append] at hres

/-- The whole first pass: counts are the class counts over all rows and the
roots are untouched. -/
theorem countLoop_full (n : Nat) (uf : UnionFind) (hwf : WF uf)
    (hlen : uf.parent.length = n) :
    WF (countLoop uf (List.range n) []).2 ∧
    (countLoop uf (List.range n) []).2.parent.length = n ∧
    (∀ z, z < n → rootOf (countLoop uf (List.range n) []).2.parent z =
      rootOf uf.parent z) ∧
    (∀ k, List.lookup k (countLoop uf (List.range n) []).1 =
      if classCount uf.parent n k = 0 then none
      else some (classCount uf.parent n k)) := by
  have hres := countLoop_spec n uf.parent (List.range n) uf [] [] hwf hlen
    (fun z _ => rfl) (fun i hi => List.mem_range.1 hi)
    (fun k => by simp [List.lookup])
  simp only [List.nil_append] at hres
  exact hres

theorem assignLoop_cons (counts : List (Nat × Nat)) (mgs : Int)
    (uf : UnionFind) (i : Nat) (is : List Nat) (st : GroupState) :
    assignLoop counts mgs uf (i :: is) st =
      if mgs ≤ (((List.lookup (uf.find i).1 counts).getD 0 : Nat) : Int) then
        match List.lookup (uf.find i).1 st.rtg with
        | some g => assignLoop counts mgs (uf.find i).2 is
            { st with group_ids := st.group_ids.set i g }
        | none => assignLoop counts mgs (uf.find i).2 is
            { rtg := ((uf.find i).1, st.next) :: st.rtg,
              group_ids := st.group_ids.set i st.next,
              sizes := st.sizes ++ [(List.lookup (uf.find i).1 counts).getD 0],
              next := st.next + 1 }
      else assignLoop counts mgs (uf.find i).2 is
        { st with group_ids := st.group_ids.set i 0 } := rfl

theorem qualifies_congr {p0 : List Nat} {n : Nat} {mgs : Int} {a b : Nat}
    (h : rootOf p0 a = rootOf p0 b) :
    qualifies p0 n mgs a ↔ qualifies p0 n mgs b := by
  unfold qualifies
  rw [h]

theorem classCount_pos {p0 : List Nat} {n c : Nat} (hc : c < n) :
    classCount p0 n (rootOf p0 c) ≠ 0 := by
  unfold classCount
  intro h
  have hpos : 0 < (List.range n).countP fun i => rootOf p0 i == rootOf p0 c :=
    List.countP_pos.2 ⟨c, List.mem_range.2 hc, by simp⟩
  omega

theorem find?_range_min (f : Nat → Bool) :
    ∀ (c j : Nat), (List.range c).find? f = some j →
      ∀ j2, j2 < j → f j2 = false := by
  intro c
  induction c with
  | zero =>
    intro j h
    rw [List.range_zero] at h
    simp [List.find?] at h
  | succ c ih =>
    intro j h j2 hj2
    rw [List.range_succ, List.find?_append] at h
    cases hfc : (List.range c).find? f with
    | some j0 =>
      rw [hfc] at h
      have hj : j0 = j := by simpa using h
      exact ih j (hj ▸ hfc) j2 hj2
    | none =>
      rw [hfc, Option.none_or] at h
      cases hfcb : f c with
      | false => simp [List.find?_cons, hfcb, List.find?] at h
      | true =>
        have hj : c = j := by
          rw [List.find?_cons, hfcb] at h
          exact Option.some.inj h
        have hmem : j2 ∈ List.range c := List.mem_range.2 (by omega)
        have hnone := List.find?_eq_none.1 hfc j2 hmem
        simpa using hnone

theorem firstRowOf_succ (p : List Nat) (c r : Nat) :
    firstRowOf p (c + 1) r =
      (firstRowOf p c r).or (if rootOf p c == r then some c else none) := by
  unfold firstRowOf
  rw [List.range_succ, List.find?_append]
  congr 1
  cases hb : (rootOf p c == r) with
  | true => simp [List.find?_cons, hb]
  | false => simp [List.find?_cons, hb, List.find?]

theorem firstRowOf_none {p : List Nat} {c r : Nat}
    (h : firstRowOf p c r = none) : ∀ j, j < c → rootOf p j ≠ r := by
  intro j hj
  have hx := List.find?_eq_none.1 h j (List.mem_range.2 hj)
  simpa using hx

theorem firstRowOf_some {p : List Nat} {c r j : Nat}
    (h : firstRowOf p c r = some j) :
    j < c ∧ rootOf p j = r ∧ ∀ j2, j2 < j → rootOf p j2 ≠ r := by
  refine ⟨List.mem_range.1 (List.mem_of_find?_eq_some h), ?_, ?_⟩
  · have hx := List.find?_some h
    simpa using hx
  · intro j2 hj2
    have hx := find?_range_min _ c j h j2 hj2
    simpa using hx

theorem isFirst_of_firstRowOf_none {p : List Nat} {c : Nat}
    (h : firstRowOf p c (rootOf p c) = none) : isFirst p c :=
  fun j hj => firstRowOf_none h j hj

theorem not_isFirst_of_firstRowOf_some {p : List Nat} {c j : Nat}
    (h : firstRowOf p c (rootOf p c) = some j) : ¬ isFirst p c := by
  obtain ⟨hj, hr, -⟩ := firstRowOf_some h
  intro hf
  exact hf j hj hr

theorem seqCount_succ (p : List Nat) (n : Nat) (mgs : Int) (c : Nat) :
    seqCount p n mgs (c + 1) =
      seqCount p n mgs c +
        if isFirst p c ∧ qualifies p n mgs c then 1 else 0 := by
  unfold seqCount
  rw [List.range_succ, List.countP_append, List.countP_cons, List.countP_nil]
  by_cases h1 : isFirst p c <;> by_cases h2 : qualifies p n mgs c <;>
    simp [h1, h2]

theorem specId_self {p0 : List Nat} {n : Nat} {mgs : Int} {c : Nat}
    (hq : qualifies p0 n mgs c)
    (hnone : firstRowOf p0 c (rootOf p0 c) = none) :
    specId p0 n mgs c = 1 + seqCount p0 n mgs c := by
  unfold specId
  rw [if_pos hq, firstRowOf_succ, hnone, Option.none_or,
    if_pos (by simp), Option.getD_some]

theorem specId_prev {p0 : List Nat} {n : Nat} {mgs : Int} {c j : Nat}
    (hq : qualifies p0 n mgs c)
    (hsome : firstRowOf p0 c (rootOf p0 c) = some j) :
    specId p0 n mgs c = 1 + seqCount p0 n mgs j := by
  unfold specId
  rw [if_pos hq, firstRowOf_succ, hsome]
  rfl

/-- Invariant of the assignment pass of lines 689-701: ids written so far
follow `specId`, `next_group_id` tracks the qualifying first encounters,
and `root_to_group` holds exactly the qualifying roots already seen. -/
theorem assignLoop_spec (n : Nat) (p0 : List Nat) (counts : List (Nat × Nat))
    (mgs : Int)
    (hcounts : ∀ k, List.lookup k counts =
      if classCount p0 n k = 0 then none else some (classCount p0 n k)) :
    ∀ (fuel c : Nat) (uf : UnionFind) (st : GroupState),
      c + fuel = n →
      WF uf → uf.parent.length = n →
      (∀ z, z < n → rootOf uf.parent z = rootOf p0 z) →
      st.group_ids.length = n →
      (∀ i, i < c → st.group_ids.getD i 0 = specId p0 n mgs i) →
      (∀ i, c ≤ i → st.group_ids.getD i 0 = 0) →
      st.next = 1 + seqCount p0 n mgs c →
      (∀ r, List.lookup r st.rtg =
        match firstRowOf p0 c r with
        | none => none
        | some j => if qualifies p0 n mgs j
            then some (1 + seqCount p0 n mgs j) else none) →
      (assignLoop counts mgs uf (List.range' c fuel) st).1.group_ids.length
        = n ∧
      (∀ i, i < n →
        (assignLoop counts mgs uf
          (List.range' c fuel) st).1.group_ids.getD i 0 =
          specId p0 n mgs i) ∧
      (assignLoop counts mgs uf (List.range' c fuel) st).1.next =
        1 + seqCount p0 n mgs n := by
  intro fuel
  induction fuel with
  | zero =>
    intro c uf st hcn hwf hlen hroots hidlen hdone hrest hnext hrtg
    have hc : c = n := by omega
    subst hc
    exact ⟨hidlen, fun i hi => hdone i hi, hnext⟩
  | succ fuel ih =>
    intro c uf st hcn hwf hlen hroots hidlen hdone hrest hnext hrtg
    have hc : c < n := by omega
    rw [List.range'_succ, assignLoop_cons]
    obtain ⟨hf1, hf2, hf3, hf4, hf5⟩ := find_spec hwf (by rw [hlen]; exact hc)
    have hr : (uf.find c).1 = rootOf p0 c := by rw [hf1, hroots c hc]
    have hlen2 : (uf.find c).2.parent.length = n := by rw [hf2, hlen]
    have hroots2 : ∀ z, z < n →
        rootOf (uf.find c).2.parent z = rootOf p0 z := fun z hz => by
      rw [hf5 z (by rw [hlen]; exact hz), hroots z hz]
    have hcnt : (List.lookup (uf.find c).1 counts).getD 0 =
        classCount p0 n (rootOf p0 c) := by
      rw [hr, hcounts (rootOf p0 c), if_neg (classCount_pos hc)]
      rfl
    by_cases hq : qualifies p0 n mgs c
    · rw [if_pos (by rw [hcnt]; exact hq), hr]
      cases hfro : firstRowOf p0 c (rootOf p0 c) with
      | some j =>
        have hqj : qualifies p0 n mgs j := by
          obtain ⟨-, hrj, -⟩ := firstRowOf_some hfro
          exact (qualifies_congr hrj).2 hq
        have hlk : List.lookup (rootOf p0 c) st.rtg =
            some (1 + seqCount p0 n mgs j) := by
          rw [hrtg (rootOf p0 c), hfro]
          exact if_pos hqj
        rw [hlk]
        exact ih (c + 1) (uf.find c).2
          { st with group_ids := st.group_ids.set c (1 + seqCount p0 n mgs j) }
          (by omega) hf4 hlen2 hroots2
          (by show (st.group_ids.set c _).length = n
              rw [List.length_set]
              exact hidlen)
          (by intro i hi
              show (st.group_ids.set c _).getD i 0 = specId p0 n mgs i
              by_cases hic : i = c
              · subst hic
                rw [getD_set (by rw [hidlen]; exact hc), if_pos rfl,
                  specId_prev hq hfro]
              · rw [getD_set (by rw [hidlen]; exact hc),
                  if_neg (fun hcon => hic hcon.symm)]
                exact hdone i (by omega))
          (by intro i hi
              show (st.group_ids.set c _).getD i 0 = 0
              rw [getD_set (by rw [hidlen]; exact hc), if_neg (by omega)]
              exact hrest i (by omega))
          (by show st.next = 1 + seqCount p0 n mgs (c + 1)
              rw [hnext, seqCount_succ,
                if_neg (fun hcon =>
                  not_isFirst_of_firstRowOf_some hfro hcon.1)]
              omega)
          (by intro r
              show List.lookup r st.rtg = _
              rw [hrtg r, firstRowOf_succ]
              by_cases hrr : r = rootOf p0 c
              · subst hrr
                rw [hfro]
                rfl
              · have hbeq : (rootOf p0 c == r) = false := by
                  simp only [beq_eq_false_iff_ne, ne_eq]
                  exact fun hcon => hrr hcon.symm
                rw [hbeq]
                cases hfro2 : firstRowOf p0 c r with
                | some j2 => rfl
                | none => rfl)
      | none =>
        have hlk : List.lookup (rootOf p0 c) st.rtg = none := by
          rw [hrtg (rootOf p0 c), hfro]
        rw [hlk]
        have hfirst : isFirst p0 c := isFirst_of_firstRowOf_none hfro
        exact ih (c + 1) (uf.find c).2
          { rtg := (rootOf p0 c, st.next) :: st.rtg,
            group_ids := st.group_ids.set c st.next,
            sizes := st.sizes ++ [(List.lookup (rootOf p0 c) counts).getD 0],
            next := st.next + 1 }
          (by omega) hf4 hlen2 hroots2
          (by show (st.group_ids.set c st.next).length = n
              rw [List.length_set]
              exact hidlen)
          (by intro i hi
              show (st.group_ids.set c st.next).getD i 0 = specId p0 n mgs i
              by_cases hic : i = c
              · subst hic
                rw [getD_set (by rw [hidlen]; exact hc), if_pos rfl, hnext,
                  specId_self hq hfro]
              · rw [getD_set (by rw [hidlen]; exact hc),
                  if_neg (fun hcon => hic hcon.symm)]
                exact hdone i (by omega))
          (by intro i hi
              show (st.group_ids.set c st.next).getD i 0 = 0
              rw [getD_set (by rw [hidlen]; exact hc), if_neg (by omega)]
              exact hrest i (by omega))
          (by show st.next + 1 = 1 + seqCount p0 n mgs (c + 1)
              rw [hnext, seqCount_succ, if_pos ⟨hfirst, hq⟩]
              omega)
          (by intro r
              show List.lookup r ((rootOf p0 c, st.next) :: st.rtg) = _
              rw [lookup_cons, firstRowOf_succ]
              by_cases hrr : r = rootOf p0 c
              · rw [if_pos hrr]
                subst hrr
                rw [hfro, Option.none_or,
                  show (rootOf p0 c == rootOf p0 c) = true from by simp]
                show some st.next =
                  if qualifies p0 n mgs c
                  then some (1 + seqCount p0 n mgs c) else none
                rw [if_pos hq, hnext]
              · rw [if_neg hrr, hrtg r]
                have hbeq : (rootOf p0 c == r) = false := by
                  simp only [beq_eq_false_iff_ne, ne_eq]
                  exact fun hcon => hrr hcon.symm
                rw [hbeq]
                cases hfro2 : firstRowOf p0 c r with
                | some j2 => rfl
                | none => rfl)
    · rw [if_neg (by rw [hcnt]; exact hq)]
      exact ih (c + 1) (uf.find c).2
        { st with group_ids := st.group_ids.set c 0 }
        (by omega) hf4 hlen2 hroots2
        (by show (st.group_ids.set c 0).length = n
            rw [List.length_set]
            exact hidlen)
        (by intro i hi
            show (st.group_ids.set c 0).getD i 0 = specId p0 n mgs i
            by_cases hic : i = c
            · subst hic
              rw [getD_set (by rw [hidlen]; exact hc), if_pos rfl]
              unfold specId
              rw [if_neg hq]
            · rw [getD_set (by rw [hidlen]; exact hc),
                if_neg (fun hcon => hic hcon.symm)]
              exact hdone i (by omega))
        (by intro i hi
            show (st.group_ids.set c 0).getD i 0 = 0
            rw [getD_set (by rw [hidlen]; exact hc), if_neg (by omega)]
            exact hrest i (by omega))
        (by show st.next = 1 + seqCount p0 n mgs (c + 1)
            rw [hnext, seqCount_succ, if_neg (fun hcon => hq hcon.2)]
            omega)
        (by intro r
            show List.lookup r st.rtg = _
            rw [hrtg r, firstRowOf_succ]
            by_cases hrr : r = rootOf p0 c
            · subst hrr
              cases hfro2 : firstRowOf p0 c (rootOf p0 c) with
              | some j2 => rfl
              | none =>
                rw [Option.none_or,
                  show (rootOf p0 c == rootOf p0 c) = true from by simp]
                show (none : Option Nat) =
                  if qualifies p0 n mgs c
                  then some (1 + seqCount p0 n mgs c) else none
                rw [if_neg hq]
            · have hbeq : (rootOf p0 c == r) = false := by
                simp only [beq_eq_false_iff_ne, ne_eq]
                exact fun hcon => hrr hcon.symm
              rw [hbeq]
              cases hfro2 : firstRowOf p0 c r with
              | some j2 => rfl
              | none => rfl)

/-- The parent array after the union phase of `multi_column_group_cpp`:
the partition that the id-assignment passes read off. -/
def mcgParent (data : List Column) (incomparables : List Bytes)
    (cs : Bool) : List Nat :=
  (unionPass (UnionFind.init (firstNRows data))
    (buildVTR data (incompSet incomparables cs) cs (firstNRows data))).parent

/-- Root equality after the union phase is the closure of key sharing. -/
theorem mcgParent_iff (data : List Column) (incomparables : List Bytes)
    (cs : Bool) :
    ∀ a b, a < firstNRows data → b < firstNRows data →
      (rootOf (mcgParent data incomparables cs) a =
          rootOf (mcgParent data incomparables cs) b ↔
        Relation.ReflTransGen
          (ShareVal (allContribs data (incompSet incomparables cs) cs
            (firstNRows data))) a b) :=
  (unionPass_init_spec data (incompSet incomparables cs) cs
    (firstNRows data)).2.2

/-- Both passes of `multi_column_group_cpp` compute `specId` for every row
and leave `next_group_id` at one plus the number of qualifying groups. -/
theorem mcgCore_spec (data : List Column) (incomparables : List Bytes)
    (cs : Bool) (mgs : Int) :
    (mcgCore data incomparables cs mgs (firstNRows data)).1.group_ids.length
      = firstNRows data ∧
    (∀ i, i < firstNRows data →
      (mcgCore data incomparables cs mgs
        (firstNRows data)).1.group_ids.getD i 0 =
        specId (mcgParent data incomparables cs) (firstNRows data) mgs i) ∧
    (mcgCore data incomparables cs mgs (firstNRows data)).1.next =
      1 + seqCount (mcgParent data incomparables cs) (firstNRows data) mgs
        (firstNRows data) := by
  obtain ⟨hwf1, hlen1, -⟩ := unionPass_init_spec data
    (incompSet incomparables cs) cs (firstNRows data)
  obtain ⟨hwf2, hlen2, hroots2, hcounts⟩ := countLoop_full (firstNRows data)
    (unionPass (UnionFind.init (firstNRows data))
      (buildVTR data (incompSet incomparables cs) cs (firstNRows data)))
    hwf1 hlen1
  have hres := assignLoop_spec (firstNRows data)
    (mcgParent data incomparables cs)
    (countLoop (unionPass (UnionFind.init (firstNRows data))
      (buildVTR data (incompSet incomparables cs) cs (firstNRows data)))
      (List.range (firstNRows data)) []).1
    mgs hcounts (firstNRows data) 0
    (countLoop (unionPass (UnionFind.init (firstNRows data))
      (buildVTR data (incompSet incomparables cs) cs (firstNRows data)))
      (List.range (firstNRows data)) []).2
    ⟨[], List.replicate (firstNRows data) 0, [], 1⟩
    (by omega) hwf2 hlen2 hroots2
    (by simp)
    (by intro i hi; omega)
    (by intro i _
        show (List.replicate (firstNRows data) 0).getD i 0 = 0
        by_cases h : i < firstNRows data
        · simp [List.getD, List.getElem?_replicate, h]
        · simp [List.getD, List.getElem?_replicate, h])
    (by show 1 = 1 + seqCount (mcgParent data incomparables cs)
          (firstNRows data) mgs 0
        simp [seqCount])
    (by intro r
        show List.lookup r [] = _
        have hfro : firstRowOf (mcgParent data incomparables cs) 0 r = none := by
          simp [firstRowOf]
        rw [hfro]
        simp [List.lookup])
  rw [← List.range_eq_range'] at hres
  exact hres

/-- The non-degenerate branch of `multi_column_group_cpp` in terms of its
stages. -/
theorem multi_column_group_eq (data : List Column) (incomparables : List Bytes)
    (cs : Bool) (mgs : Int) (hd : data.length ≠ 0)
    (hn : firstNRows data ≠ 0) :
    multi_column_group data incomparables cs mgs =
      ⟨(mcgCore data incomparables cs mgs (firstNRows data)).1.group_ids,
       (mcgCore data incomparables cs mgs (firstNRows data)).1.next - 1,
       (mcgCore data incomparables cs mgs (firstNRows data)).1.sizes,
       valueMapOf (buildVTR data (incompSet incomparables cs) cs
         (firstNRows data))⟩ := by
  unfold multi_column_group
  rw [if_neg hd, if_neg hn]

theorem firstRowOf_eq_some {p : List Nat} {c r j : Nat} (hj : j < c)
    (hr : rootOf p j = r) (hmin : ∀ j2, j2 < j → rootOf p j2 ≠ r) :
    firstRowOf p c r = some j := by
  cases hf : firstRowOf p c r with
  | none => exact absurd hr (firstRowOf_none hf j hj)
  | some j2 =>
    obtain ⟨hj2c, hr2, hmin2⟩ := firstRowOf_some hf
    have h1 : ¬ j < j2 := fun hlt => hmin2 j hlt hr
    have h2 : ¬ j2 < j := fun hlt => hmin j2 hlt hr2
    have hjj : j = j2 := by omega
    rw [hjj]

/-- Rows of one component get one id. -/
theorem specId_congr {p : List Nat} {n : Nat} {mgs : Int} {a b : Nat}
    (h : rootOf p a = rootOf p b) :
    specId p n mgs a = specId p n mgs b := by
  have hqiff := @qualifies_congr p n mgs a b h
  unfold specId
  by_cases hq : qualifies p n mgs a
  · rw [if_pos hq, if_pos (hqiff.1 hq)]
    cases hfa : firstRowOf p (a + 1) (rootOf p a) with
    | none => exact absurd rfl (firstRowOf_none hfa a (by omega))
    | some j =>
      obtain ⟨hjlt, hrj, hmin⟩ := firstRowOf_some hfa
      have hjb : j ≤ b := by
        by_contra hgt
        exact hmin b (by omega) h.symm
      have hfb : firstRowOf p (b + 1) (rootOf p b) = some j :=
        firstRowOf_eq_some (by omega) (hrj.trans h)
          (fun j2 h2 hcon => hmin j2 h2 (hcon.trans h.symm))
      rw [hfb]
      rfl
  · rw [if_neg hq, if_neg (fun hc => hq (hqiff.2 hc))]

theorem specId_eq_zero_iff {p : List Nat} {n : Nat} {mgs : Int} {i : Nat} :
    specId p n mgs i = 0 ↔ ¬ qualifies p n mgs i := by
  unfold specId
  by_cases hq : qualifies p n mgs i
  · simp [hq]
  · simp [hq]

/-- Claim C4: two rows of `multi_column_group_cpp` that share a normalized
contributed value in any column — or are linked by a chain of such shared
values — have equal roots after the union phase (and conversely), hence
receive the same group id; a row's id is `0` exactly when its component
size is below `min_group_size`; and every id equals `specId`: qualifying
components receive sequential ids starting at 1 in the order their first
rows are encountered while scanning rows `0..n_rows-1`.  (Every non-
excluded shared value is a contribution, so the claimed sharing relation
is contained in `ShareVal`.) -/
theorem claim_C4 (data : List Column) (incomparables : List Bytes)
    (cs : Bool) (mgs : Int) (hd : data.length ≠ 0)
    (hn : firstNRows data ≠ 0) :
    (∀ a b, a < firstNRows data → b < firstNRows data →
      (rootOf (mcgParent data incomparables cs) a =
          rootOf (mcgParent data incomparables cs) b ↔
        Relation.ReflTransGen
          (ShareVal (allContribs data (incompSet incomparables cs) cs
            (firstNRows data))) a b)) ∧
    (∀ a b, a < firstNRows data → b < firstNRows data →
      Relation.ReflTransGen
        (ShareVal (allContribs data (incompSet incomparables cs) cs
          (firstNRows data))) a b →
      (multi_column_group data incomparables cs mgs).group_ids.getD a 0 =
        (multi_column_group data incomparables cs mgs).group_ids.getD b 0) ∧
    (∀ i, i < firstNRows data →
      (multi_column_group data incomparables cs mgs).group_ids.getD i 0 =
        specId (mcgParent data incomparables cs) (firstNRows data) mgs i) ∧
    (∀ i, i < firstNRows data →
      ((multi_column_group data incomparables cs mgs).group_ids.getD i 0 = 0 ↔
        (classCount (mcgParent data incomparables cs) (firstNRows data)
          (rootOf (mcgParent data incomparables cs) i) : Int) < mgs)) := by
  obtain ⟨hlen, hids, hnext⟩ := mcgCore_spec data incomparables cs mgs
  have hgid : (multi_column_group data incomparables cs mgs).group_ids =
      (mcgCore data incomparables cs mgs (firstNRows data)).1.group_ids := by
    rw [multi_column_group_eq data incomparables cs mgs hd hn]
  refine ⟨mcgParent_iff data incomparables cs, ?_, ?_, ?_⟩
  · intro a b ha hb hshare
    have hroot := (mcgParent_iff data incomparables cs a b ha hb).2 hshare
    rw [hgid, hids a ha, hids b hb]
    exact specId_congr hroot
  · intro i hi
    rw [hgid]
    exact hids i hi
  · intro i hi
    rw [hgid, hids i hi, specId_eq_zero_iff]
    unfold qualifies
    omega

/-- Witness for C4 on a two-row string column sharing `"a"`. -/
theorem claim_C4_witness :
    (multi_column_group [Column.strCol [some [97], some [97]]]
        [] true 1).group_ids.getD 0 0 =
      specId (mcgParent [Column.strCol [some [97], some [97]]] [] true)
        (firstNRows [Column.strCol [some [97], some [97]]]) 1 0 :=
  (claim_C4 [Column.strCol [some [97], some [97]]] [] true 1 (by decide)
    (by decide)).2.2.1 0 (by decide)

/-- Claim C5 counterexample: with one integer column whose two cells are
`5` and the incomparable set `{"5"}`, the two rows are merged into one
group anyway: the numeric branches (lines 638-658) never consult the
incomparable set — the skip of lines 632-634 exists only in the string
branch — so rows sharing only an incomparable value do merge when the
column is numeric. -/
theorem claim_C5_counterexample :
    intKey 5 = [53] ∧
    [53] ∈ incompSet [[53]] true ∧
    multi_column_group [Column.intCol [some 5, some 5]] [[53]] true 1 =
      ⟨[1, 1], 1, [2], [([53], [1, 2])]⟩ := by
  refine ⟨by decide, by decide, by decide⟩

/-- Claim C5 amended: the empty/incomparable skip applies only to string
columns; numeric columns skip exactly the `NA` cells and contribute the
rendered key unconditionally.  For data made of string columns only,
every contribution therefore carries a non-excluded, non-empty key. -/
theorem claim_C5_amended (cs : Bool) (incomp : List Bytes) (n : Nat) :
    (∀ (cells : List (Option Bytes)) (row : Nat) (key : Bytes),
      (row, key) ∈ columnContribs cs incomp n (.strCol cells) →
      key ∉ incomp ∧ key ≠ []) ∧
    (∀ (cells : List (Option Int)) (row : Nat) (key : Bytes),
      (row, key) ∈ columnContribs cs incomp n (.intCol cells) ↔
      (row < min n cells.length ∧ ∃ v, cells.getD row none = some v ∧
        key = intKey v)) ∧
    (∀ (cells : List (Option Rat)) (row : Nat) (key : Bytes),
      (row, key) ∈ columnContribs cs incomp n (.realCol cells) ↔
      (row < min n cells.length ∧ ∃ x, cells.getD row none = some x ∧
        key = realKey x)) ∧
    (∀ (data : List Column),
      (∀ c ∈ data, ∃ cells, c = Column.strCol cells) →
      ∀ rc ∈ allContribs data incomp cs n, rc.2 ∉ incomp ∧ rc.2 ≠ []) := by
  have hstr : ∀ (cells : List (Option Bytes)) (row : Nat) (key : Bytes),
      (row, key) ∈ columnContribs cs incomp n (.strCol cells) →
      key ∉ incomp ∧ key ≠ [] := by
    intro cells row key h
    rcases List.mem_filterMap.1 h with ⟨row2, hrow2, heq⟩
    cases hcell : cells.getD row2 none with
    | none => rw [hcell] at heq; simp at heq
    | some s =>
      rw [hcell] at heq
      have heq2 : (if (if cs then s else lowerStr s) ∈ incomp then none
          else if (if cs then s else lowerStr s) = [] then none
          else some (row2, if cs then s else lowerStr s)) =
            some (row, key) := heq
      by_cases h1 : (if cs then s else lowerStr s) ∈ incomp
      · rw [if_pos h1] at heq2
        cases heq2
      · rw [if_neg h1] at heq2
        by_cases h2 : (if cs then s else lowerStr s) = []
        · rw [if_pos h2] at heq2
          cases heq2
        · rw [if_neg h2] at heq2
          have heq3 := Option.some.inj heq2
          rw [Prod.mk.injEq] at heq3
          rw [← heq3.2]
          exact ⟨h1, h2⟩
  refine ⟨hstr, ?_, ?_, ?_⟩
  · intro cells row key
    constructor
    · intro h
      rcases List.mem_filterMap.1 h with ⟨row2, hrow2, heq⟩
      have hlt := List.mem_range.1 hrow2
      cases hcell : cells.getD row2 none with
      | none => rw [hcell] at heq; simp at heq
      | some v =>
        rw [hcell] at heq
        have heq2 : some (row2, intKey v) = some (row, key) := heq
        have heq3 := Option.some.inj heq2
        rw [Prod.mk.injEq] at heq3
        obtain ⟨hr, hk⟩ := heq3
        subst hr
        exact ⟨hlt, v, hcell, hk.symm⟩
    · rintro ⟨hlt, v, hcell, rfl⟩
      refine List.mem_filterMap.2 ⟨row, List.mem_range.2 hlt, ?_⟩
      rw [hcell]
  · intro cells row key
    constructor
    · intro h
      rcases List.mem_filterMap.1 h with ⟨row2, hrow2, heq⟩
      have hlt := List.mem_range.1 hrow2
      cases hcell : cells.getD row2 none with
      | none => rw [hcell] at heq; simp at heq
      | some x =>
        rw [hcell] at heq
        have heq2 : some (row2, realKey x) = some (row, key) := heq
        have heq3 := Option.some.inj heq2
        rw [Prod.mk.injEq] at heq3
        obtain ⟨hr, hk⟩ := heq3
        subst hr
        exact ⟨hlt, x, hcell, hk.symm⟩
    · rintro ⟨hlt, x, hcell, rfl⟩
      refine List.mem_filterMap.2 ⟨row, List.mem_range.2 hlt, ?_⟩
      rw [hcell]
  · intro data
    induction data with
    | nil => intro _ rc hrc; cases hrc
    | cons c rest ih =>
      intro hall rc hrc
      rw [allContribs_cons, List.mem_append] at hrc
      rcases hrc with h | h
      · obtain ⟨cells, rfl⟩ := hall c (List.mem_cons_self c rest)
        exact hstr cells rc.1 rc.2 (by
          rw [show (rc.1, rc.2) = rc from rfl]
          exact h)
      · exact ih (fun c2 hc2 => hall c2 (List.mem_cons_of_mem c hc2)) rc h

/-- Claim C7 counterexample: with two string columns both holding `"a"` in
the single row, the key `"a"` is contributed twice by row 0 alone
(once per column), so `value_map` gains the entry `("a", [1, 1])` although
the value appears in only one row. -/
theorem claim_C7_counterexample :
    multi_column_group
        [Column.strCol [some [97]], Column.strCol [some [97]]] [] true 1 =
      ⟨[1], 1, [1], [([97], [1, 1])]⟩ ∧
    (rowsOfKey (allContribs [Column.strCol [some [97]],
        Column.strCol [some [97]]] [] true 1) [97]).dedup = [0] := by
  refine ⟨by decide, by decide⟩

/-- Claim C7 amended: a `value_map` entry for a key exists exactly when the
key is contributed at least twice, counted with multiplicity — a single
row contributing the key through two columns counts twice — and the entry
lists the contributing row indices 1-based in contribution scan order
(columns left to right, rows ascending, possibly with repeats). -/
theorem claim_C7_amended (data : List Column) (incomparables : List Bytes)
    (cs : Bool) (mgs : Int) (hd : data.length ≠ 0)
    (hn : firstNRows data ≠ 0) (key : Bytes) (rows : List Nat) :
    (key, rows) ∈ (multi_column_group data incomparables cs mgs).value_map ↔
      (2 ≤ (rowsOfKey (allContribs data (incompSet incomparables cs) cs
          (firstNRows data)) key).length ∧
        rows = (rowsOfKey (allContribs data (incompSet incomparables cs) cs
          (firstNRows data)) key).map (· + 1)) := by
  rw [multi_column_group_eq data incomparables cs mgs hd hn]
  show (key, rows) ∈ valueMapOf (buildVTR data (incompSet incomparables cs)
    cs (firstNRows data)) ↔ _
  constructor
  · intro h
    rcases List.mem_filterMap.1 h with ⟨pr, hpr, heq⟩
    by_cases hlen : 2 ≤ pr.2.length
    · rw [if_pos hlen] at heq
      have heq2 := Option.some.inj heq
      rw [Prod.mk.injEq] at heq2
      obtain ⟨hk, hr⟩ := heq2
      obtain ⟨hrows, -⟩ :=
        buildVTR_mem.1 (show (pr.1, pr.2) ∈ _ from by
          rw [show (pr.1, pr.2) = pr from rfl]; exact hpr)
      constructor
      · rw [← hk, ← hrows]
        exact hlen
      · rw [← hr, ← hk, ← hrows]
    · rw [if_neg hlen] at heq
      cases heq
  · rintro ⟨hlen, rfl⟩
    have hne : rowsOfKey (allContribs data (incompSet incomparables cs) cs
        (firstNRows data)) key ≠ [] := by
      intro hc
      rw [hc] at hlen
      simp at hlen
    refine List.mem_filterMap.2
      ⟨(key, rowsOfKey (allContribs data (incompSet incomparables cs) cs
        (firstNRows data)) key), buildVTR_mem.2 ⟨rfl, hne⟩, ?_⟩
    rw [if_pos hlen]

/-- Witness for the amended C7 on the duplicated-column example. -/
theorem claim_C7_amended_witness :
    ([97], [1, 1]) ∈ (multi_column_group
      [Column.strCol [some [97]], Column.strCol [some [97]]]
      [] true 1).value_map :=
  (claim_C7_amended [Column.strCol [some [97]], Column.strCol [some [97]]]
    [] true 1 (by decide) (by decide) [97] [1, 1]).2 ⟨by decide, by decide⟩

end GraphC
